import Mathlib

/-!
Verification of the Cheerp FixIrreducibleControlFlow pass
(include/llvm/Cheerp/FixIrreducibleControlFlow.h and its specification).

Basic blocks are identified by natural numbers.  A control-flow graph is a
finite list of block identifiers, a distinguished entry, a successor map
(a block's terminator names its ordered successor slots) and per-block
phi-merge records.
-/

namespace CheerpFix

/-- Abstract SSA values appearing as incoming operands of phi-merge records:
an undefined value, an integer constant, or a reference to another value
(identified by number). -/
inductive Val where
  | undef : Val
  | cst : Nat → Val
  | ref : Nat → Val
deriving DecidableEq

/-- A phi-merge record at a block head: its value identity `pid` and the list
of (predecessor block, incoming value) pairs. -/
structure PhiNode where
  pid : Nat
  incoming : List (Nat × Val)
deriving DecidableEq

/-- A function's control-flow graph. -/
structure CFG where
  blocks : List Nat
  entry : Nat
  succs : Nat → List Nat
  phis : Nat → List PhiNode

/-- One round of successor expansion of a reached set, restricted by `keep`. -/
def expandOnce (succs : Nat → List Nat) (keep : Nat → Bool) (acc : List Nat) : List Nat :=
  acc ++ ((acc.flatMap succs).filter (fun x => keep x && !(acc.contains x))).dedup

/-- Iterated successor expansion. -/
def expandN (succs : Nat → List Nat) (keep : Nat → Bool) : Nat → List Nat → List Nat
  | 0, acc => acc
  | n+1, acc => expandN succs keep n (expandOnce succs keep acc)

/-- Step filter for avoiding a vertex while staying inside the function. -/
def avoidKeep (G : CFG) (a : Nat) : Nat → Bool :=
  fun x => decide (x ≠ a) && G.blocks.contains x

/-- Step filter staying inside the function. -/
def blocksKeep (G : CFG) : Nat → Bool :=
  fun x => G.blocks.contains x

/-- Blocks reachable from the entry while avoiding block `a`: the classic
characterization used to decide dominance. -/
def reachAvoid (G : CFG) (a : Nat) : List Nat :=
  if G.entry = a then []
  else expandN G.succs (avoidKeep G a) G.blocks.length [G.entry]

/-- Blocks reachable from the entry. -/
def reachSet (G : CFG) : List Nat :=
  expandN G.succs (blocksKeep G) G.blocks.length [G.entry]

/-- `DominatorTree::dominates` as consulted by the pass: `A` dominates `B` when
`A = B` or `B` cannot be reached from the entry without passing through `A`
(so every block dominates an unreachable block, as in LLVM). -/
def dominatesB (G : CFG) (A B : Nat) : Bool :=
  A == B || !((reachAvoid G A).contains B)

/-- CFG predecessors of `B`: the blocks whose terminator names `B` as a
successor. -/
def predsOf (G : CFG) (B : Nat) : List Nat :=
  G.blocks.filter (fun P => (G.succs P).contains B)

/-- The `Preds` set computed by the `MetaBlock` constructor
(FixIrreducibleControlFlow.h lines 52-62): every CFG predecessor of the
entry that the entry does not dominate is inserted; dominated predecessors
(loops internal to the metablock) are skipped. -/
def metaPreds (G : CFG) (Entry : Nat) : List Nat :=
  (predsOf G Entry).filter (fun P => !(dominatesB G Entry P))

theorem dominatesB_refl (G : CFG) (A : Nat) : dominatesB G A A = true := by
  simp [dominatesB]

theorem mem_predsOf (G : CFG) (B P : Nat) :
    P ∈ predsOf G B ↔ P ∈ G.blocks ∧ B ∈ G.succs P := by
  simp [predsOf, List.mem_filter]

/-- C4: the MetaBlock constructed for a header `E` has `Preds` equal to exactly
the set of blocks `P` such that an edge `P → E` exists and `E` does not
dominate `P`; every CFG predecessor of `E` not dominated by `E` is included
and every predecessor dominated by `E` is excluded. -/
theorem c4_metablock_preds (G : CFG) (E P : Nat) :
    P ∈ metaPreds G E ↔ (P ∈ G.blocks ∧ E ∈ G.succs P ∧ dominatesB G E P = false) := by
  simp [metaPreds, List.mem_filter, mem_predsOf, and_assoc]

/-- C9: a self-loop edge `H → H` never puts `H` into its own MetaBlock `Preds`
set, because dominance is reflexive, so the constructor's filter rejects the
self-loop predecessor. -/
theorem c9_selfloop_excluded (G : CFG) (H : Nat) (hself : H ∈ G.succs H) :
    H ∉ metaPreds G H := by
  intro hmem
  rw [c4_metablock_preds] at hmem
  have hdom := dominatesB_refl G H
  rw [hmem.2.2] at hdom
  exact Bool.false_ne_true hdom

/-- A concrete graph with a self-loop on block 1, used as witness input. -/
def selfLoopG : CFG :=
  { blocks := [0, 1]
    entry := 0
    succs := fun b => if b = 0 then [1] else if b = 1 then [1] else []
    phis := fun _ => [] }

/-- Witness for C9 at a concrete graph: block 1 has a self-loop edge and is
not a member of its own MetaBlock predecessor set. -/
theorem c9_selfloop_excluded_witness :
    1 ∈ selfLoopG.succs 1 ∧ 1 ∉ metaPreds selfLoopG 1 :=
  ⟨by decide, c9_selfloop_excluded selfLoopG 1 (by decide)⟩

/-- A node of the restricted subgraph view
(FixIrreducibleControlFlow.h lines 79-84). -/
structure GraphNode where
  Header : Nat
  Succs : List Nat
deriving DecidableEq

/-- The `SubGraph` state (FixIrreducibleControlFlow.h lines 85-110): entry
block, member block set, and the lazily populated node cache, one cached
`GraphNode` per basic block, modelled as an association list in insertion
order. -/
structure SubGraphSt where
  Entry : Nat
  Blocks : List Nat
  Nodes : List (Nat × GraphNode)
deriving DecidableEq

/-- Modelled from the spec: the `GraphNode` constructor body is not among the
provided sources (only its declaration is); per the spec the subgraph
"supports restricted SCC/dominator analysis without touching the full
function", so the node keeps the successors that are subgraph members. -/
def mkGraphNode (G : CFG) (sg : SubGraphSt) (BB : Nat) : GraphNode :=
  { Header := BB, Succs := (G.succs BB).filter (fun s => sg.Blocks.contains s) }

/-- `SubGraph::getOrCreate` (FixIrreducibleControlFlow.h lines 95-103): look
the block up in the node cache; if absent, construct a node from the current
subgraph and insert it; return the cached node. -/
def getOrCreate (G : CFG) (sg : SubGraphSt) (BB : Nat) : GraphNode × SubGraphSt :=
  match sg.Nodes.find? (fun q => q.1 == BB) with
  | some q => (q.2, sg)
  | none =>
      let n := mkGraphNode G sg BB
      (n, { sg with Nodes := sg.Nodes ++ [(BB, n)] })

/-- The cached keys of a subgraph, in insertion order. -/
def keys (sg : SubGraphSt) : List Nat := sg.Nodes.map Prod.fst

/-- Number of cache entries held for block `B`. -/
def countKeyL (l : List (Nat × GraphNode)) (B : Nat) : Nat :=
  (l.filter (fun q => q.1 == B)).length

/-- Run a sequence of `getOrCreate` calls, threading the cache state. -/
def runCalls (G : CFG) (sg : SubGraphSt) (l : List Nat) : SubGraphSt :=
  l.foldl (fun s b => (getOrCreate G s b).2) sg

theorem find_key_eq (BB : Nat) (n : GraphNode) :
    ∀ (l : List (Nat × GraphNode)), (l.map Prod.fst).Nodup → (BB, n) ∈ l →
      l.find? (fun q => q.1 == BB) = some (BB, n) := by
  intro l
  induction l with
  | nil => intro _ hm; cases hm
  | cons a t ih =>
      intro hnd hm
      rw [List.map_cons, List.nodup_cons] at hnd
      obtain ⟨hna, hnt⟩ := hnd
      by_cases hab : a.1 = BB
      · have hdup : a = (BB, n) := by
          rcases List.mem_cons.mp hm with hm1 | hm1
          · exact hm1.symm
          · exact absurd (List.mem_map.mpr ⟨(BB, n), hm1, rfl⟩) (hab ▸ hna)
        rw [List.find?_cons_of_pos _ (by simp [hab]), hdup]
      · have hm' : (BB, n) ∈ t := by
          rcases List.mem_cons.mp hm with hm1 | hm1
          · exact absurd (congrArg Prod.fst hm1).symm hab
          · exact hm1
        rw [List.find?_cons_of_neg _ (by simp [hab])]
        exact ih hnt hm'

theorem getOrCreate_of_mem (G : CFG) (sg : SubGraphSt) (BB : Nat) (n : GraphNode)
    (h : (keys sg).Nodup) (hm : (BB, n) ∈ sg.Nodes) :
    getOrCreate G sg BB = (n, sg) := by
  unfold getOrCreate
  rw [find_key_eq BB n sg.Nodes h hm]

/-- The state after one call either is unchanged (cache hit) or appends a
single fresh entry (cache miss). -/
theorem nodes_getOrCreate (G : CFG) (sg : SubGraphSt) (C : Nat) :
    (getOrCreate G sg C).2 = sg ∨
      (C ∉ keys sg ∧
        (getOrCreate G sg C).2 = ⟨sg.Entry, sg.Blocks, sg.Nodes ++ [(C, mkGraphNode G sg C)]⟩) := by
  unfold getOrCreate
  cases hfind : sg.Nodes.find? (fun q => q.1 == C) with
  | some q => left; rfl
  | none =>
      right
      constructor
      · intro hk
        rcases List.mem_map.mp hk with ⟨p, hp, hp1⟩
        have := List.find?_eq_none.mp hfind p hp
        simp [hp1] at this
      · rfl

theorem mem_nodes_getOrCreate (G : CFG) (sg : SubGraphSt) (C : Nat) {B : Nat} {n : GraphNode}
    (hm : (B, n) ∈ sg.Nodes) : (B, n) ∈ (getOrCreate G sg C).2.Nodes := by
  rcases nodes_getOrCreate G sg C with h | ⟨_, h⟩
  · rw [h]; exact hm
  · rw [h]; exact List.mem_append_left _ hm

theorem keys_nodup_getOrCreate (G : CFG) (sg : SubGraphSt) (C : Nat)
    (h : (keys sg).Nodup) : (keys (getOrCreate G sg C).2).Nodup := by
  rcases nodes_getOrCreate G sg C with heq | ⟨hC, heq⟩
  · rw [heq]; exact h
  · rw [heq]
    simp only [keys, List.map_append, List.map_cons, List.map_nil]
    exact List.Nodup.append h (List.nodup_singleton C) (by
      intro x hx hx'
      simp at hx'
      subst hx'
      exact hC hx)

theorem self_mem_getOrCreate (G : CFG) (sg : SubGraphSt) (BB : Nat) :
    (BB, (getOrCreate G sg BB).1) ∈ (getOrCreate G sg BB).2.Nodes := by
  unfold getOrCreate
  cases hfind : sg.Nodes.find? (fun q => q.1 == BB) with
  | some q =>
      have hq : q.1 = BB := by simpa using List.find?_some hfind
      have hqm : q ∈ sg.Nodes := List.mem_of_find?_eq_some hfind
      simpa [← hq] using hqm
  | none => simp

theorem mem_nodes_runCalls (G : CFG) {B : Nat} {n : GraphNode} :
    ∀ (l : List Nat) (sg : SubGraphSt), (B, n) ∈ sg.Nodes → (B, n) ∈ (runCalls G sg l).Nodes := by
  intro l
  induction l with
  | nil => intro sg hm; exact hm
  | cons c t ih =>
      intro sg hm
      exact ih _ (mem_nodes_getOrCreate G sg c hm)

theorem keys_nodup_runCalls (G : CFG) :
    ∀ (l : List Nat) (sg : SubGraphSt), (keys sg).Nodup → (keys (runCalls G sg l)).Nodup := by
  intro l
  induction l with
  | nil => intro sg h; exact h
  | cons c t ih =>
      intro sg h
      exact ih _ (keys_nodup_getOrCreate G sg c h)

theorem countKeyL_eq_zero_of_not_mem (B : Nat) :
    ∀ (l : List (Nat × GraphNode)), B ∉ l.map Prod.fst → countKeyL l B = 0 := by
  intro l
  induction l with
  | nil => intro _; rfl
  | cons a t ih =>
      intro h
      have ha : ¬ (a.1 = B) := fun he => h (by simp [← he])
      have ht : B ∉ t.map Prod.fst := fun hm => h (by simp [hm])
      simpa [countKeyL, List.filter_cons, ha] using ih ht

theorem countKeyL_le_one (B : Nat) :
    ∀ (l : List (Nat × GraphNode)), (l.map Prod.fst).Nodup → countKeyL l B ≤ 1 := by
  intro l
  induction l with
  | nil => intro _; simp [countKeyL]
  | cons a t ih =>
      intro hnd
      rw [List.map_cons, List.nodup_cons] at hnd
      obtain ⟨hna, hnt⟩ := hnd
      by_cases hab : a.1 = B
      · have hz : countKeyL t B = 0 :=
          countKeyL_eq_zero_of_not_mem B t (hab ▸ hna)
        simp only [countKeyL, List.filter_cons] at hz ⊢
        simp [hab, hz]
      · simpa [countKeyL, List.filter_cons, hab] using ih hnt

theorem countKeyL_pos_of_mem {B : Nat} {n : GraphNode} :
    ∀ {l : List (Nat × GraphNode)}, (B, n) ∈ l → 1 ≤ countKeyL l B := by
  intro l hm
  have : (B, n) ∈ l.filter (fun q => q.1 == B) := List.mem_filter.mpr ⟨hm, by simp⟩
  have hlen := List.length_pos.mpr (List.ne_nil_of_mem this)
  simpa [countKeyL] using hlen

/-- C10: the lazily populated node cache holds at most one GraphNode per basic
block, preserved by every operation: after a first `getOrCreate` call for
block `BB` and an arbitrary interleaved sequence of further calls, another
call for `BB` returns the very node the first call returned, leaves the
cache state unchanged, and the cache holds exactly one entry for `BB` — a
node is created only on the first call for that block. -/
theorem c10_getOrCreate_cache (G : CFG) (sg : SubGraphSt) (BB : Nat) (l : List Nat)
    (h : (keys sg).Nodup) :
    (getOrCreate G (runCalls G (getOrCreate G sg BB).2 l) BB).1 = (getOrCreate G sg BB).1 ∧
    (getOrCreate G (runCalls G (getOrCreate G sg BB).2 l) BB).2 =
      runCalls G (getOrCreate G sg BB).2 l ∧
    countKeyL (runCalls G (getOrCreate G sg BB).2 l).Nodes BB = 1 := by
  have h1 : (BB, (getOrCreate G sg BB).1) ∈ (getOrCreate G sg BB).2.Nodes :=
    self_mem_getOrCreate G sg BB
  have hnd1 : (keys (getOrCreate G sg BB).2).Nodup := keys_nodup_getOrCreate G sg BB h
  have h2 : (BB, (getOrCreate G sg BB).1) ∈ (runCalls G (getOrCreate G sg BB).2 l).Nodes :=
    mem_nodes_runCalls G l _ h1
  have hnd2 : (keys (runCalls G (getOrCreate G sg BB).2 l)).Nodup :=
    keys_nodup_runCalls G l _ hnd1
  have hfinal := getOrCreate_of_mem G _ BB _ hnd2 h2
  refine ⟨by rw [hfinal], by rw [hfinal], ?_⟩
  exact Nat.le_antisymm (countKeyL_le_one BB _ hnd2) (countKeyL_pos_of_mem h2)

/-- Witness for C10: a concrete graph and the call sequence 0, 1, 0, 2, 0 on an
initially empty cache. -/
theorem c10_getOrCreate_cache_witness :
    ((keys ⟨0, [0, 1, 2], []⟩).Nodup ∧
      (getOrCreate selfLoopG (runCalls selfLoopG (getOrCreate selfLoopG ⟨0, [0, 1, 2], []⟩ 0).2 [1, 0, 2]) 0).1 =
        (getOrCreate selfLoopG ⟨0, [0, 1, 2], []⟩ 0).1 ∧
      (getOrCreate selfLoopG (runCalls selfLoopG (getOrCreate selfLoopG ⟨0, [0, 1, 2], []⟩ 0).2 [1, 0, 2]) 0).2 =
        runCalls selfLoopG (getOrCreate selfLoopG ⟨0, [0, 1, 2], []⟩ 0).2 [1, 0, 2] ∧
      countKeyL (runCalls selfLoopG (getOrCreate selfLoopG ⟨0, [0, 1, 2], []⟩ 0).2 [1, 0, 2]).Nodes 0 = 1) := by
  refine ⟨by decide, ?_⟩
  exact c10_getOrCreate_cache selfLoopG ⟨0, [0, 1, 2], []⟩ 0 [1, 0, 2] (by decide)

/-!
The fix operation.  The bodies of `SCCVisitor::run`, `processBlocks`,
`fixPredecessor` and `makeDispatchPHIs` are not among the provided sources
(the header only declares them), so the construction below is modelled from
the spec, section 4.3, reusing the `MetaBlock` predecessor computation that
is in the header.
-/

/-- Modelled from the spec: the headers of a component found by
`SCCVisitor::run` (body not in the provided sources) — the member blocks
with a CFG predecessor outside the component, in member order. -/
def hdrsOf (G : CFG) (scc : List Nat) : List Nat :=
  scc.filter (fun B => (predsOf G B).any (fun P => !(scc.contains P)))

/-- First block identifier not used by the function. -/
def freshB (G : CFG) : Nat := G.blocks.foldr max 0 + 1

/-- Largest phi-merge value identifier used by the function. -/
def maxPid (G : CFG) : Nat :=
  (G.blocks.map (fun b => (G.phis b).foldr (fun p m => max p.pid m) 0)).foldr max 0

/-- First phi-merge value identifier not used by the function. -/
def freshV (G : CFG) : Nat := maxPid G + 1

/-- Pair each list element with an identifier, counting up from `base`. -/
def numberList (base : Nat) : List Nat → List (Nat × Nat)
  | [] => []
  | P :: rest => (base, P) :: numberList (base + 1) rest

/-- Modelled from the spec: the forwarding-block table of one fix operation
(`fixPredecessor`, body not in the provided sources): one forwarding block
per (external predecessor, MetaBlock) pair, as triples
(forward block id, predecessor, MetaBlock index). -/
def fwdSpecsAux (G : CFG) : Nat → Nat → List Nat → List (Nat × Nat × Nat)
  | _, _, [] => []
  | base, i, E :: rest =>
      (numberList base (metaPreds G E)).map (fun q => (q.1, q.2, i)) ++
        fwdSpecsAux G (base + (metaPreds G E).length) (i + 1) rest

def fwdSpecs (G : CFG) (hdrs : List Nat) (base : Nat) : List (Nat × Nat × Nat) :=
  fwdSpecsAux G base 0 hdrs

/-- Incoming value of a phi-merge record for a given predecessor. -/
def lookupVal (l : List (Nat × Val)) (P : Nat) : Val :=
  match l.find? (fun q => q.1 == P) with
  | some q => q.2
  | none => Val.undef

/-- Modelled from the spec: redirection of one successor slot of a rerouted
predecessor's terminator — a slot naming a MetaBlock entry for which this
predecessor has a forwarding block is retargeted to that forwarding block. -/
def redirectSlot (specs : List (Nat × Nat × Nat)) (hdrs : List Nat) (X s : Nat) : Nat :=
  match specs.find? (fun t => t.2.1 == X && (hdrs[t.2.2]? == some s)) with
  | some t => t.1
  | none => s

/-- Modelled from the spec: the successor map after one fix operation.  The
Dispatcher `D` carries one switch case per MetaBlock index targeting that
MetaBlock's entry followed by the defensive unreachable default `U`; the
default block has no successors; each forwarding block branches
unconditionally to the Dispatcher; every other block keeps its terminator
with rerouted slots redirected to the forwarding blocks. -/
def newSuccs (G : CFG) (hdrs : List Nat) (specs : List (Nat × Nat × Nat)) (D U X : Nat) :
    List Nat :=
  if X = D then hdrs ++ [U]
  else if X = U then []
  else if specs.any (fun t => t.1 == X) then [D]
  else (G.succs X).map (fun s => redirectSlot specs hdrs X s)

/-- Modelled from the spec: the Label-indexed phi-merge created inside the
Dispatcher for the `j`-th phi of the `i`-th MetaBlock entry — per forwarding
block of that MetaBlock it selects the value the original phi held for the
originating predecessor; per forwarding block of any other MetaBlock the
value is irrelevant (undefined). -/
def dispatchPhiFor (specs : List (Nat × Nat × Nat)) (fv i j : Nat) (φ : PhiNode) : PhiNode :=
  { pid := fv + 1 + Nat.pair i j
    incoming := specs.map (fun t =>
      (t.1, if t.2.2 = i then lookupVal φ.incoming t.2.1 else Val.undef)) }

/-- Modelled from the spec: the rewritten phi-merge at a MetaBlock entry — it
consumes the Dispatcher-computed value as its single incoming value from the
Dispatcher, and keeps the incoming values of the predecessors that were not
rerouted. -/
def entryPhiFor (G : CFG) (D fv i j : Nat) (E : Nat) (φ : PhiNode) : PhiNode :=
  { pid := φ.pid
    incoming := (D, Val.ref (fv + 1 + Nat.pair i j)) ::
      φ.incoming.filter (fun q => !((metaPreds G E).contains q.1)) }

/-- Modelled from the spec: the Label phi of the Dispatcher — one incoming
constant per forwarding block, carrying the index of the MetaBlock the
forwarding block leads towards. -/
def labelPhi (specs : List (Nat × Nat × Nat)) (fv : Nat) : PhiNode :=
  { pid := fv, incoming := specs.map (fun t => (t.1, Val.cst t.2.2)) }

/-- Modelled from the spec: the phi-merge records after one fix operation
(`makeDispatchPHIs`, body not in the provided sources). -/
def newPhis (G : CFG) (hdrs : List Nat) (specs : List (Nat × Nat × Nat)) (D U fv X : Nat) :
    List PhiNode :=
  if X = D then
    labelPhi specs fv ::
      (hdrs.enum.flatMap (fun p =>
        (G.phis p.2).enum.map (fun q => dispatchPhiFor specs fv p.1 q.1 q.2)))
  else if X = U then []
  else if hdrs.contains X then
    (G.phis X).enum.map (fun q => entryPhiFor G D fv (hdrs.indexOf X) q.1 X q.2)
  else if specs.any (fun t => t.1 == X) then []
  else G.phis X

/-- Result of one fix operation: the rewritten graph and the bookkeeping of
the construction. -/
structure FixOut where
  out : CFG
  disp : Nat
  dflt : Nat
  specs : List (Nat × Nat × Nat)
  hdrs : List Nat
  labelPid : Nat

/-- Modelled from the spec, section 4.3: one fix operation on an irreducible
component — enumerate MetaBlocks, create the Dispatcher with its Label and
unreachable default, create the forwarding blocks, redirect the rerouted
predecessors, and relocate the phis. -/
def fixSCC (G : CFG) (scc : List Nat) : FixOut :=
  let hdrs := hdrsOf G scc
  let D := freshB G
  let U := D + 1
  let specs := fwdSpecs G hdrs (D + 2)
  let fv := freshV G
  { out :=
      { blocks := G.blocks ++ D :: U :: specs.map (fun t => t.1)
        entry := G.entry
        succs := newSuccs G hdrs specs D U
        phis := newPhis G hdrs specs D U fv }
    disp := D
    dflt := U
    specs := specs
    hdrs := hdrs
    labelPid := fv }

/-- Well-formedness of a function and a component handed to a fix operation. -/
def FixWf (G : CFG) (scc : List Nat) : Prop :=
  G.blocks.Nodup ∧ scc.Nodup ∧
  (∀ b ∈ scc, b ∈ G.blocks) ∧
  (∀ b ∈ G.blocks, ∀ s ∈ G.succs b, s ∈ G.blocks) ∧
  (∀ b ∈ G.blocks, ∀ φ ∈ G.phis b, ∀ q ∈ φ.incoming, q.1 ∈ G.blocks)

instance (G : CFG) (scc : List Nat) : Decidable (FixWf G scc) := by
  unfold FixWf
  infer_instance

theorem mem_le_foldr_max (b : Nat) :
    ∀ (l : List Nat), b ∈ l → b ≤ l.foldr max 0 := by
  intro l
  induction l with
  | nil => intro h; cases h
  | cons a t ih =>
      intro h
      rcases List.mem_cons.mp h with h1 | h1
      · subst h1; exact le_max_left _ _
      · exact le_trans (ih h1) (le_max_right _ _)

theorem lt_freshB (G : CFG) {b : Nat} (h : b ∈ G.blocks) : b < freshB G :=
  Nat.lt_succ_of_le (mem_le_foldr_max b G.blocks h)

theorem mem_numberList_bounds {q : Nat × Nat} :
    ∀ {base : Nat} {l : List Nat}, q ∈ numberList base l →
      base ≤ q.1 ∧ q.1 < base + l.length ∧ q.2 ∈ l := by
  intro base l
  induction l generalizing base with
  | nil => intro h; cases h
  | cons P rest ih =>
      intro h
      rcases List.mem_cons.mp h with h1 | h1
      · subst h1
        exact ⟨le_refl _, by simp, by simp⟩
      · obtain ⟨h2, h3, h4⟩ := ih h1
        exact ⟨le_trans (Nat.le_succ _) h2, by simp only [List.length_cons]; omega,
          List.mem_cons_of_mem _ h4⟩

theorem numberList_complete {P : Nat} :
    ∀ (base : Nat) (l : List Nat), P ∈ l → ∃ f, (f, P) ∈ numberList base l := by
  intro base l
  induction l generalizing base with
  | nil => intro h; cases h
  | cons Q rest ih =>
      intro h
      rcases List.mem_cons.mp h with h1 | h1
      · exact ⟨base, by simp [numberList, h1]⟩
      · obtain ⟨f, hf⟩ := ih (base + 1) h1
        exact ⟨f, List.mem_cons_of_mem _ hf⟩

theorem numberList_id_inj {q q' : Nat × Nat} :
    ∀ {base : Nat} {l : List Nat}, q ∈ numberList base l → q' ∈ numberList base l →
      q.1 = q'.1 → q = q' := by
  intro base l
  induction l generalizing base with
  | nil => intro h; cases h
  | cons P rest ih =>
      intro h h' he
      rcases List.mem_cons.mp h with h1 | h1 <;> rcases List.mem_cons.mp h' with h2 | h2
      · rw [h1, h2]
      · subst h1
        have := (mem_numberList_bounds h2).1
        omega
      · subst h2
        have := (mem_numberList_bounds h1).1
        omega
      · exact ih h1 h2 he

/-- Total number of forwarding blocks created for a list of headers. -/
def totFwd (G : CFG) (l : List Nat) : Nat :=
  (l.map (fun E => (metaPreds G E).length)).sum

theorem mem_fwdSpecsAux {G : CFG} {t : Nat × Nat × Nat} :
    ∀ {base i0 : Nat} {l : List Nat}, t ∈ fwdSpecsAux G base i0 l →
      base ≤ t.1 ∧ t.1 < base + totFwd G l ∧
      ∃ j E, l[j]? = some E ∧ t.2.2 = i0 + j ∧ t.2.1 ∈ metaPreds G E := by
  intro base i0 l
  induction l generalizing base i0 with
  | nil => intro h; cases h
  | cons E rest ih =>
      intro h
      rcases List.mem_append.mp h with h1 | h1
      · rcases List.mem_map.mp h1 with ⟨q, hq, hqe⟩
        obtain ⟨hb1, hb2, hb3⟩ := mem_numberList_bounds hq
        subst hqe
        refine ⟨hb1, by simp [totFwd]; omega, 0, E, by simp, by simp, hb3⟩
      · obtain ⟨hb1, hb2, j, E', hj, hi, hm⟩ := ih h1
        refine ⟨by omega, by simp [totFwd] at hb2 ⊢; omega, j + 1, E', by simpa using hj,
          by omega, hm⟩

theorem fwdSpecsAux_complete {G : CFG} {P E : Nat} :
    ∀ (base i0 j : Nat) (l : List Nat), l[j]? = some E → P ∈ metaPreds G E →
      ∃ f, (f, P, i0 + j) ∈ fwdSpecsAux G base i0 l := by
  intro base i0 j l
  induction l generalizing base i0 j with
  | nil => intro h; simp at h
  | cons E0 rest ih =>
      intro hj hP
      cases j with
      | zero =>
          simp at hj
          subst hj
          obtain ⟨f, hf⟩ := numberList_complete base (metaPreds G E0) hP
          exact ⟨f, List.mem_append_left _ (List.mem_map.mpr ⟨(f, P), hf, rfl⟩)⟩
      | succ j' =>
          simp at hj
          obtain ⟨f, hf⟩ := ih (base + (metaPreds G E0).length) (i0 + 1) j' hj hP
          refine ⟨f, List.mem_append_right _ ?_⟩
          have : i0 + 1 + j' = i0 + (j' + 1) := by omega
          rwa [this] at hf

theorem fwdSpecsAux_id_inj {G : CFG} {t t' : Nat × Nat × Nat} :
    ∀ {base i0 : Nat} {l : List Nat}, t ∈ fwdSpecsAux G base i0 l →
      t' ∈ fwdSpecsAux G base i0 l → t.1 = t'.1 → t = t' := by
  intro base i0 l
  induction l generalizing base i0 with
  | nil => intro h; cases h
  | cons E rest ih =>
      intro h h' he
      rcases List.mem_append.mp h with h1 | h1 <;> rcases List.mem_append.mp h' with h2 | h2
      · rcases List.mem_map.mp h1 with ⟨q, hq, hqe⟩
        rcases List.mem_map.mp h2 with ⟨q', hq', hqe'⟩
        subst hqe hqe'
        have : q = q' := numberList_id_inj hq hq' he
        rw [this]
      · rcases List.mem_map.mp h1 with ⟨q, hq, hqe⟩
        have hb1 := (mem_numberList_bounds hq).2.1
        have hb2 := (mem_fwdSpecsAux h2).1
        subst hqe
        simp at he
        omega
      · rcases List.mem_map.mp h2 with ⟨q, hq, hqe⟩
        have hb1 := (mem_numberList_bounds hq).2.1
        have hb2 := (mem_fwdSpecsAux h1).1
        subst hqe
        simp at he
        omega
      · exact ih h1 h2 he

theorem redirectSlot_cases (specs : List (Nat × Nat × Nat)) (hdrs : List Nat) (X s : Nat) :
    redirectSlot specs hdrs X s = s ∨
      ∃ t ∈ specs, redirectSlot specs hdrs X s = t.1 ∧ t.2.1 = X ∧ hdrs[t.2.2]? = some s := by
  unfold redirectSlot
  cases hfind : specs.find? (fun t => t.2.1 == X && (hdrs[t.2.2]? == some s)) with
  | none => left; rfl
  | some t =>
      right
      have hp := List.find?_some hfind
      simp only [Bool.and_eq_true, beq_iff_eq] at hp
      exact ⟨t, List.mem_of_find?_eq_some hfind, rfl, hp.1, hp.2⟩

theorem redirectSlot_of_match (specs : List (Nat × Nat × Nat)) (hdrs : List Nat) (X s : Nat)
    (t0 : Nat × Nat × Nat) (hm : t0 ∈ specs) (h1 : t0.2.1 = X) (h2 : hdrs[t0.2.2]? = some s) :
    ∃ t ∈ specs, redirectSlot specs hdrs X s = t.1 ∧ t.2.1 = X ∧ hdrs[t.2.2]? = some s := by
  unfold redirectSlot
  cases hfind : specs.find? (fun t => t.2.1 == X && (hdrs[t.2.2]? == some s)) with
  | none =>
      exfalso
      have := List.find?_eq_none.mp hfind t0 hm
      simp only [Bool.and_eq_true, beq_iff_eq] at this
      exact this ⟨h1, h2⟩
  | some t =>
      have hp := List.find?_some hfind
      simp only [Bool.and_eq_true, beq_iff_eq] at hp
      exact ⟨t, List.mem_of_find?_eq_some hfind, rfl, hp.1, hp.2⟩

theorem newSuccs_old (G : CFG) (hdrs : List Nat) (specs : List (Nat × Nat × Nat)) (D X : Nat)
    (hbase : ∀ t ∈ specs, D + 2 ≤ t.1) (hX : X < D) :
    newSuccs G hdrs specs D (D + 1) X = (G.succs X).map (fun s => redirectSlot specs hdrs X s) := by
  have h1 : ¬(X = D) := by omega
  have h2 : ¬(X = D + 1) := by omega
  have h3 : specs.any (fun t => t.1 == X) = false := by
    rw [List.any_eq_false]
    intro t ht
    have := hbase t ht
    simp only [beq_iff_eq]
    omega
  simp [newSuccs, h1, h2, h3]

theorem newSuccs_disp (G : CFG) (hdrs : List Nat) (specs : List (Nat × Nat × Nat)) (D : Nat) :
    newSuccs G hdrs specs D (D + 1) D = hdrs ++ [D + 1] := by
  simp [newSuccs]

theorem newSuccs_dflt (G : CFG) (hdrs : List Nat) (specs : List (Nat × Nat × Nat)) (D : Nat) :
    newSuccs G hdrs specs D (D + 1) (D + 1) = [] := by
  have h1 : ¬(D + 1 = D) := by omega
  simp [newSuccs, h1]

theorem newSuccs_fwd (G : CFG) (hdrs : List Nat) (specs : List (Nat × Nat × Nat)) (D f : Nat)
    (hbase : ∀ t ∈ specs, D + 2 ≤ t.1) (hf : ∃ t ∈ specs, t.1 = f) :
    newSuccs G hdrs specs D (D + 1) f = [D] := by
  obtain ⟨t, ht, hte⟩ := hf
  have hge := hbase t ht
  have h1 : ¬(f = D) := by omega
  have h2 : ¬(f = D + 1) := by omega
  have h3 : specs.any (fun t => t.1 == f) = true :=
    List.any_eq_true.mpr ⟨t, ht, by simp [hte]⟩
  simp [newSuccs, h1, h2, h3]

theorem hdrs_subset_scc (G : CFG) (scc : List Nat) {E : Nat} (hE : E ∈ hdrsOf G scc) :
    E ∈ scc :=
  (List.mem_filter.mp hE).1

theorem hdr_has_outside_pred (G : CFG) (scc : List Nat) {E : Nat} (hE : E ∈ hdrsOf G scc) :
    ∃ P ∈ predsOf G E, P ∉ scc := by
  have h := (List.mem_filter.mp hE).2
  rw [List.any_eq_true] at h
  obtain ⟨P, hP, hP2⟩ := h
  refine ⟨P, hP, ?_⟩
  simpa using hP2

theorem non_hdr_preds (G : CFG) (scc : List Nat) {B : Nat} (hB : B ∈ scc)
    (hnh : B ∉ hdrsOf G scc) {P : Nat} (hP : P ∈ predsOf G B) : P ∈ scc := by
  by_contra hns
  exact hnh (List.mem_filter.mpr ⟨hB, List.any_eq_true.mpr ⟨P, hP, by simpa using hns⟩⟩)

theorem not_mem_metaPreds_dom (G : CFG) {E P : Nat} (hP : P ∈ predsOf G E)
    (hnm : P ∉ metaPreds G E) : dominatesB G E P = true := by
  by_contra hd
  exact hnm (List.mem_filter.mpr ⟨hP, by simpa using hd⟩)

theorem fix_blocks (G : CFG) (scc : List Nat) :
    (fixSCC G scc).out.blocks =
      G.blocks ++ freshB G :: (freshB G + 1) ::
        (fwdSpecs G (hdrsOf G scc) (freshB G + 2)).map (fun t => t.1) := rfl

theorem fix_succs (G : CFG) (scc : List Nat) :
    (fixSCC G scc).out.succs =
      newSuccs G (hdrsOf G scc) (fwdSpecs G (hdrsOf G scc) (freshB G + 2)) (freshB G)
        (freshB G + 1) := rfl

theorem fix_phis (G : CFG) (scc : List Nat) :
    (fixSCC G scc).out.phis =
      newPhis G (hdrsOf G scc) (fwdSpecs G (hdrsOf G scc) (freshB G + 2)) (freshB G)
        (freshB G + 1) (freshV G) := rfl

theorem fwdSpecs_base (G : CFG) (scc : List Nat) :
    ∀ t ∈ fwdSpecs G (hdrsOf G scc) (freshB G + 2), freshB G + 2 ≤ t.1 :=
  fun _ ht => (mem_fwdSpecsAux ht).1

/-- Every predecessor, in the rewritten graph, of a component block lies in
the component or is the Dispatcher: all rerouted entries now come through
the Dispatcher. -/
theorem preds_fix_in_region (G : CFG) (scc : List Nat) (hwf : FixWf G scc)
    (hdom : ∀ h ∈ hdrsOf G scc, ∀ P ∈ predsOf G h, dominatesB G h P = true → P ∈ scc)
    {B P : Nat} (hB : B ∈ scc) (hP : P ∈ predsOf (fixSCC G scc).out B) :
    P ∈ scc ∨ P = freshB G := by
  obtain ⟨hnd, hsnd, hsub, hcl, hphi⟩ := hwf
  rw [mem_predsOf, fix_blocks, fix_succs] at hP
  obtain ⟨hPb, hBs⟩ := hP
  have hbase := fwdSpecs_base G scc
  have hBblk : B ∈ G.blocks := hsub B hB
  have hBlt : B < freshB G := lt_freshB G hBblk
  rcases List.mem_append.mp hPb with hPold | hPnew
  · left
    have hPlt : P < freshB G := lt_freshB G hPold
    rw [newSuccs_old G _ _ _ P hbase hPlt] at hBs
    obtain ⟨s, hs, hred⟩ := List.mem_map.mp hBs
    rcases redirectSlot_cases (fwdSpecs G (hdrsOf G scc) (freshB G + 2)) (hdrsOf G scc) P s
      with hc | ⟨t, ht, he, _, _⟩
    · have hsb : s = B := by rw [← hc, hred]
      rw [hsb] at hs hc
      have hPpred : P ∈ predsOf G B := (mem_predsOf G B P).mpr ⟨hPold, hs⟩
      by_cases hBh : B ∈ hdrsOf G scc
      · by_cases hm : P ∈ metaPreds G B
        · exfalso
          obtain ⟨iB, hiB⟩ := List.mem_iff_getElem?.mp hBh
          obtain ⟨f, hf⟩ := fwdSpecsAux_complete (freshB G + 2) 0 iB (hdrsOf G scc) hiB hm
          obtain ⟨t, ht, he, _, _⟩ :=
            redirectSlot_of_match (fwdSpecs G (hdrsOf G scc) (freshB G + 2)) (hdrsOf G scc)
              P B (f, P, 0 + iB) hf rfl (by simpa using hiB)
          rw [hc] at he
          have := hbase t ht
          omega
        · exact hdom B hBh P hPpred (not_mem_metaPreds_dom G hPpred hm)
      · exact non_hdr_preds G scc hB hBh hPpred
    · exfalso
      rw [he] at hred
      have := hbase t ht
      omega
  · rcases List.mem_cons.mp hPnew with hPD | hPrest
    · right; exact hPD
    rcases List.mem_cons.mp hPrest with hPU | hPids
    · exfalso
      subst hPU
      rw [newSuccs_dflt] at hBs
      cases hBs
    · exfalso
      obtain ⟨t, ht, hte⟩ := List.mem_map.mp hPids
      have hfwd : newSuccs G (hdrsOf G scc) (fwdSpecs G (hdrsOf G scc) (freshB G + 2))
          (freshB G) (freshB G + 1) P = [freshB G] :=
        newSuccs_fwd G _ _ _ P hbase ⟨t, ht, hte⟩
      rw [hfwd] at hBs
      have : B = freshB G := by simpa using hBs
      omega

/-- In the rewritten graph the predecessors of the Dispatcher are exactly the
forwarding blocks, in creation order. -/
theorem preds_fix_disp (G : CFG) (scc : List Nat) (hwf : FixWf G scc) :
    predsOf (fixSCC G scc).out (freshB G) =
      (fwdSpecs G (hdrsOf G scc) (freshB G + 2)).map (fun t => t.1) := by
  obtain ⟨hnd, hsnd, hsub, hcl, hphi⟩ := hwf
  have hbase := fwdSpecs_base G scc
  unfold predsOf
  rw [fix_blocks, fix_succs, List.filter_append]
  have h1 : G.blocks.filter (fun P =>
      (newSuccs G (hdrsOf G scc) (fwdSpecs G (hdrsOf G scc) (freshB G + 2)) (freshB G)
        (freshB G + 1) P).contains (freshB G)) = [] := by
    rw [List.filter_eq_nil]
    intro P hPold
    have hPlt : P < freshB G := lt_freshB G hPold
    rw [newSuccs_old G _ _ _ P hbase hPlt]
    intro hcont
    have hmem : freshB G ∈ (G.succs P).map
        (fun s => redirectSlot (fwdSpecs G (hdrsOf G scc) (freshB G + 2)) (hdrsOf G scc) P s) := by
      simpa using hcont
    obtain ⟨s, hs, hred⟩ := List.mem_map.mp hmem
    rcases redirectSlot_cases (fwdSpecs G (hdrsOf G scc) (freshB G + 2)) (hdrsOf G scc) P s
      with hc | ⟨t, ht, he, _, _⟩
    · have hsb : s = freshB G := by rw [← hc, hred]
      rw [hsb] at hs
      exact absurd (lt_freshB G (hcl P hPold _ hs)) (by omega)
    · rw [he] at hred
      have := hbase t ht
      omega
  rw [h1, List.nil_append]
  have hD : ((newSuccs G (hdrsOf G scc) (fwdSpecs G (hdrsOf G scc) (freshB G + 2)) (freshB G)
      (freshB G + 1) (freshB G)).contains (freshB G)) = false := by
    rw [newSuccs_disp]
    simp only [List.contains, List.elem_eq_mem, decide_eq_false_iff_not]
    intro hmem
    rcases List.mem_append.mp hmem with hmem | hmem
    · have := lt_freshB G (hsub _ (hdrs_subset_scc G scc hmem))
      omega
    · simp at hmem
  have hU : ((newSuccs G (hdrsOf G scc) (fwdSpecs G (hdrsOf G scc) (freshB G + 2)) (freshB G)
      (freshB G + 1) (freshB G + 1)).contains (freshB G)) = false := by
    rw [newSuccs_dflt]
    rfl
  rw [List.filter_cons_of_neg (by simpa using hD), List.filter_cons_of_neg (by simpa using hU)]
  rw [List.filter_eq_self]
  intro f hf
  obtain ⟨t, ht, hte⟩ := List.mem_map.mp hf
  rw [newSuccs_fwd G _ _ _ f hbase ⟨t, ht, hte⟩]
  simp

/-- Number of blocks of `S` having a CFG predecessor outside `S`: the
externally-entered blocks of the region `S`. -/
def countExt (G : CFG) (S : List Nat) : Nat :=
  (S.filter (fun B => (predsOf G B).any (fun P => !(S.contains P)))).length

theorem countExt_eq_hdrs_length (G : CFG) (scc : List Nat) :
    countExt G scc = (hdrsOf G scc).length := rfl

theorem hdr_mem_metaPreds_of_outside (G : CFG) (scc : List Nat)
    (hdom : ∀ h ∈ hdrsOf G scc, ∀ P ∈ predsOf G h, dominatesB G h P = true → P ∈ scc)
    {E P : Nat} (hE : E ∈ hdrsOf G scc) (hP : P ∈ predsOf G E) (hPo : P ∉ scc) :
    P ∈ metaPreds G E := by
  refine List.mem_filter.mpr ⟨hP, ?_⟩
  simp only [Bool.not_eq_true']
  by_contra hd
  rw [Bool.not_eq_false] at hd
  exact hPo (hdom E hE P hP hd)

/-- There is at least one forwarding block as soon as some header exists. -/
theorem fwd_nonempty_of_hdr (G : CFG) (scc : List Nat)
    (hdom : ∀ h ∈ hdrsOf G scc, ∀ P ∈ predsOf G h, dominatesB G h P = true → P ∈ scc)
    {E : Nat} (hE : E ∈ hdrsOf G scc) :
    ∃ t, t ∈ fwdSpecs G (hdrsOf G scc) (freshB G + 2) := by
  obtain ⟨P, hP, hPo⟩ := hdr_has_outside_pred G scc hE
  have hm := hdr_mem_metaPreds_of_outside G scc hdom hE hP hPo
  obtain ⟨iE, hiE⟩ := List.mem_iff_getElem?.mp hE
  obtain ⟨f, hf⟩ := fwdSpecsAux_complete (freshB G + 2) 0 iE (hdrsOf G scc) hiE hm
  exact ⟨(f, P, 0 + iE), hf⟩

/-- After a fix operation the region consisting of the Dispatcher and the
component has exactly one externally-entered block, the Dispatcher itself:
the external multi-entry headers collapsed into the single Dispatcher
entry. -/
theorem fix_entry_count (G : CFG) (scc : List Nat) (hwf : FixWf G scc)
    (hdom : ∀ h ∈ hdrsOf G scc, ∀ P ∈ predsOf G h, dominatesB G h P = true → P ∈ scc)
    (hk : 2 ≤ (hdrsOf G scc).length) :
    countExt (fixSCC G scc).out (freshB G :: scc) = 1 := by
  have hwf' := hwf
  obtain ⟨hnd, hsnd, hsub, hcl, hphi⟩ := hwf'
  have hbase := fwdSpecs_base G scc
  obtain ⟨E, hE⟩ :=
    List.exists_mem_of_ne_nil (hdrsOf G scc) (List.length_pos.mp (by omega))
  obtain ⟨t0, ht0⟩ := fwd_nonempty_of_hdr G scc hdom hE
  have hDpred : (predsOf (fixSCC G scc).out (freshB G)).any
      (fun P => !((freshB G :: scc).contains P)) = true := by
    rw [preds_fix_disp G scc hwf]
    refine List.any_eq_true.mpr ⟨t0.1, List.mem_map.mpr ⟨t0, ht0, rfl⟩, ?_⟩
    have hge := hbase t0 ht0
    simp only [Bool.not_eq_true', List.contains, List.elem_eq_mem, decide_eq_false_iff_not]
    intro hmem
    rcases List.mem_cons.mp hmem with h1 | h1
    · omega
    · have := lt_freshB G (hsub _ h1)
      omega
  have hBfalse : ∀ B ∈ scc, (predsOf (fixSCC G scc).out B).any
      (fun P => !((freshB G :: scc).contains P)) = false := by
    intro B hB
    rw [List.any_eq_false]
    intro P hP
    simp only [Bool.not_eq_true', Bool.not_eq_false, List.contains, List.elem_eq_mem,
      decide_eq_true_eq]
    rcases preds_fix_in_region G scc hwf hdom hB hP with h1 | h1
    · exact List.mem_cons_of_mem _ h1
    · rw [h1]; exact List.mem_cons_self _ _
  unfold countExt
  rw [List.filter_cons_of_pos (by simpa using hDpred)]
  have : scc.filter (fun B => (predsOf (fixSCC G scc).out B).any
      (fun P => !((freshB G :: scc).contains P))) = [] := by
    rw [List.filter_eq_nil]
    intro B hB
    rw [hBfalse B hB]
    simp
  rw [this]
  rfl

/-- C8: after a fix operation the Dispatcher's terminator is a multiway branch
on the Label with exactly one case per MetaBlock index, each targeting that
MetaBlock's entry, plus a defensive default: the default block is distinct
from every case target and has no successors, every predecessor of the
Dispatcher is one of the forwarding blocks, these are exactly the incoming
slots of the Label phi, and each of them assigns a constant Label that is a
valid MetaBlock index selecting that MetaBlock's entry — so the unreachable
default is dead on every execution reaching the Dispatcher. -/
theorem c8_dispatcher_switch (G : CFG) (scc : List Nat) (hwf : FixWf G scc) :
    (fixSCC G scc).out.succs (fixSCC G scc).disp =
      (fixSCC G scc).hdrs ++ [(fixSCC G scc).dflt] ∧
    (fixSCC G scc).dflt ∉ (fixSCC G scc).hdrs ∧
    (fixSCC G scc).out.succs (fixSCC G scc).dflt = [] ∧
    ((fixSCC G scc).out.phis (fixSCC G scc).disp)[0]? =
      some (labelPhi (fixSCC G scc).specs (fixSCC G scc).labelPid) ∧
    (labelPhi (fixSCC G scc).specs (fixSCC G scc).labelPid).incoming.map Prod.fst =
      (fixSCC G scc).specs.map (fun t => t.1) ∧
    (∀ q ∈ (labelPhi (fixSCC G scc).specs (fixSCC G scc).labelPid).incoming,
      ∃ idx E, q.2 = Val.cst idx ∧ idx < (fixSCC G scc).hdrs.length ∧
        (fixSCC G scc).hdrs[idx]? = some E ∧
        ((fixSCC G scc).out.succs (fixSCC G scc).disp)[idx]? = some E) ∧
    predsOf (fixSCC G scc).out (fixSCC G scc).disp =
      (fixSCC G scc).specs.map (fun t => t.1) := by
  obtain ⟨hnd, hsnd, hsub, hcl, hphi⟩ := hwf
  refine ⟨?_, ?_, ?_, ?_, ?_, ?_, ?_⟩
  · show newSuccs G (hdrsOf G scc) (fwdSpecs G (hdrsOf G scc) (freshB G + 2)) (freshB G)
      (freshB G + 1) (freshB G) = hdrsOf G scc ++ [freshB G + 1]
    exact newSuccs_disp G _ _ _
  · show freshB G + 1 ∉ hdrsOf G scc
    intro hmem
    have := lt_freshB G (hsub _ (hdrs_subset_scc G scc hmem))
    omega
  · show newSuccs G (hdrsOf G scc) (fwdSpecs G (hdrsOf G scc) (freshB G + 2)) (freshB G)
      (freshB G + 1) (freshB G + 1) = []
    exact newSuccs_dflt G _ _ _
  · show (newPhis G (hdrsOf G scc) (fwdSpecs G (hdrsOf G scc) (freshB G + 2)) (freshB G)
      (freshB G + 1) (freshV G) (freshB G))[0]? =
        some (labelPhi (fwdSpecs G (hdrsOf G scc) (freshB G + 2)) (freshV G))
    simp [newPhis]
  · show (labelPhi (fwdSpecs G (hdrsOf G scc) (freshB G + 2)) (freshV G)).incoming.map Prod.fst =
      (fwdSpecs G (hdrsOf G scc) (freshB G + 2)).map (fun t => t.1)
    show ((fwdSpecs G (hdrsOf G scc) (freshB G + 2)).map
        (fun t => (t.1, Val.cst t.2.2))).map Prod.fst =
      (fwdSpecs G (hdrsOf G scc) (freshB G + 2)).map (fun t => t.1)
    rw [List.map_map]
    rfl
  · intro q hq
    have hq' : q ∈ (fwdSpecs G (hdrsOf G scc) (freshB G + 2)).map
        (fun t => (t.1, Val.cst t.2.2)) := hq
    obtain ⟨t, ht, hte⟩ := List.mem_map.mp hq'
    obtain ⟨_, _, jdx, E, hj, hidx, _⟩ := mem_fwdSpecsAux ht
    refine ⟨t.2.2, E, ?_, ?_, ?_, ?_⟩
    · rw [← hte]
    · have := (List.getElem?_eq_some.mp hj).1
      simpa [hidx] using this
    · show (hdrsOf G scc)[t.2.2]? = some E
      rw [hidx]
      simpa using hj
    · show (newSuccs G (hdrsOf G scc) (fwdSpecs G (hdrsOf G scc) (freshB G + 2)) (freshB G)
        (freshB G + 1) (freshB G))[t.2.2]? = some E
      rw [newSuccs_disp G _ _ _]
      have hlt := (List.getElem?_eq_some.mp hj).1
      rw [List.getElem?_append, if_pos (by omega)]
      rw [hidx]
      simpa using hj
  · exact preds_fix_disp G scc ⟨hnd, hsnd, hsub, hcl, hphi⟩

theorem lookupVal_map_specs (g : Nat × Nat × Nat → Val) :
    ∀ (specs : List (Nat × Nat × Nat)) (t0 : Nat × Nat × Nat),
      (∀ t ∈ specs, ∀ u ∈ specs, t.1 = u.1 → t = u) → t0 ∈ specs →
      lookupVal (specs.map (fun t => (t.1, g t))) t0.1 = g t0 := by
  intro specs
  induction specs with
  | nil => intro t0 _ hm; cases hm
  | cons a rest ih =>
      intro t0 hinj hm
      by_cases hae : a.1 = t0.1
      · have ht0a : t0 = a :=
          hinj t0 hm a (List.mem_cons_self a rest) hae.symm
        unfold lookupVal
        rw [List.map_cons, List.find?_cons_of_pos _ (by simp [hae])]
        rw [ht0a]
      · have hm' : t0 ∈ rest := by
          rcases List.mem_cons.mp hm with h1 | h1
          · exact absurd (congrArg Prod.fst h1).symm hae
          · exact h1
        have step : lookupVal ((a :: rest).map (fun t => (t.1, g t))) t0.1 =
            lookupVal (rest.map (fun t => (t.1, g t))) t0.1 := by
          unfold lookupVal
          rw [List.map_cons, List.find?_cons_of_neg _ (by simp [hae])]
        rw [step]
        exact ih t0 (fun t htm u hum => hinj t (List.mem_cons_of_mem a htm) u
          (List.mem_cons_of_mem a hum)) hm'

/-- C5: phi relocation at a MetaBlock entry.  For the `j`-th phi-merge `φ` of
the `i`-th MetaBlock entry `E`: a Label-indexed dispatch phi for `φ` lives in
the Dispatcher; the rewritten entry phi has exactly one incoming value from
the Dispatcher, namely a reference to that dispatch phi; for every rerouted
external predecessor `P` there is a forwarding block `f` of `E`'s MetaBlock
such that the dispatch phi's value incoming from `f` equals the value the
original phi held for `P` (so on every path entering through `P` the value
delivered through the Dispatcher equals what the original phi would have
produced); and incoming values from predecessors that were not rerouted are
kept unchanged. -/
theorem c5_phi_relocation (G : CFG) (scc : List Nat) (i j E : Nat) (φ : PhiNode)
    (hwf : FixWf G scc)
    (hE : (hdrsOf G scc)[i]? = some E)
    (hφ : (G.phis E)[j]? = some φ) :
    ((fixSCC G scc).out.phis E)[j]? =
      some (entryPhiFor G (fixSCC G scc).disp (fixSCC G scc).labelPid i j E φ) ∧
    dispatchPhiFor (fixSCC G scc).specs (fixSCC G scc).labelPid i j φ ∈
      (fixSCC G scc).out.phis (fixSCC G scc).disp ∧
    ((entryPhiFor G (fixSCC G scc).disp (fixSCC G scc).labelPid i j E φ).incoming.filter
      (fun q => q.1 == (fixSCC G scc).disp)).length = 1 ∧
    lookupVal (entryPhiFor G (fixSCC G scc).disp (fixSCC G scc).labelPid i j E φ).incoming
      (fixSCC G scc).disp =
      Val.ref (dispatchPhiFor (fixSCC G scc).specs (fixSCC G scc).labelPid i j φ).pid ∧
    (∀ P ∈ metaPreds G E, ∃ f, (f, P, i) ∈ (fixSCC G scc).specs ∧
      lookupVal (dispatchPhiFor (fixSCC G scc).specs (fixSCC G scc).labelPid i j φ).incoming f =
        lookupVal φ.incoming P) ∧
    (∀ q ∈ φ.incoming, q.1 ∉ metaPreds G E →
      q ∈ (entryPhiFor G (fixSCC G scc).disp (fixSCC G scc).labelPid i j E φ).incoming) := by
  obtain ⟨hnd, hsnd, hsub, hcl, hphi⟩ := hwf
  obtain ⟨hilt, hiE⟩ := List.getElem?_eq_some.mp hE
  have hEmem : E ∈ hdrsOf G scc := List.getElem?_mem hE
  have hEscc : E ∈ scc := hdrs_subset_scc G scc hEmem
  have hEblk : E ∈ G.blocks := hsub E hEscc
  have hElt : E < freshB G := lt_freshB G hEblk
  have hhnd : (hdrsOf G scc).Nodup := hsnd.filter _
  have hidx : (hdrsOf G scc).indexOf E = i := by
    rw [← hiE]
    exact List.indexOf_getElem hhnd i hilt
  have hφmem : φ ∈ G.phis E := List.getElem?_mem hφ
  refine ⟨?_, ?_, ?_, ?_, ?_, ?_⟩
  · show (newPhis G (hdrsOf G scc) (fwdSpecs G (hdrsOf G scc) (freshB G + 2)) (freshB G)
      (freshB G + 1) (freshV G) E)[j]? = _
    have h1 : ¬(E = freshB G) := by omega
    have h2 : ¬(E = freshB G + 1) := by omega
    have h3 : (hdrsOf G scc).contains E = true := by
      simpa using hEmem
    rw [newPhis, if_neg h1, if_neg h2, if_pos h3]
    rw [List.getElem?_map, List.getElem?_enum, hφ]
    simp [hidx]
    rfl
  · show dispatchPhiFor (fwdSpecs G (hdrsOf G scc) (freshB G + 2)) (freshV G) i j φ ∈
      newPhis G (hdrsOf G scc) (fwdSpecs G (hdrsOf G scc) (freshB G + 2)) (freshB G)
        (freshB G + 1) (freshV G) (freshB G)
    rw [newPhis, if_pos rfl]
    refine List.mem_cons_of_mem _ (List.mem_flatMap.mpr ⟨(i, E), ?_, ?_⟩)
    · exact List.mk_mem_enum_iff_getElem?.mpr hE
    · exact List.mem_map.mpr ⟨(j, φ), List.mk_mem_enum_iff_getElem?.mpr hφ, rfl⟩
  · show ((entryPhiFor G (freshB G) (freshV G) i j E φ).incoming.filter
      (fun q => q.1 == freshB G)).length = 1
    rw [entryPhiFor]
    rw [List.filter_cons_of_pos (by simp)]
    have : (φ.incoming.filter (fun q => !((metaPreds G E).contains q.1))).filter
        (fun q => q.1 == freshB G) = [] := by
      rw [List.filter_eq_nil]
      intro q hq
      have hqm : q ∈ φ.incoming := (List.mem_filter.mp hq).1
      have := lt_freshB G (hphi E hEblk φ hφmem q hqm)
      simp only [beq_iff_eq]
      omega
    rw [this]
    rfl
  · show lookupVal (entryPhiFor G (freshB G) (freshV G) i j E φ).incoming (freshB G) = _
    rw [entryPhiFor, lookupVal]
    rw [List.find?_cons_of_pos _ (by simp)]
    rfl
  · intro P hP
    obtain ⟨f, hf⟩ := fwdSpecsAux_complete (freshB G + 2) 0 i (hdrsOf G scc) hE hP
    rw [Nat.zero_add] at hf
    refine ⟨f, hf, ?_⟩
    have := lookupVal_map_specs
      (fun t => if t.2.2 = i then lookupVal φ.incoming t.2.1 else Val.undef)
      (fwdSpecs G (hdrsOf G scc) (freshB G + 2)) (f, P, i)
      (fun t ht u hu => fwdSpecsAux_id_inj ht hu) hf
    show lookupVal ((fwdSpecs G (hdrsOf G scc) (freshB G + 2)).map
      (fun t => (t.1, if t.2.2 = i then lookupVal φ.incoming t.2.1 else Val.undef))) f = _
    rw [this]
    simp
  · intro q hq hqm
    exact List.mem_cons_of_mem _ (List.mem_filter.mpr ⟨hq, by simpa using hqm⟩)

/-!  The fixpoint driver. -/

/-- A pending subgraph on the driver's work queue: entry and member set. -/
structure SubGr where
  sgEntry : Nat
  sgBlocks : List Nat
deriving DecidableEq

/-- Successors restricted to a member set: the subgraph view used by the
restricted SCC analysis. -/
def viewSuccs (G : CFG) (members : List Nat) (X : Nat) : List Nat :=
  (G.succs X).filter (fun s => members.contains s)

/-- Blocks of the restricted view reachable from `A`. -/
def reachIn (G : CFG) (members : List Nat) (A : Nat) : List Nat :=
  expandN (viewSuccs G members) (fun x => members.contains x) members.length [A]

/-- Modelled from the spec: the strongly connected component of the subgraph
view containing `A` (the SCC finder's result for `A`, body of the SCC
analysis not in the provided sources). -/
def sccOfIn (G : CFG) (members : List Nat) (A : Nat) : List Nat :=
  members.filter (fun B =>
    (reachIn G members A).contains B && (reachIn G members B).contains A)

/-- Modelled from the spec: the component list of a subgraph in deterministic
discovery order. -/
def sccListAux (G : CFG) (members : List Nat) : List Nat → List (List Nat) → List (List Nat)
  | [], acc => acc.reverse
  | A :: rest, acc =>
      if acc.any (fun c => c.contains A) then sccListAux G members rest acc
      else sccListAux G members rest (sccOfIn G members A :: acc)

def sccList (G : CFG) (sg : SubGr) : List (List Nat) :=
  sccListAux G sg.sgBlocks (reachIn G sg.sgBlocks sg.sgEntry) []

/-- Modelled from the spec: process the components of one subgraph in order;
every irreducible component (more than one header) is fixed and its
rewritten region (Dispatcher plus component blocks) is queued. -/
def processSCCs (G : CFG) : List (List Nat) → CFG × List SubGr
  | [] => (G, [])
  | scc :: rest =>
      if 2 ≤ (hdrsOf G scc).length then
        let r := fixSCC G scc
        let p := processSCCs r.out rest
        (p.1, ⟨r.disp, r.disp :: scc⟩ :: p.2)
      else processSCCs G rest

/-- Modelled from the spec: `visitSubGraph` — pop a subgraph, find its
components, fix every irreducible one, queue the rewritten regions. -/
def processOnce (G : CFG) (sg : SubGr) : CFG × List SubGr :=
  processSCCs G (sccList G sg)

/-- Modelled from the spec: the fixpoint work-queue loop, with explicit
fuel. -/
def driver : Nat → CFG → List SubGr → CFG
  | 0, G, _ => G
  | _ + 1, G, [] => G
  | fuel + 1, G, sg :: rest =>
      let p := processOnce G sg
      driver fuel p.1 (rest ++ p.2)

/-- Modelled from the spec: `FixIrreducibleControlFlow::runOnFunction` — seed
the queue with the whole function and run the driver. -/
def runPass (fuel : Nat) (G : CFG) : CFG :=
  driver fuel G [⟨G.entry, G.blocks⟩]

theorem driver_nil (fuel : Nat) (G : CFG) : driver fuel G [] = G := by
  cases fuel <;> rfl

theorem processSCCs_no_fix (G : CFG) :
    ∀ (l : List (List Nat)), (∀ scc ∈ l, (hdrsOf G scc).length ≤ 1) →
      processSCCs G l = (G, []) := by
  intro l
  induction l with
  | nil => intro _; rfl
  | cons scc rest ih =>
      intro h
      have h1 : ¬(2 ≤ (hdrsOf G scc).length) := by
        have := h scc (List.mem_cons_self _ _)
        omega
      rw [processSCCs, if_neg h1]
      exact ih (fun c hc => h c (List.mem_cons_of_mem _ hc))

/-- C7: on a function whose CFG is already reducible — every component of the
whole-function subgraph has at most one header — the pass is a no-op: the
returned function is the input function itself, so no blocks are created or
deleted, no terminator is redirected, and no phi-merge record is modified. -/
theorem c7_noop_on_reducible (G : CFG) (fuel : Nat)
    (h : ∀ scc ∈ sccList G ⟨G.entry, G.blocks⟩, (hdrsOf G scc).length ≤ 1) :
    runPass fuel G = G := by
  rw [runPass]
  cases fuel with
  | zero => rfl
  | succ n =>
      have hp : processOnce G ⟨G.entry, G.blocks⟩ = (G, []) :=
        processSCCs_no_fix G _ h
      rw [driver]
      simp only [hp]
      exact driver_nil n G

/-- Reducible diamond (spec scenario 1): one entry branching to two arms that
rejoin. -/
def diamondG : CFG :=
  { blocks := [0, 1, 2, 3]
    entry := 0
    succs := fun b => if b = 0 then [1, 2] else if b = 1 then [3] else if b = 2 then [3] else []
    phis := fun _ => [] }

/-- Witness for C7 on the reducible diamond: every component of the
whole-function subgraph has at most one header and the pass returns the
function unchanged. -/
theorem c7_noop_on_reducible_witness :
    (∀ scc ∈ sccList diamondG ⟨diamondG.entry, diamondG.blocks⟩,
      (hdrsOf diamondG scc).length ≤ 1) ∧
    runPass 5 diamondG = diamondG :=
  ⟨by decide, c7_noop_on_reducible diamondG 5 (by decide)⟩

/-- Classic two-entry irreducible loop (spec scenario 2): the outside entry 0
branches to both members of the cycle between 1 and 2; block 1 merges a
value that differs per predecessor. -/
def twoEntryG : CFG :=
  { blocks := [0, 1, 2]
    entry := 0
    succs := fun b => if b = 0 then [1, 2] else if b = 1 then [2] else if b = 2 then [1] else []
    phis := fun b =>
      if b = 1 then [{ pid := 10, incoming := [(0, Val.cst 5), (2, Val.cst 7)] }] else [] }

/-- Witness for C8 on the two-entry irreducible loop. -/
theorem c8_dispatcher_switch_witness :
    FixWf twoEntryG [1, 2] ∧
    ((fixSCC twoEntryG [1, 2]).out.succs (fixSCC twoEntryG [1, 2]).disp =
      (fixSCC twoEntryG [1, 2]).hdrs ++ [(fixSCC twoEntryG [1, 2]).dflt] ∧
    (fixSCC twoEntryG [1, 2]).dflt ∉ (fixSCC twoEntryG [1, 2]).hdrs ∧
    (fixSCC twoEntryG [1, 2]).out.succs (fixSCC twoEntryG [1, 2]).dflt = [] ∧
    ((fixSCC twoEntryG [1, 2]).out.phis (fixSCC twoEntryG [1, 2]).disp)[0]? =
      some (labelPhi (fixSCC twoEntryG [1, 2]).specs (fixSCC twoEntryG [1, 2]).labelPid) ∧
    (labelPhi (fixSCC twoEntryG [1, 2]).specs (fixSCC twoEntryG [1, 2]).labelPid).incoming.map
        Prod.fst =
      (fixSCC twoEntryG [1, 2]).specs.map (fun t => t.1) ∧
    (∀ q ∈ (labelPhi (fixSCC twoEntryG [1, 2]).specs (fixSCC twoEntryG [1, 2]).labelPid).incoming,
      ∃ idx E, q.2 = Val.cst idx ∧ idx < (fixSCC twoEntryG [1, 2]).hdrs.length ∧
        (fixSCC twoEntryG [1, 2]).hdrs[idx]? = some E ∧
        ((fixSCC twoEntryG [1, 2]).out.succs (fixSCC twoEntryG [1, 2]).disp)[idx]? = some E) ∧
    predsOf (fixSCC twoEntryG [1, 2]).out (fixSCC twoEntryG [1, 2]).disp =
      (fixSCC twoEntryG [1, 2]).specs.map (fun t => t.1)) :=
  ⟨by decide, c8_dispatcher_switch twoEntryG [1, 2] (by decide)⟩

/-- Witness for C5 on the two-entry irreducible loop: header 1 is MetaBlock 0
and its phi-merge distinguishes the values incoming from the external
predecessor 0 and from the rerouted predecessor 2. -/
theorem c5_phi_relocation_witness :
    (FixWf twoEntryG [1, 2] ∧
      (hdrsOf twoEntryG [1, 2])[0]? = some 1 ∧
      (twoEntryG.phis 1)[0]? = some ⟨10, [(0, Val.cst 5), (2, Val.cst 7)]⟩) ∧
    (((fixSCC twoEntryG [1, 2]).out.phis 1)[0]? =
      some (entryPhiFor twoEntryG (fixSCC twoEntryG [1, 2]).disp
        (fixSCC twoEntryG [1, 2]).labelPid 0 0 1 ⟨10, [(0, Val.cst 5), (2, Val.cst 7)]⟩) ∧
    dispatchPhiFor (fixSCC twoEntryG [1, 2]).specs (fixSCC twoEntryG [1, 2]).labelPid 0 0
        ⟨10, [(0, Val.cst 5), (2, Val.cst 7)]⟩ ∈
      (fixSCC twoEntryG [1, 2]).out.phis (fixSCC twoEntryG [1, 2]).disp ∧
    ((entryPhiFor twoEntryG (fixSCC twoEntryG [1, 2]).disp (fixSCC twoEntryG [1, 2]).labelPid
        0 0 1 ⟨10, [(0, Val.cst 5), (2, Val.cst 7)]⟩).incoming.filter
      (fun q => q.1 == (fixSCC twoEntryG [1, 2]).disp)).length = 1 ∧
    lookupVal (entryPhiFor twoEntryG (fixSCC twoEntryG [1, 2]).disp
        (fixSCC twoEntryG [1, 2]).labelPid 0 0 1
        ⟨10, [(0, Val.cst 5), (2, Val.cst 7)]⟩).incoming (fixSCC twoEntryG [1, 2]).disp =
      Val.ref (dispatchPhiFor (fixSCC twoEntryG [1, 2]).specs
        (fixSCC twoEntryG [1, 2]).labelPid 0 0 ⟨10, [(0, Val.cst 5), (2, Val.cst 7)]⟩).pid ∧
    (∀ P ∈ metaPreds twoEntryG 1, ∃ f, (f, P, 0) ∈ (fixSCC twoEntryG [1, 2]).specs ∧
      lookupVal (dispatchPhiFor (fixSCC twoEntryG [1, 2]).specs
        (fixSCC twoEntryG [1, 2]).labelPid 0 0
        ⟨10, [(0, Val.cst 5), (2, Val.cst 7)]⟩).incoming f =
        lookupVal (⟨10, [(0, Val.cst 5), (2, Val.cst 7)]⟩ : PhiNode).incoming P) ∧
    (∀ q ∈ (⟨10, [(0, Val.cst 5), (2, Val.cst 7)]⟩ : PhiNode).incoming,
      q.1 ∉ metaPreds twoEntryG 1 →
      q ∈ (entryPhiFor twoEntryG (fixSCC twoEntryG [1, 2]).disp
        (fixSCC twoEntryG [1, 2]).labelPid 0 0 1
        ⟨10, [(0, Val.cst 5), (2, Val.cst 7)]⟩).incoming)) :=
  ⟨⟨by decide, by decide, by decide⟩,
    c5_phi_relocation twoEntryG [1, 2] 0 0 1 ⟨10, [(0, Val.cst 5), (2, Val.cst 7)]⟩
      (by decide) (by decide) (by decide)⟩

/-!
Walks and correctness of the iterated-expansion reachability used by the
dominance decision and the restricted SCC analysis.
-/

/-- A walk from `x` to `z` over a successor map: the list collects the
vertices visited after `x`, each an allowed step. -/
inductive Walk (succs : Nat → List Nat) (keep : Nat → Bool) : Nat → List Nat → Nat → Prop
  | refl (x : Nat) : Walk succs keep x [] x
  | step {x y z : Nat} {p : List Nat} : y ∈ succs x → keep y = true →
      Walk succs keep y p z → Walk succs keep x (y :: p) z

theorem walk_append {succs : Nat → List Nat} {keep : Nat → Bool} :
    ∀ {x y z : Nat} {p q : List Nat}, Walk succs keep x p y → Walk succs keep y q z →
      Walk succs keep x (p ++ q) z := by
  intro x y z p q w1
  induction w1 with
  | refl => intro w2; exact w2
  | step he hk _ ih => intro w2; exact Walk.step he hk (ih w2)

theorem walk_snoc {succs : Nat → List Nat} {keep : Nat → Bool} {x y w : Nat} {p : List Nat}
    (h : Walk succs keep x p y) (he : w ∈ succs y) (hk : keep w = true) :
    Walk succs keep x (p ++ [w]) w :=
  walk_append h (Walk.step he hk (Walk.refl w))

theorem walk_mem_keep {succs : Nat → List Nat} {keep : Nat → Bool} :
    ∀ {x z : Nat} {p : List Nat}, Walk succs keep x p z → ∀ v ∈ p, keep v = true := by
  intro x z p w
  induction w with
  | refl => intro v hv; cases hv
  | step he hk _ ih =>
      intro v hv
      rcases List.mem_cons.mp hv with h1 | h1
      · rw [h1]; assumption
      · exact ih v h1

theorem walk_last_eq {succs : Nat → List Nat} {keep : Nat → Bool} :
    ∀ {x z : Nat} {p : List Nat}, Walk succs keep x p z → p = [] → z = x := by
  intro x z p w
  cases w with
  | refl => intro _; rfl
  | step _ _ _ => intro h; cases h

theorem walk_suffix_from {succs : Nat → List Nat} {keep : Nat → Bool} {a : Nat} :
    ∀ (s : List Nat) {x z : Nat} {t : List Nat},
      Walk succs keep x (s ++ a :: t) z → Walk succs keep a t z := by
  intro s
  induction s with
  | nil =>
      intro x z t w
      cases w with
      | step _ _ w' => exact w'
  | cons b s' ih =>
      intro x z t w
      cases w with
      | step _ _ w' => exact ih w'

theorem walk_prefix_to {succs : Nat → List Nat} {keep : Nat → Bool} {a : Nat} :
    ∀ (s : List Nat) {x z : Nat} {t : List Nat},
      Walk succs keep x (s ++ a :: t) z → Walk succs keep x (s ++ [a]) a := by
  intro s
  induction s with
  | nil =>
      intro x z t w
      cases w with
      | step he hk _ => exact Walk.step he hk (Walk.refl a)
  | cons b s' ih =>
      intro x z t w
      cases w with
      | step he hk w' => exact Walk.step he hk (ih w')

theorem first_occurrence_split {a : Nat} :
    ∀ {l : List Nat}, a ∈ l → ∃ s t, l = s ++ a :: t ∧ a ∉ s := by
  intro l
  induction l with
  | nil => intro h; cases h
  | cons b l' ih =>
      intro h
      by_cases hba : b = a
      · exact ⟨[], l', by rw [hba]; rfl, by simp⟩
      · have h' : a ∈ l' := by
          rcases List.mem_cons.mp h with h1 | h1
          · exact absurd h1.symm hba
          · exact h1
        obtain ⟨s, t, he, hns⟩ := ih h'
        refine ⟨b :: s, t, by rw [he]; rfl, ?_⟩
        intro hmem
        rcases List.mem_cons.mp hmem with h1 | h1
        · exact hba h1.symm
        · exact hns h1

theorem walk_shorten {succs : Nat → List Nat} {keep : Nat → Bool} :
    ∀ (n : Nat) {x z : Nat} {p : List Nat}, p.length ≤ n → Walk succs keep x p z →
      ∃ p', Walk succs keep x p' z ∧ p'.length ≤ p.length ∧ (∀ v ∈ p', v ∈ p) ∧
        p'.Nodup ∧ x ∉ p' := by
  intro n
  induction n with
  | zero =>
      intro x z p hlen w
      have hp : p = [] := List.length_eq_zero.mp (Nat.le_zero.mp hlen)
      subst hp
      exact ⟨[], w, le_refl _, (by intro v hv; cases hv), List.nodup_nil, (by simp)⟩
  | succ n ih =>
      intro x z p hlen w
      cases w with
      | refl => exact ⟨[], Walk.refl x, (by simp), (by intro v hv; cases hv), List.nodup_nil, (by simp)⟩
      | step he hk w' =>
          rename_i y q
          have hqlen : q.length ≤ n := by
            simp only [List.length_cons] at hlen
            omega
          obtain ⟨q', wq', hlen', hsub', hnd', hy'⟩ := ih hqlen w'
          by_cases hxy : x = y
          · -- the first step returns to the start: drop it
            subst hxy
            obtain ⟨q'', wq'', hlen'', hsub'', hnd'', hx''⟩ :=
              ih (le_trans hlen' hqlen) wq'
            refine ⟨q'', wq'', ?_, ?_, hnd'', hx''⟩
            · simp only [List.length_cons]; omega
            · intro v hv
              exact List.mem_cons_of_mem _ (hsub' v (hsub'' v hv))
          by_cases hxq : x ∈ q'
          · obtain ⟨s, t, hsplit, _⟩ := first_occurrence_split hxq
            rw [hsplit] at wq'
            have wt : Walk succs keep x t z := walk_suffix_from s wq'
            have htlen : t.length ≤ n := by
              have : t.length < q'.length := by
                rw [hsplit]
                simp only [List.length_append, List.length_cons]
                omega
              omega
            obtain ⟨t', wt', hlen'', hsub'', hnd'', hx''⟩ := ih htlen wt
            refine ⟨t', wt', ?_, ?_, hnd'', hx''⟩
            · have ht : t.length ≤ q'.length := by
                rw [hsplit]
                simp only [List.length_append, List.length_cons]
                omega
              simp only [List.length_cons]
              omega
            · intro v hv
              have hvt : v ∈ t := hsub'' v hv
              have hvq : v ∈ q' := by
                rw [hsplit]
                exact List.mem_append_right _ (List.mem_cons_of_mem _ hvt)
              exact List.mem_cons_of_mem _ (hsub' v hvq)
          · refine ⟨y :: q', Walk.step he hk wq', ?_, ?_, ?_, ?_⟩
            · simp only [List.length_cons]; omega
            · intro v hv
              rcases List.mem_cons.mp hv with h1 | h1
              · rw [h1]; exact List.mem_cons_self _ _
              · exact List.mem_cons_of_mem _ (hsub' v h1)
            · exact List.nodup_cons.mpr ⟨hy', hnd'⟩
            · intro hmem
              rcases List.mem_cons.mp hmem with h1 | h1
              · exact hxy h1
              · exact hxq h1

theorem mem_expandOnce {succs : Nat → List Nat} {keep : Nat → Bool} {acc : List Nat} {x y : Nat}
    (hx : x ∈ acc) (he : y ∈ succs x) (hk : keep y = true) :
    y ∈ expandOnce succs keep acc := by
  by_cases hy : y ∈ acc
  · exact List.mem_append_left _ hy
  · refine List.mem_append_right _ (List.mem_dedup.mpr (List.mem_filter.mpr ⟨?_, ?_⟩))
    · exact List.mem_flatMap.mpr ⟨x, hx, he⟩
    · simp [hk, hy]

theorem subset_expandOnce {succs : Nat → List Nat} {keep : Nat → Bool} (acc : List Nat) :
    acc ⊆ expandOnce succs keep acc :=
  fun _ h => List.mem_append_left _ h

theorem subset_expandN {succs : Nat → List Nat} {keep : Nat → Bool} :
    ∀ (n : Nat) (acc : List Nat), acc ⊆ expandN succs keep n acc := by
  intro n
  induction n with
  | zero => intro acc x hx; exact hx
  | succ n ih =>
      intro acc x hx
      exact ih (expandOnce succs keep acc) (subset_expandOnce acc hx)

theorem expandN_mono_start {succs : Nat → List Nat} {keep : Nat → Bool} :
    ∀ (n : Nat) {acc acc' : List Nat}, acc ⊆ acc' →
      expandN succs keep n acc ⊆ expandN succs keep n acc' := by
  intro n
  induction n with
  | zero => intro acc acc' h; exact h
  | succ n ih =>
      intro acc acc' h
      refine ih ?_
      intro x hx
      rcases List.mem_append.mp hx with h1 | h1
      · exact List.mem_append_left _ (h h1)
      · have h2 := List.mem_filter.mp (List.mem_dedup.mp h1)
        obtain ⟨x0, hx0, hx0e⟩ := List.mem_flatMap.mp h2.1
        by_cases hx' : x ∈ acc'
        · exact List.mem_append_left _ hx'
        · refine List.mem_append_right _ (List.mem_dedup.mpr (List.mem_filter.mpr ⟨?_, ?_⟩))
          · exact List.mem_flatMap.mpr ⟨x0, h hx0, hx0e⟩
          · have := h2.2
            simp only [Bool.and_eq_true] at this ⊢
            simp [this.1, hx']

theorem expandN_fuel_mono {succs : Nat → List Nat} {keep : Nat → Bool} :
    ∀ (n m : Nat) (acc : List Nat), n ≤ m →
      expandN succs keep n acc ⊆ expandN succs keep m acc := by
  intro n m
  induction m generalizing n with
  | zero =>
      intro acc h
      have : n = 0 := Nat.le_zero.mp h
      rw [this]
      exact fun _ hx => hx
  | succ m ih =>
      intro acc h
      cases n with
      | zero =>
          intro x hx
          exact subset_expandN (m + 1) acc hx
      | succ n =>
          exact ih n (expandOnce succs keep acc) (Nat.le_of_succ_le_succ h)

theorem walk_complete_expandN {succs : Nat → List Nat} {keep : Nat → Bool} :
    ∀ {x z : Nat} {p : List Nat}, Walk succs keep x p z →
      ∀ (acc : List Nat), x ∈ acc → z ∈ expandN succs keep p.length acc := by
  intro x z p w
  induction w with
  | refl => intro acc hx; exact hx
  | step he hk _ ih =>
      intro acc hx
      exact ih (expandOnce succs keep acc) (mem_expandOnce hx he hk)

theorem expandN_sound {succs : Nat → List Nat} {keep : Nat → Bool} (P : Nat → Prop)
    (hstep : ∀ x y, P x → y ∈ succs x → keep y = true → P y) :
    ∀ (n : Nat) (acc : List Nat), (∀ a ∈ acc, P a) → ∀ z ∈ expandN succs keep n acc, P z := by
  intro n
  induction n with
  | zero => intro acc hacc z hz; exact hacc z hz
  | succ n ih =>
      intro acc hacc z hz
      refine ih (expandOnce succs keep acc) ?_ z hz
      intro a ha
      rcases List.mem_append.mp ha with h1 | h1
      · exact hacc a h1
      · have h2 := List.mem_filter.mp (List.mem_dedup.mp h1)
        obtain ⟨x0, hx0, hx0e⟩ := List.mem_flatMap.mp h2.1
        have hk : keep a = true := by
          have := h2.2
          simp only [Bool.and_eq_true] at this
          exact this.1
        exact hstep x0 a (hacc x0 hx0) hx0e hk

/-- Characterization of the fueled expansion from a single start vertex, for a
keep predicate whose vertices all live in the list `bound`. -/
theorem mem_expandN_start_iff {succs : Nat → List Nat} {keep : Nat → Bool} {bound : List Nat}
    (hkeep : ∀ v, keep v = true → v ∈ bound) (s x : Nat) :
    x ∈ expandN succs keep bound.length [s] ↔ ∃ p, Walk succs keep s p x := by
  constructor
  · intro hx
    refine expandN_sound (fun z => ∃ p, Walk succs keep s p z) ?_ bound.length [s] ?_ x hx
    · intro a y ⟨p, hp⟩ he hk
      exact ⟨p ++ [y], walk_snoc hp he hk⟩
    · intro a ha
      have : a = s := by simpa using ha
      rw [this]
      exact ⟨[], Walk.refl s⟩
  · intro ⟨p, hp⟩
    obtain ⟨p', wp', hlen', _, hnd', _⟩ := walk_shorten p.length (le_refl _) hp
    have hsub : p' ⊆ bound := by
      intro v hv
      exact hkeep v (walk_mem_keep wp' v hv)
    have hle : p'.length ≤ bound.length := (hnd'.subperm hsub).length_le
    exact expandN_fuel_mono p'.length bound.length [s] hle
      (walk_complete_expandN wp' [s] (List.mem_cons_self _ _))

theorem walk_change_keep {succs : Nat → List Nat} {k1 k2 : Nat → Bool} :
    ∀ {x z : Nat} {p : List Nat}, Walk succs k1 x p z → (∀ v ∈ p, k2 v = true) →
      Walk succs k2 x p z := by
  intro x z p w
  induction w with
  | refl => intro _; exact Walk.refl _
  | step he _ _ ih =>
      intro hk
      exact Walk.step he (hk _ (List.mem_cons_self _ _))
        (ih (fun v hv => hk v (List.mem_cons_of_mem _ hv)))

theorem walk_end_mem {succs : Nat → List Nat} {keep : Nat → Bool} :
    ∀ {x z : Nat} {p : List Nat}, Walk succs keep x p z → p ≠ [] → z ∈ p := by
  intro x z p w
  induction w with
  | refl => intro h; exact absurd rfl h
  | step _ _ w' ih =>
      intro _
      cases w' with
      | refl => exact List.mem_cons_self _ _
      | step he hk w'' =>
          exact List.mem_cons_of_mem _ (ih (by simp))

theorem mem_reachAvoid_iff (G : CFG) (a x : Nat) :
    x ∈ reachAvoid G a ↔
      (G.entry ≠ a ∧ ∃ p, Walk G.succs (avoidKeep G a) G.entry p x) := by
  unfold reachAvoid
  by_cases h : G.entry = a
  · simp [h]
  · rw [if_neg h]
    have hkeep : ∀ v, avoidKeep G a v = true → v ∈ G.blocks := by
      intro v hv
      simp only [avoidKeep, Bool.and_eq_true] at hv
      simpa using hv.2
    rw [mem_expandN_start_iff hkeep]
    simp [h]

theorem mem_reachSet_iff (G : CFG) (x : Nat) :
    x ∈ reachSet G ↔ ∃ p, Walk G.succs (blocksKeep G) G.entry p x := by
  have hkeep : ∀ v, blocksKeep G v = true → v ∈ G.blocks := by
    intro v hv
    simpa [blocksKeep] using hv
  exact mem_expandN_start_iff hkeep G.entry x

theorem dominatesB_eq_false_iff (G : CFG) {A B : Nat} :
    dominatesB G A B = false ↔ (A ≠ B ∧ B ∈ reachAvoid G A) := by
  unfold dominatesB
  simp

theorem not_reachAvoid_of_dominatesB (G : CFG) {A B : Nat}
    (h : dominatesB G A B = true) (hne : A ≠ B) : B ∉ reachAvoid G A := by
  intro hmem
  have : dominatesB G A B = false := (dominatesB_eq_false_iff G).mpr ⟨hne, hmem⟩
  rw [h] at this
  cases this

/-- Reachability dichotomy: a reachable vertex is reachable while avoiding any
other vertex, or that other vertex is reachable while avoiding it. -/
theorem reach_dichotomy (G : CFG) {E1 E2 : Nat} (hne : E1 ≠ E2)
    (h : E1 ∈ reachSet G) : E1 ∈ reachAvoid G E2 ∨ E2 ∈ reachAvoid G E1 := by
  obtain ⟨p, hp⟩ := (mem_reachSet_iff G E1).mp h
  by_cases hE1e : E1 = G.entry
  · left
    rw [mem_reachAvoid_iff]
    exact ⟨by rw [← hE1e]; exact hne, [], by rw [hE1e]; exact Walk.refl _⟩
  · have hpne : p ≠ [] := by
      intro hnil
      exact hE1e (walk_last_eq hp hnil)
    obtain ⟨s, t, hsplit, hE1s⟩ := first_occurrence_split (walk_end_mem hp hpne)
    rw [hsplit] at hp
    have hpref : Walk G.succs (blocksKeep G) G.entry (s ++ [E1]) E1 := walk_prefix_to s hp
    by_cases hE2e : G.entry = E2
    · right
      rw [mem_reachAvoid_iff]
      exact ⟨fun he => hE1e he.symm, [], by rw [hE2e]; exact Walk.refl _⟩
    by_cases hE2s : E2 ∈ s
    · right
      obtain ⟨s1, t1, hsplit1, hE2s1⟩ := first_occurrence_split hE2s
      have hp2 : Walk G.succs (blocksKeep G) G.entry (s1 ++ [E2]) E2 := by
        rw [hsplit1] at hpref
        have : s1 ++ E2 :: t1 ++ [E1] = s1 ++ E2 :: (t1 ++ [E1]) := by simp
        rw [this] at hpref
        exact walk_prefix_to s1 hpref
      rw [mem_reachAvoid_iff]
      refine ⟨fun he => hE1e he.symm, s1 ++ [E2], walk_change_keep hp2 ?_⟩
      intro v hv
      have hvblk : blocksKeep G v = true := walk_mem_keep hp2 v hv
      simp only [avoidKeep, Bool.and_eq_true, decide_eq_true_eq]
      refine ⟨?_, by simpa [blocksKeep] using hvblk⟩
      rcases List.mem_append.mp hv with h1 | h1
      · intro hveq
        rw [hveq] at h1
        rw [hsplit1] at hE1s
        exact hE1s (List.mem_append_left _ h1)
      · have : v = E2 := by simpa using h1
        rw [this]
        exact fun he => hne he.symm
    · left
      rw [mem_reachAvoid_iff]
      refine ⟨hE2e, s ++ [E1], walk_change_keep hpref ?_⟩
      · intro v hv
        have hvblk : blocksKeep G v = true := walk_mem_keep hpref v hv
        simp only [avoidKeep, Bool.and_eq_true, decide_eq_true_eq]
        refine ⟨?_, by simpa [blocksKeep] using hvblk⟩
        rcases List.mem_append.mp hv with h1 | h1
        · intro hveq; rw [hveq] at h1; exact hE2s h1
        · have : v = E1 := by simpa using h1
          rw [this]; exact hne

/-- In the restricted view of the rewritten region no edge enters the
Dispatcher. -/
theorem view_no_edge_into_disp (G : CFG) (scc : List Nat) (hwf : FixWf G scc)
    {X Y : Nat} (hX : X ∈ freshB G :: scc)
    (hY : Y ∈ viewSuccs (fixSCC G scc).out (freshB G :: scc) X) : Y ≠ freshB G := by
  obtain ⟨hnd, hsnd, hsub, hcl, hphi⟩ := hwf
  have hbase := fwdSpecs_base G scc
  intro hYD
  subst hYD
  unfold viewSuccs at hY
  have hY' := (List.mem_filter.mp hY).1
  rw [fix_succs] at hY'
  rcases List.mem_cons.mp hX with h1 | h1
  · subst h1
    rw [newSuccs_disp] at hY'
    rcases List.mem_append.mp hY' with h2 | h2
    · exact absurd (lt_freshB G (hsub _ (hdrs_subset_scc G scc h2))) (by omega)
    · have h3 : freshB G = freshB G + 1 := by simpa using h2
      omega
  · have hXlt : X < freshB G := lt_freshB G (hsub _ h1)
    rw [newSuccs_old G _ _ _ X hbase hXlt] at hY'
    obtain ⟨s, hs, hred⟩ := List.mem_map.mp hY'
    rcases redirectSlot_cases (fwdSpecs G (hdrsOf G scc) (freshB G + 2)) (hdrsOf G scc) X s
      with hc | ⟨t, ht, he, _, _⟩
    · have hsb : s = freshB G := by rw [← hc, hred]
      rw [hsb] at hs
      exact absurd (lt_freshB G (hcl X (hsub _ h1) _ hs)) (by omega)
    · rw [he] at hred
      have := hbase t ht
      omega

/-- A view edge of the rewritten region between component blocks is an
original CFG edge, and a view edge entering a header comes from a
predecessor the header dominates. -/
theorem view_edge_old (G : CFG) (scc : List Nat) (hwf : FixWf G scc)
    {X Y : Nat} (hX : X ∈ scc) (hY : Y ≠ freshB G)
    (hmem : Y ∈ viewSuccs (fixSCC G scc).out (freshB G :: scc) X) :
    Y ∈ scc ∧ Y ∈ G.succs X ∧ (Y ∈ hdrsOf G scc → dominatesB G Y X = true) := by
  obtain ⟨hnd, hsnd, hsub, hcl, hphi⟩ := hwf
  have hbase := fwdSpecs_base G scc
  unfold viewSuccs at hmem
  obtain ⟨hY', hYm⟩ := List.mem_filter.mp hmem
  have hYmem : Y ∈ freshB G :: scc := by simpa using hYm
  have hYscc : Y ∈ scc := by
    rcases List.mem_cons.mp hYmem with h | h
    · exact absurd h hY
    · exact h
  rw [fix_succs] at hY'
  have hXlt : X < freshB G := lt_freshB G (hsub _ hX)
  have hYlt : Y < freshB G := lt_freshB G (hsub _ hYscc)
  rw [newSuccs_old G _ _ _ X hbase hXlt] at hY'
  obtain ⟨s, hs, hred⟩ := List.mem_map.mp hY'
  rcases redirectSlot_cases (fwdSpecs G (hdrsOf G scc) (freshB G + 2)) (hdrsOf G scc) X s
    with hc | ⟨t, ht, he, _, _⟩
  · have hsb : s = Y := by rw [← hc, hred]
    rw [hsb] at hs hc
    refine ⟨hYscc, hs, ?_⟩
    intro hYh
    have hXpred : X ∈ predsOf G Y := (mem_predsOf G Y X).mpr ⟨hsub _ hX, hs⟩
    by_cases hm : X ∈ metaPreds G Y
    · exfalso
      obtain ⟨iY, hiY⟩ := List.mem_iff_getElem?.mp hYh
      obtain ⟨f, hf⟩ := fwdSpecsAux_complete (freshB G + 2) 0 iY (hdrsOf G scc) hiY hm
      obtain ⟨t, ht, he, _, _⟩ :=
        redirectSlot_of_match (fwdSpecs G (hdrsOf G scc) (freshB G + 2)) (hdrsOf G scc)
          X Y (f, X, 0 + iY) hf rfl (by simpa using hiY)
      rw [hc] at he
      have := hbase t ht
      omega
    · exact not_mem_metaPreds_dom G hXpred hm
  · exfalso
    rw [he] at hred
    have := hbase t ht
    omega

/-- Along a view walk of the rewritten region that ends at a header `E2`, a
start vertex that is reachable while avoiding `E2` yields a contradiction:
the walk's entry edge into `E2` would come from a dominated predecessor
that is nevertheless reachable without `E2`. -/
theorem view_walk_no_entry (G : CFG) (scc : List Nat) (hwf : FixWf G scc) :
    ∀ {x z : Nat} {p : List Nat},
      Walk (viewSuccs (fixSCC G scc).out (freshB G :: scc))
        (fun v => (freshB G :: scc).contains v) x p z →
      z ∈ hdrsOf G scc → x ∈ scc → x ≠ z → x ∈ reachAvoid G z → False := by
  have hwf' := hwf
  obtain ⟨hnd, hsnd, hsub, hcl, hphi⟩ := hwf'
  intro x z p w
  induction w with
  | refl => intro _ _ hne _; exact hne rfl
  | @step x0 y0 z0 p0 he hk w' ih =>
      intro hz hx hne hclean
      have hyD : y0 ≠ freshB G :=
        view_no_edge_into_disp G scc hwf (List.mem_cons_of_mem _ hx) he
      obtain ⟨hyscc, hyedge, hyhdr⟩ := view_edge_old G scc hwf hx hyD he
      by_cases hyE2 : y0 = z0
      · subst hyE2
        have hdom := hyhdr hz
        exact not_reachAvoid_of_dominatesB G hdom (fun hh => hne hh.symm) hclean
      · have hyclean : y0 ∈ reachAvoid G z0 := by
          rw [mem_reachAvoid_iff] at hclean ⊢
          obtain ⟨hent, q, hq⟩ := hclean
          refine ⟨hent, q ++ [y0], walk_snoc hq hyedge ?_⟩
          simp only [avoidKeep, Bool.and_eq_true, decide_eq_true_eq]
          exact ⟨hyE2, by simpa using hsub _ hyscc⟩
        exact ih hz hyscc hyE2 hyclean

/-- No view cycle of the rewritten region passes through two distinct headers
of the fixed component. -/
theorem no_two_headers_in_view_cycle (G : CFG) (scc : List Nat) (hwf : FixWf G scc)
    {E1 E2 : Nat} (h1 : E1 ∈ hdrsOf G scc) (h2 : E2 ∈ hdrsOf G scc) (hne : E1 ≠ E2)
    (hreach : E1 ∈ reachSet G)
    (w12 : ∃ p, Walk (viewSuccs (fixSCC G scc).out (freshB G :: scc))
        (fun v => (freshB G :: scc).contains v) E1 p E2)
    (w21 : ∃ p, Walk (viewSuccs (fixSCC G scc).out (freshB G :: scc))
        (fun v => (freshB G :: scc).contains v) E2 p E1) : False := by
  rcases reach_dichotomy G hne hreach with hc | hc
  · obtain ⟨p, hp⟩ := w12
    exact view_walk_no_entry G scc hwf hp h2 (hdrs_subset_scc G scc h1) hne hc
  · obtain ⟨p, hp⟩ := w21
    exact view_walk_no_entry G scc hwf hp h1 (hdrs_subset_scc G scc h2)
      (fun h => hne h.symm) hc

/-!  Preservation of graph well-formedness and reachability by a fix. -/

/-- Well-formedness of a whole function. -/
def WfG (G : CFG) : Prop :=
  G.blocks.Nodup ∧ G.entry ∈ G.blocks ∧
  (∀ b ∈ G.blocks, ∀ s ∈ G.succs b, s ∈ G.blocks) ∧
  (∀ b ∈ G.blocks, ∀ φ ∈ G.phis b, ∀ q ∈ φ.incoming, q.1 ∈ G.blocks)

instance (G : CFG) : Decidable (WfG G) := by
  unfold WfG
  infer_instance

theorem fixWf_of_wfG {G : CFG} {scc : List Nat} (hw : WfG G) (hnd : scc.Nodup)
    (hsub : ∀ b ∈ scc, b ∈ G.blocks) : FixWf G scc :=
  ⟨hw.1, hnd, hsub, hw.2.2.1, hw.2.2.2⟩

theorem numberList_pairwise (base : Nat) (l : List Nat) :
    ((numberList base l).map (fun q => q.1)).Pairwise (· < ·) := by
  induction l generalizing base with
  | nil => exact List.Pairwise.nil
  | cons P rest ih =>
      simp only [numberList, List.map_cons]
      refine List.Pairwise.cons ?_ (ih (base + 1))
      intro a ha
      obtain ⟨q, hq, hqe⟩ := List.mem_map.mp ha
      have := (mem_numberList_bounds hq).1
      omega

theorem fwdSpecsAux_ids_pairwise (G : CFG) :
    ∀ (base i0 : Nat) (l : List Nat),
      ((fwdSpecsAux G base i0 l).map (fun t => t.1)).Pairwise (· < ·) := by
  intro base i0 l
  induction l generalizing base i0 with
  | nil => exact List.Pairwise.nil
  | cons E rest ih =>
      simp only [fwdSpecsAux, List.map_append, List.map_map]
      rw [List.pairwise_append]
      refine ⟨?_, ih _ _, ?_⟩
      · have h := numberList_pairwise base (metaPreds G E)
        have : (List.map ((fun t : Nat × Nat × Nat => t.1) ∘ fun q : Nat × Nat =>
            (q.1, q.2, i0)) (numberList base (metaPreds G E))) =
            (numberList base (metaPreds G E)).map (fun q => q.1) := by
          simp
        rw [this]
        exact h
      · intro a ha b hb
        obtain ⟨q, hq, hqe⟩ := List.mem_map.mp ha
        obtain ⟨t, ht, hte⟩ := List.mem_map.mp hb
        have h1 := (mem_numberList_bounds hq).2.1
        have h2 := (mem_fwdSpecsAux ht).1
        subst hqe hte
        simp only [Function.comp]
        omega

theorem fwdSpecs_ids_nodup (G : CFG) (hdrs : List Nat) (base : Nat) :
    ((fwdSpecs G hdrs base).map (fun t => t.1)).Nodup := by
  have h := fwdSpecsAux_ids_pairwise G base 0 hdrs
  exact h.imp (fun hlt => Nat.ne_of_lt hlt)

theorem fix_blocks_nodup (G : CFG) (scc : List Nat) (hwf : FixWf G scc) :
    (fixSCC G scc).out.blocks.Nodup := by
  obtain ⟨hnd, hsnd, hsub, hcl, hphi⟩ := hwf
  rw [fix_blocks]
  have hbase := fwdSpecs_base G scc
  have hnew : (freshB G :: (freshB G + 1) ::
      (fwdSpecs G (hdrsOf G scc) (freshB G + 2)).map (fun t => t.1)).Nodup := by
    refine List.nodup_cons.mpr ⟨?_, List.nodup_cons.mpr ⟨?_, fwdSpecs_ids_nodup G _ _⟩⟩
    · intro hmem
      rcases List.mem_cons.mp hmem with h1 | h1
      · omega
      · obtain ⟨t, ht, hte⟩ := List.mem_map.mp h1
        have := hbase t ht
        omega
    · intro hmem
      obtain ⟨t, ht, hte⟩ := List.mem_map.mp hmem
      have := hbase t ht
      omega
  refine List.Nodup.append hnd hnew ?_
  intro a ha hmem
  have halt : a < freshB G := lt_freshB G ha
  rcases List.mem_cons.mp hmem with h1 | h1
  · omega
  rcases List.mem_cons.mp h1 with h2 | h2
  · omega
  · obtain ⟨t, ht, hte⟩ := List.mem_map.mp h2
    have := hbase t ht
    omega

theorem fix_blocks_sub (G : CFG) (scc : List Nat) :
    ∀ b ∈ G.blocks, b ∈ (fixSCC G scc).out.blocks := by
  intro b hb
  rw [fix_blocks]
  exact List.mem_append_left _ hb

theorem fix_entry_eq (G : CFG) (scc : List Nat) : (fixSCC G scc).out.entry = G.entry := rfl

theorem mem_fix_blocks_cases (G : CFG) (scc : List Nat) {b : Nat}
    (hb : b ∈ (fixSCC G scc).out.blocks) :
    b ∈ G.blocks ∨ b = freshB G ∨ b = freshB G + 1 ∨
      ∃ t ∈ fwdSpecs G (hdrsOf G scc) (freshB G + 2), t.1 = b := by
  rw [fix_blocks] at hb
  rcases List.mem_append.mp hb with h | h
  · exact Or.inl h
  rcases List.mem_cons.mp h with h | h
  · exact Or.inr (Or.inl h)
  rcases List.mem_cons.mp h with h | h
  · exact Or.inr (Or.inr (Or.inl h))
  · obtain ⟨t, ht, hte⟩ := List.mem_map.mp h
    exact Or.inr (Or.inr (Or.inr ⟨t, ht, hte⟩))

theorem fix_succs_closed (G : CFG) (scc : List Nat) (hwf : FixWf G scc) :
    ∀ b ∈ (fixSCC G scc).out.blocks, ∀ s ∈ (fixSCC G scc).out.succs b,
      s ∈ (fixSCC G scc).out.blocks := by
  obtain ⟨hnd, hsnd, hsub, hcl, hphi⟩ := hwf
  have hbase := fwdSpecs_base G scc
  intro b hb s hs
  rw [fix_succs] at hs
  rcases mem_fix_blocks_cases G scc hb with hold | hD | hU | ⟨t, ht, hte⟩
  · have hlt : b < freshB G := lt_freshB G hold
    rw [newSuccs_old G _ _ _ b hbase hlt] at hs
    obtain ⟨s0, hs0, hred⟩ := List.mem_map.mp hs
    rcases redirectSlot_cases (fwdSpecs G (hdrsOf G scc) (freshB G + 2)) (hdrsOf G scc) b s0
      with hc | ⟨t, ht, he, _, _⟩
    · have : s = s0 := by rw [← hred, hc]
      rw [this]
      exact fix_blocks_sub G scc s0 (hcl b hold s0 hs0)
    · have : s = t.1 := by rw [← hred, he]
      rw [this, fix_blocks]
      exact List.mem_append_right _ (List.mem_cons_of_mem _ (List.mem_cons_of_mem _
        (List.mem_map.mpr ⟨t, ht, rfl⟩)))
  · subst hD
    rw [newSuccs_disp] at hs
    rcases List.mem_append.mp hs with h1 | h1
    · exact fix_blocks_sub G scc s (hsub _ (hdrs_subset_scc G scc h1))
    · have : s = freshB G + 1 := by simpa using h1
      rw [this, fix_blocks]
      exact List.mem_append_right _ (List.mem_cons_of_mem _ (List.mem_cons_self _ _))
  · subst hU
    rw [newSuccs_dflt] at hs
    cases hs
  · subst hte
    rw [newSuccs_fwd G _ _ _ t.1 hbase ⟨t, ht, rfl⟩] at hs
    have : s = freshB G := by simpa using hs
    rw [this, fix_blocks]
    exact List.mem_append_right _ (List.mem_cons_self _ _)

theorem fix_phis_closed (G : CFG) (scc : List Nat) (hwf : FixWf G scc) :
    ∀ b ∈ (fixSCC G scc).out.blocks, ∀ φ ∈ (fixSCC G scc).out.phis b,
      ∀ q ∈ φ.incoming, q.1 ∈ (fixSCC G scc).out.blocks := by
  obtain ⟨hnd, hsnd, hsub, hcl, hphi⟩ := hwf
  have hbase := fwdSpecs_base G scc
  have hidmem : ∀ t ∈ fwdSpecs G (hdrsOf G scc) (freshB G + 2),
      t.1 ∈ (fixSCC G scc).out.blocks := by
    intro t ht
    rw [fix_blocks]
    exact List.mem_append_right _ (List.mem_cons_of_mem _ (List.mem_cons_of_mem _
      (List.mem_map.mpr ⟨t, ht, rfl⟩)))
  have hDmem : freshB G ∈ (fixSCC G scc).out.blocks := by
    rw [fix_blocks]
    exact List.mem_append_right _ (List.mem_cons_self _ _)
  intro b hb φ hφ q hq
  rw [fix_phis] at hφ
  rcases mem_fix_blocks_cases G scc hb with hold | hD | hU | ⟨t, ht, hte⟩
  · have hlt : b < freshB G := lt_freshB G hold
    have h1 : ¬(b = freshB G) := by omega
    have h2 : ¬(b = freshB G + 1) := by omega
    rw [newPhis, if_neg h1, if_neg h2] at hφ
    by_cases h3 : (hdrsOf G scc).contains b
    · rw [if_pos h3] at hφ
      obtain ⟨p, hp, hpe⟩ := List.mem_map.mp hφ
      subst hpe
      simp only [entryPhiFor] at hq
      rcases List.mem_cons.mp hq with h4 | h4
      · rw [h4]
        exact hDmem
      · have := (List.mem_filter.mp h4).1
        exact fix_blocks_sub G scc _ (hphi b hold p.2 (List.getElem?_mem
          (by simpa using (List.mk_mem_enum_iff_getElem?.mp hp))) q this)
    · rw [if_neg h3] at hφ
      by_cases h4 : (fwdSpecs G (hdrsOf G scc) (freshB G + 2)).any (fun t => t.1 == b)
      · rw [if_pos h4] at hφ
        cases hφ
      · rw [if_neg h4] at hφ
        exact fix_blocks_sub G scc _ (hphi b hold φ hφ q hq)
  · subst hD
    rw [newPhis, if_pos rfl] at hφ
    rcases List.mem_cons.mp hφ with h1 | h1
    · subst h1
      simp only [labelPhi] at hq
      obtain ⟨t, ht, hte⟩ := List.mem_map.mp hq
      have : q.1 = t.1 := by rw [← hte]
      rw [this]
      exact hidmem t ht
    · obtain ⟨p, _, hpe⟩ := List.mem_flatMap.mp h1
      obtain ⟨r, _, hre⟩ := List.mem_map.mp hpe
      subst hre
      simp only [dispatchPhiFor] at hq
      obtain ⟨t, ht, hte⟩ := List.mem_map.mp hq
      have : q.1 = t.1 := by rw [← hte]
      rw [this]
      exact hidmem t ht
  · subst hU
    have h1 : ¬(freshB G + 1 = freshB G) := by omega
    rw [newPhis, if_neg h1, if_pos rfl] at hφ
    cases hφ
  · have hge := hbase t ht
    subst hte
    have h1 : ¬(t.1 = freshB G) := by omega
    have h2 : ¬(t.1 = freshB G + 1) := by omega
    have h3 : ¬((hdrsOf G scc).contains t.1 = true) := by
      intro hc
      have := lt_freshB G (hsub _ (hdrs_subset_scc G scc (by simpa using hc)))
      omega
    have h4 : (fwdSpecs G (hdrsOf G scc) (freshB G + 2)).any (fun u => u.1 == t.1) = true :=
      List.any_eq_true.mpr ⟨t, ht, by simp⟩
    rw [newPhis, if_neg h1, if_neg h2, if_neg (by simpa using h3), if_pos h4] at hφ
    cases hφ

theorem fix_wfG (G : CFG) (scc : List Nat) (hw : WfG G) (hnd : scc.Nodup)
    (hsub : ∀ b ∈ scc, b ∈ G.blocks) : WfG (fixSCC G scc).out := by
  have hwf := fixWf_of_wfG hw hnd hsub
  exact ⟨fix_blocks_nodup G scc hwf, fix_blocks_sub G scc _ hw.2.1,
    fix_succs_closed G scc hwf, fix_phis_closed G scc hwf⟩

/-- Plain reachability is preserved by a fix: every walk of the original graph
transports to a walk of the rewritten graph, detouring rerouted edges
through the forwarding blocks and the Dispatcher. -/
theorem walk_transport_fix (G : CFG) (scc : List Nat) (hwf : FixWf G scc) :
    ∀ {x z : Nat} {p : List Nat}, Walk G.succs (blocksKeep G) x p z → x ∈ G.blocks →
      ∃ q, Walk (fixSCC G scc).out.succs (blocksKeep (fixSCC G scc).out) x q z := by
  have hwf' := hwf
  obtain ⟨hnd, hsnd, hsub, hcl, hphi⟩ := hwf'
  have hbase := fwdSpecs_base G scc
  intro x z p w
  induction w with
  | refl => intro _; exact ⟨[], Walk.refl _⟩
  | @step x0 y0 z0 p0 he hk w' ih =>
      intro hx0
      have hy0 : y0 ∈ G.blocks := by simpa [blocksKeep] using hk
      obtain ⟨q, hq⟩ := ih hy0
      have hkeep : ∀ b ∈ G.blocks, blocksKeep (fixSCC G scc).out b = true := by
        intro b hb
        simp only [blocksKeep]
        simpa using fix_blocks_sub G scc b hb
      have hx0lt : x0 < freshB G := lt_freshB G hx0
      have hsuccs : (fixSCC G scc).out.succs x0 = (G.succs x0).map
          (fun s => redirectSlot (fwdSpecs G (hdrsOf G scc) (freshB G + 2)) (hdrsOf G scc) x0 s) := by
        rw [fix_succs]
        exact newSuccs_old G _ _ _ x0 hbase hx0lt
      rcases redirectSlot_cases (fwdSpecs G (hdrsOf G scc) (freshB G + 2)) (hdrsOf G scc) x0 y0
        with hc | ⟨t, ht, he2, ht1, ht2⟩
      · -- slot unchanged: direct edge
        refine ⟨y0 :: q, Walk.step ?_ (hkeep y0 hy0) hq⟩
        rw [hsuccs]
        refine List.mem_map.mpr ⟨y0, he, ?_⟩
        rw [hc]
      · -- rerouted: step through the forwarding block and the Dispatcher
        have hfD : (fixSCC G scc).out.succs t.1 = [freshB G] := by
          rw [fix_succs]
          exact newSuccs_fwd G _ _ _ t.1 hbase ⟨t, ht, rfl⟩
        have hDy : y0 ∈ (fixSCC G scc).out.succs (freshB G) := by
          rw [fix_succs, newSuccs_disp]
          exact List.mem_append_left _ (List.getElem?_mem ht2)
        have hkf : blocksKeep (fixSCC G scc).out t.1 = true := by
          simp only [blocksKeep]
          have : t.1 ∈ (fixSCC G scc).out.blocks := by
            rw [fix_blocks]
            exact List.mem_append_right _ (List.mem_cons_of_mem _ (List.mem_cons_of_mem _
              (List.mem_map.mpr ⟨t, ht, rfl⟩)))
          simpa using this
        have hkD : blocksKeep (fixSCC G scc).out (freshB G) = true := by
          simp only [blocksKeep]
          have : freshB G ∈ (fixSCC G scc).out.blocks := by
            rw [fix_blocks]
            exact List.mem_append_right _ (List.mem_cons_self _ _)
          simpa using this
        refine ⟨t.1 :: freshB G :: y0 :: q, Walk.step ?_ hkf (Walk.step ?_ hkD
          (Walk.step hDy (hkeep y0 hy0) hq))⟩
        · rw [hsuccs]
          refine List.mem_map.mpr ⟨y0, he, ?_⟩
          rw [he2]
        · rw [hfD]
          exact List.mem_cons_self _ _

theorem reachSet_preserved (G : CFG) (scc : List Nat) (hwf : FixWf G scc)
    (hent : G.entry ∈ G.blocks) {b : Nat} (hb : b ∈ reachSet G) :
    b ∈ reachSet (fixSCC G scc).out := by
  obtain ⟨p, hp⟩ := (mem_reachSet_iff G b).mp hb
  obtain ⟨q, hq⟩ := walk_transport_fix G scc hwf hp hent
  rw [mem_reachSet_iff]
  exact ⟨q, by rw [fix_entry_eq]; exact hq⟩

/-!  Stability of disjoint regions under a fix. -/

theorem filter_map_redirect {r : Nat → Nat} {S : List Nat} :
    ∀ (l : List Nat), (∀ s ∈ l, (r s ∈ S → r s = s) ∧ (s ∈ S → r s = s)) →
      (l.map r).filter (fun v => S.contains v) = l.filter (fun v => S.contains v) := by
  intro l
  induction l with
  | nil => intro _; rfl
  | cons s l' ih =>
      intro h
      obtain ⟨h1, h2⟩ := h s (List.mem_cons_self _ _)
      have hrest := ih (fun a ha => h a (List.mem_cons_of_mem _ ha))
      by_cases hs : s ∈ S
      · have hre : r s = s := h2 hs
        simp only [List.map_cons]
        rw [List.filter_cons_of_pos (by simp [hre, hs]), List.filter_cons_of_pos (by simp [hs])]
        rw [hrest, hre]
      · have hrs : r s ∉ S := by
          intro hmem
          rw [h1 hmem] at hmem
          exact hs hmem
        simp only [List.map_cons]
        rw [List.filter_cons_of_neg (by simp [hrs]), List.filter_cons_of_neg (by simp [hs])]
        exact hrest

theorem contains_map_redirect {r : Nat → Nat} {B : Nat} :
    ∀ (l : List Nat), (∀ s ∈ l, (r s = B ↔ s = B)) →
      ((l.map r).contains B) = (l.contains B) := by
  intro l
  induction l with
  | nil => intro _; rfl
  | cons s l' ih =>
      intro h
      have hs := h s (List.mem_cons_self _ _)
      have hrest := ih (fun a ha => h a (List.mem_cons_of_mem _ ha))
      simp only [List.map_cons, List.contains_cons]
      rw [hrest]
      by_cases hsb : s = B
      · have h1 : r s = B := hs.mpr hsb
        rw [h1, hsb]
      · have h1 : ¬(r s = B) := fun hc => hsb (hs.mp hc)
        have e1 : (B == r s) = false := by
          rw [beq_eq_false_iff_ne]
          exact fun hc => h1 hc.symm
        have e2 : (B == s) = false := by
          rw [beq_eq_false_iff_ne]
          exact fun hc => hsb hc.symm
        rw [e1, e2]

/-- The view of a block set disjoint from the fixed headers is unchanged by
the fix. -/
theorem viewSuccs_stable (G : CFG) (scc : List Nat) (hwf : FixWf G scc)
    {S : List Nat} (hS : ∀ b ∈ S, b ∈ G.blocks)
    (hdisj : ∀ h ∈ hdrsOf G scc, h ∉ S)
    {X : Nat} (hX : X ∈ G.blocks) :
    viewSuccs (fixSCC G scc).out S X = viewSuccs G S X := by
  have hbase := fwdSpecs_base G scc
  have hXlt : X < freshB G := lt_freshB G hX
  unfold viewSuccs
  rw [fix_succs, newSuccs_old G _ _ _ X hbase hXlt]
  refine filter_map_redirect (G.succs X) ?_
  intro s _
  rcases redirectSlot_cases (fwdSpecs G (hdrsOf G scc) (freshB G + 2)) (hdrsOf G scc) X s
    with hc | ⟨t, ht, he, _, ht2⟩
  · rw [hc]
    exact ⟨fun _ => rfl, fun _ => rfl⟩
  · constructor
    · intro hmem
      exfalso
      rw [he] at hmem
      have := hbase t ht
      have := lt_freshB G (hS _ hmem)
      omega
    · intro hmem
      exfalso
      exact hdisj s (List.getElem?_mem ht2) hmem

/-- The predecessor list of a block that is not one of the fixed headers is
unchanged by the fix. -/
theorem predsOf_stable (G : CFG) (scc : List Nat) (hwf : FixWf G scc)
    {B : Nat} (hB : B ∈ G.blocks) (hBh : B ∉ hdrsOf G scc) :
    predsOf (fixSCC G scc).out B = predsOf G B := by
  have hwf' := hwf
  obtain ⟨hnd, hsnd, hsub, hcl, hphi⟩ := hwf'
  have hbase := fwdSpecs_base G scc
  have hBlt : B < freshB G := lt_freshB G hB
  unfold predsOf
  rw [fix_blocks, fix_succs, List.filter_append]
  have hnew : ((freshB G :: (freshB G + 1) ::
      (fwdSpecs G (hdrsOf G scc) (freshB G + 2)).map (fun t => t.1)).filter
      (fun P => (newSuccs G (hdrsOf G scc) (fwdSpecs G (hdrsOf G scc) (freshB G + 2))
        (freshB G) (freshB G + 1) P).contains B)) = [] := by
    rw [List.filter_eq_nil]
    intro P hP
    rcases List.mem_cons.mp hP with h1 | h1
    · subst h1
      rw [newSuccs_disp]
      intro hcont
      have : B ∈ hdrsOf G scc ++ [freshB G + 1] := by simpa using hcont
      rcases List.mem_append.mp this with h2 | h2
      · exact hBh h2
      · have : B = freshB G + 1 := by simpa using h2
        omega
    rcases List.mem_cons.mp h1 with h2 | h2
    · subst h2
      rw [newSuccs_dflt]
      simp
    · obtain ⟨t, ht, hte⟩ := List.mem_map.mp h2
      subst hte
      rw [newSuccs_fwd G _ _ _ t.1 hbase ⟨t, ht, rfl⟩]
      intro hcont
      have : B = freshB G := by simpa using hcont
      omega
  rw [hnew, List.append_nil]
  refine List.filter_congr ?_
  intro P hP
  have hPlt : P < freshB G := lt_freshB G hP
  rw [newSuccs_old G _ _ _ P hbase hPlt]
  refine contains_map_redirect (G.succs P) ?_
  intro s _
  rcases redirectSlot_cases (fwdSpecs G (hdrsOf G scc) (freshB G + 2)) (hdrsOf G scc) P s
    with hc | ⟨t, ht, he, _, ht2⟩
  · rw [hc]
  · constructor
    · intro hre
      exfalso
      rw [he] at hre
      have := hbase t ht
      omega
    · intro hse
      exfalso
      rw [hse] at ht2
      exact hBh (List.getElem?_mem ht2)

/-- The header set of a component disjoint from the fixed headers is
unchanged by the fix. -/
theorem hdrsOf_stable (G : CFG) (scc : List Nat) (hwf : FixWf G scc)
    {T : List Nat} (hT : ∀ b ∈ T, b ∈ G.blocks)
    (hTh : ∀ b ∈ T, b ∉ hdrsOf G scc) :
    hdrsOf (fixSCC G scc).out T = hdrsOf G T := by
  unfold hdrsOf
  refine List.filter_congr ?_
  intro B hB
  rw [predsOf_stable G scc hwf (hT B hB) (hTh B hB)]

theorem walk_congr_succs {succs1 succs2 : Nat → List Nat} {S : List Nat}
    (h : ∀ X ∈ S, succs1 X = succs2 X) :
    ∀ {x z : Nat} {p : List Nat},
      Walk succs1 (fun v => S.contains v) x p z → x ∈ S →
      Walk succs2 (fun v => S.contains v) x p z := by
  intro x z p w
  induction w with
  | refl => intro _; exact Walk.refl _
  | @step x0 y0 z0 p0 he hk w' ih =>
      intro hx
      have hy : y0 ∈ S := by simpa using hk
      exact Walk.step (by rw [← h x0 hx]; exact he) hk (ih hy)

/-!  The restricted SCC computation. -/

theorem mem_reachIn_iff (G : CFG) (members : List Nat) (A x : Nat) :
    x ∈ reachIn G members A ↔
      ∃ p, Walk (viewSuccs G members) (fun v => members.contains v) A p x := by
  have hkeep : ∀ v, (fun v => members.contains v) v = true → v ∈ members := by
    intro v hv
    simpa using hv
  exact mem_expandN_start_iff hkeep A x

theorem mem_sccOfIn_iff (G : CFG) (members : List Nat) (A B : Nat) :
    B ∈ sccOfIn G members A ↔ B ∈ members ∧
      (∃ p, Walk (viewSuccs G members) (fun v => members.contains v) A p B) ∧
      (∃ p, Walk (viewSuccs G members) (fun v => members.contains v) B p A) := by
  unfold sccOfIn
  rw [List.mem_filter]
  simp only [Bool.and_eq_true]
  constructor
  · intro ⟨h1, h2, h3⟩
    exact ⟨h1, (mem_reachIn_iff G members A B).mp (by simpa using h2),
      (mem_reachIn_iff G members B A).mp (by simpa using h3)⟩
  · intro ⟨h1, h2, h3⟩
    refine ⟨h1, ?_, ?_⟩
    · simpa using (mem_reachIn_iff G members A B).mpr h2
    · simpa using (mem_reachIn_iff G members B A).mpr h3

theorem self_mem_sccOfIn (G : CFG) (members : List Nat) {A : Nat} (hA : A ∈ members) :
    A ∈ sccOfIn G members A :=
  (mem_sccOfIn_iff G members A A).mpr ⟨hA, ⟨[], Walk.refl _⟩, ⟨[], Walk.refl _⟩⟩

theorem sccOfIn_subset (G : CFG) (members : List Nat) (A : Nat) :
    ∀ B ∈ sccOfIn G members A, B ∈ members := by
  intro B hB
  exact ((mem_sccOfIn_iff G members A B).mp hB).1

theorem sccOfIn_nodup (G : CFG) {members : List Nat} (h : members.Nodup) (A : Nat) :
    (sccOfIn G members A).Nodup :=
  h.filter _

theorem sccOfIn_eq_of_mem (G : CFG) (members : List Nat) {A B : Nat}
    (h : B ∈ sccOfIn G members A) :
    sccOfIn G members B = sccOfIn G members A := by
  obtain ⟨hBm, ⟨pab, hab⟩, ⟨pba, hba⟩⟩ := (mem_sccOfIn_iff G members A B).mp h
  unfold sccOfIn
  refine List.filter_congr ?_
  intro X hX
  rw [Bool.eq_iff_iff]
  simp only [Bool.and_eq_true]
  constructor
  · intro ⟨h1, h2⟩
    obtain ⟨p1, hp1⟩ := (mem_reachIn_iff G members B X).mp (by simpa using h1)
    obtain ⟨p2, hp2⟩ := (mem_reachIn_iff G members X B).mp (by simpa using h2)
    constructor
    · have := (mem_reachIn_iff G members A X).mpr ⟨pab ++ p1, walk_append hab hp1⟩
      simpa using this
    · have := (mem_reachIn_iff G members X A).mpr ⟨p2 ++ pba, walk_append hp2 hba⟩
      simpa using this
  · intro ⟨h1, h2⟩
    obtain ⟨p1, hp1⟩ := (mem_reachIn_iff G members A X).mp (by simpa using h1)
    obtain ⟨p2, hp2⟩ := (mem_reachIn_iff G members X A).mp (by simpa using h2)
    constructor
    · have := (mem_reachIn_iff G members B X).mpr ⟨pba ++ p1, walk_append hba hp1⟩
      simpa using this
    · have := (mem_reachIn_iff G members X B).mpr ⟨p2 ++ pab, walk_append hp2 hab⟩
      simpa using this

/-- Specification of the component discovery: every component is the SCC of a
member, and the components are pairwise disjoint. -/
theorem sccListAux_spec (G : CFG) (members : List Nat) :
    ∀ (roots : List Nat) (acc : List (List Nat)),
      (∀ A ∈ roots, A ∈ members) →
      (∀ c ∈ acc, ∃ A ∈ members, c = sccOfIn G members A) →
      acc.Pairwise (fun c d => ∀ x ∈ c, x ∉ d) →
      (∀ c ∈ acc, ∀ d ∈ acc, (∀ x ∈ c, x ∉ d) ∨ c = d) →
      (∀ c ∈ sccListAux G members roots acc, ∃ A ∈ members, c = sccOfIn G members A) ∧
        (sccListAux G members roots acc).Pairwise (fun c d => ∀ x ∈ c, x ∉ d) := by
  intro roots
  induction roots with
  | nil =>
      intro acc hroots hacc hpair hcd
      unfold sccListAux
      constructor
      · intro c hc
        exact hacc c (List.mem_reverse.mp hc)
      · rw [List.pairwise_reverse]
        refine hpair.imp ?_
        intro c d h x hx hxd
        exact h x hxd hx
  | cons A roots' ih =>
      intro acc hroots hacc hpair hcd
      unfold sccListAux
      by_cases hguard : acc.any (fun c => c.contains A)
      · rw [if_pos hguard]
        exact ih acc (fun B hB => hroots B (List.mem_cons_of_mem _ hB)) hacc hpair hcd
      · rw [if_neg hguard]
        have hnotin : ∀ c ∈ acc, A ∉ c := by
          intro c hc hmem
          have hg : acc.any (fun c => c.contains A) = false := by
            rwa [Bool.eq_false_iff]
          rw [List.any_eq_false] at hg
          exact hg c hc (by simpa using hmem)
        have hAm : A ∈ members := hroots A (List.mem_cons_self _ _)
        have hdisj : ∀ c ∈ acc, ∀ x ∈ sccOfIn G members A, x ∉ c := by
          intro c hc x hx hxc
          obtain ⟨B, hBm, hce⟩ := hacc c hc
          have h1 : sccOfIn G members x = sccOfIn G members A := sccOfIn_eq_of_mem G members hx
          have h2 : sccOfIn G members x = sccOfIn G members B := by
            rw [hce] at hxc
            exact sccOfIn_eq_of_mem G members hxc
          have : A ∈ sccOfIn G members B := by
            rw [← h2, h1]
            exact self_mem_sccOfIn G members hAm
          rw [← hce] at this
          exact hnotin c hc this
        refine ih (sccOfIn G members A :: acc)
          (fun B hB => hroots B (List.mem_cons_of_mem _ hB))
          ?_ ?_ ?_
        · intro c hc
          rcases List.mem_cons.mp hc with h1 | h1
          · exact ⟨A, hAm, h1⟩
          · exact hacc c h1
        · refine List.pairwise_cons.mpr ⟨?_, hpair⟩
          intro c hc x hx
          exact fun hxc => hdisj c hc x hx hxc
        · intro c hc d hd
          rcases List.mem_cons.mp hc with h1 | h1 <;> rcases List.mem_cons.mp hd with h2 | h2
          · right; rw [h1, h2]
          · left
            subst h1
            intro x hx hxd
            exact hdisj d h2 x hx hxd
          · left
            subst h2
            intro x hx hxd
            exact hdisj c h1 x hxd hx
          · exact hcd c h1 d h2

theorem reachIn_subset (G : CFG) (members : List Nat) {A x : Nat}
    (hA : A ∈ members) (hx : x ∈ reachIn G members A) : x ∈ members := by
  unfold reachIn at hx
  refine expandN_sound (fun z => z ∈ members) ?_ _ _ ?_ x hx
  · intro a y _ _ hk
    simpa using hk
  · intro a ha
    have : a = A := by simpa using ha
    rw [this]
    exact hA

theorem sccList_spec (G : CFG) (sg : SubGr) (hent : sg.sgEntry ∈ sg.sgBlocks) :
    (∀ c ∈ sccList G sg, ∃ A ∈ sg.sgBlocks, c = sccOfIn G sg.sgBlocks A) ∧
      (sccList G sg).Pairwise (fun c d => ∀ x ∈ c, x ∉ d) := by
  unfold sccList
  refine sccListAux_spec G sg.sgBlocks _ [] ?_ ?_ ?_ ?_
  · intro A hA
    exact reachIn_subset G _ hent hA
  · intro c hc; cases hc
  · exact List.Pairwise.nil
  · intro c hc; cases hc

/-!  Arithmetic for the termination measure. -/

theorem pow3_two_le {a b t : Nat} (ha : a + 1 ≤ t) (hb : b + 1 ≤ t) :
    3 ^ a + 3 ^ b ≤ 3 ^ t := by
  obtain ⟨u, hu⟩ : ∃ u, t = u + 1 := ⟨t - 1, by omega⟩
  subst hu
  have h1 : 3 ^ a ≤ 3 ^ u := Nat.pow_le_pow_right (by omega) (by omega)
  have h2 : 3 ^ b ≤ 3 ^ u := Nat.pow_le_pow_right (by omega) (by omega)
  have h3 : 3 ^ (u + 1) = 3 * 3 ^ u := by
    rw [Nat.pow_succ]
    omega
  omega

theorem sum_ge_two_len :
    ∀ (cs : List Nat), (∀ c ∈ cs, 2 ≤ c) → 2 * cs.length ≤ cs.sum := by
  intro cs
  induction cs with
  | nil => intro _; simp
  | cons c rest ih =>
      intro h
      have hc := h c (List.mem_cons_self _ _)
      have hr := ih (fun a ha => h a (List.mem_cons_of_mem _ ha))
      simp only [List.length_cons, List.sum_cons]
      omega

theorem pow3_step {c S m t : Nat} (hc : 2 ≤ c) (hm : 1 ≤ m) (ht : 2 * m ≤ t)
    (hr : S * 3 ^ m ≤ 3 ^ (t + 1)) :
    (3 ^ c + S) * 3 ^ (m + 1) ≤ 3 ^ (c + t + 1) :=
  calc (3 ^ c + S) * 3 ^ (m + 1)
      = 3 ^ c * 3 ^ m * 3 + S * 3 ^ m * 3 := by rw [pow_succ]; ring
    _ = 3 ^ (c + m) * 3 + S * 3 ^ m * 3 := by rw [pow_add]
    _ ≤ 3 ^ (c + m) * 3 + 3 ^ (t + 1) * 3 :=
        Nat.add_le_add_left (Nat.mul_le_mul_right 3 hr) _
    _ = 3 ^ (c + m + 1) + 3 ^ (t + 2) := by rw [pow_succ, pow_succ, pow_succ]; ring
    _ ≤ 3 ^ (c + t + 1) := pow3_two_le (by omega) (by omega)

theorem pow3_aux :
    ∀ (cs : List Nat), (∀ c ∈ cs, 2 ≤ c) →
      (cs.map (fun c => 3 ^ c)).sum * 3 ^ cs.length ≤ 3 ^ (cs.sum + 1) := by
  intro cs
  induction cs with
  | nil => intro _; simp
  | cons c rest ih =>
      intro h
      have hc := h c (List.mem_cons_self _ _)
      have hr := ih (fun a ha => h a (List.mem_cons_of_mem _ ha))
      simp only [List.map_cons, List.sum_cons, List.length_cons]
      cases rest with
      | nil =>
          simp only [List.map_nil, List.sum_nil, List.length_nil, List.sum_nil]
          have e1 : (3 ^ c + 0) * 3 ^ (0 + 1) = 3 ^ (c + 1) := by
            rw [pow_succ, pow_succ]
            ring
          rw [e1]
          exact Nat.pow_le_pow_right (by omega) (by omega)
      | cons c2 rest2 =>
          have hS := sum_ge_two_len (c2 :: rest2) (fun a ha => h a (List.mem_cons_of_mem _ ha))
          exact pow3_step hc (by simp) hS hr

theorem pushed_measure_lt (s : Nat) (cs : List Nat)
    (h2 : ∀ c ∈ cs, 2 ≤ c) (hle : ∀ c ∈ cs, c + 1 ≤ s) (hsum : cs.sum ≤ s) :
    (cs.map (fun c => 3 ^ (c + 1))).sum < 3 ^ (s + 1) := by
  have hmap : (cs.map (fun c => 3 ^ (c + 1))).sum = (cs.map (fun c => 3 ^ c)).sum * 3 := by
    induction cs with
    | nil => simp
    | cons c rest ih =>
        simp only [List.map_cons, List.sum_cons]
        rw [ih (fun a ha => h2 a (List.mem_cons_of_mem _ ha))
          (fun a ha => hle a (List.mem_cons_of_mem _ ha)) (by
            simp only [List.sum_cons] at hsum
            omega), pow_succ]
        ring
  cases cs with
  | nil =>
      simp only [List.map_nil, List.sum_nil]
      exact Nat.pos_pow_of_pos _ (by omega)
  | cons c rest =>
      cases rest with
      | nil =>
          have hc1 := hle c (List.mem_cons_self _ _)
          simp only [List.map_cons, List.map_nil, List.sum_cons, List.sum_nil, Nat.add_zero]
          calc 3 ^ (c + 1) ≤ 3 ^ s := Nat.pow_le_pow_right (by omega) hc1
            _ < 3 ^ (s + 1) := Nat.pow_lt_pow_right (by omega) (by omega)
      | cons c2 rest2 =>
          have haux := pow3_aux (c :: c2 :: rest2) h2
          have hm2 : 2 ≤ (c :: c2 :: rest2).length := by simp
          have hsge : 4 ≤ s := by
            have := sum_ge_two_len (c :: c2 :: rest2) h2
            simp only [List.length_cons] at this
            omega
          have h9 : (((c :: c2 :: rest2).map (fun c => 3 ^ c)).sum) * 9 ≤ 3 ^ (s + 1) := by
            have e9 : (9 : Nat) = 3 ^ 2 := by norm_num
            calc (((c :: c2 :: rest2).map (fun c => 3 ^ c)).sum) * 9
                ≤ (((c :: c2 :: rest2).map (fun c => 3 ^ c)).sum) *
                    3 ^ (c :: c2 :: rest2).length := by
                  refine Nat.mul_le_mul_left _ ?_
                  rw [e9]
                  exact Nat.pow_le_pow_right (by omega) hm2
              _ ≤ 3 ^ ((c :: c2 :: rest2).sum + 1) := haux
              _ ≤ 3 ^ (s + 1) := Nat.pow_le_pow_right (by omega) (by omega)
          have hs1 : ∃ u, s = u + 1 := ⟨s - 1, by omega⟩
          obtain ⟨u, hu⟩ := hs1
          subst hu
          have h3u : 3 ^ (u + 1 + 1) = 9 * 3 ^ u := by
            rw [pow_succ, pow_succ]
            ring
          rw [hmap]
          rw [h3u] at h9
          have hT : ((c :: c2 :: rest2).map (fun c => 3 ^ c)).sum ≤ 3 ^ u := by
            have := h9
            omega
          calc ((c :: c2 :: rest2).map (fun c => 3 ^ c)).sum * 3 ≤ 3 ^ u * 3 :=
              Nat.mul_le_mul_right 3 hT
            _ = 3 ^ (u + 1) := by rw [pow_succ]
            _ < 3 ^ (u + 1 + 1) := Nat.pow_lt_pow_right (by omega) (by omega)

/-!  The driver terminates: invariants of queued regions. -/

/-- The driver's step function, also returning the remaining queue. -/
def driverSteps : Nat → CFG → List SubGr → CFG × List SubGr
  | 0, G, q => (G, q)
  | _ + 1, G, [] => (G, [])
  | fuel + 1, G, sg :: rest =>
      let p := processOnce G sg
      driverSteps fuel p.1 (rest ++ p.2)

/-- Invariant of a queued rewritten region relative to the original function
`G0` and the current graph `G`: the entry is the Dispatcher, never re-entered
from inside the region's view; the component blocks come from the original
function; and a recorded header set (with at least two headers) such that no
view cycle of the region meets two of them. -/
def Good (G0 G : CFG) (R : SubGr) : Prop :=
  R.sgBlocks = R.sgEntry :: R.sgBlocks.tail ∧
  R.sgBlocks.Nodup ∧
  (∀ b ∈ R.sgBlocks, b ∈ G.blocks) ∧
  (∀ b ∈ R.sgBlocks.tail, b ∈ G0.blocks) ∧
  (∀ X ∈ R.sgBlocks, R.sgEntry ∉ viewSuccs G R.sgBlocks X) ∧
  (∃ H : List Nat, (∀ h ∈ H, h ∈ R.sgBlocks.tail) ∧ 2 ≤ H.length ∧ H.Nodup ∧
    (∀ E1 ∈ H, ∀ E2 ∈ H, E1 ≠ E2 →
      (∃ p, Walk (viewSuccs G R.sgBlocks) (fun v => R.sgBlocks.contains v) E1 p E2) →
      (∃ p, Walk (viewSuccs G R.sgBlocks) (fun v => R.sgBlocks.contains v) E2 p E1) → False))

theorem walk_last_edge {succs : Nat → List Nat} {keep : Nat → Bool} :
    ∀ {x z : Nat} {p : List Nat}, Walk succs keep x p z → p ≠ [] →
      ∃ w, (w = x ∨ keep w = true) ∧ z ∈ succs w := by
  intro x z p w
  induction w with
  | refl => intro h; exact absurd rfl h
  | @step x0 y0 z0 p0 he hk w' ih =>
      intro _
      cases w' with
      | refl => exact ⟨x0, Or.inl rfl, he⟩
      | step he2 hk2 w2 =>
          obtain ⟨w, hw1, hw2⟩ := ih (by simp)
          refine ⟨w, ?_, hw2⟩
          rcases hw1 with h1 | h1
          · right; rw [h1]; exact hk
          · right; exact h1

theorem two_distinct_of_nodup {H : List Nat} (hnd : H.Nodup) (hlen : 2 ≤ H.length) :
    ∃ h1 ∈ H, ∃ h2 ∈ H, h1 ≠ h2 := by
  cases H with
  | nil => simp at hlen
  | cons a t =>
      cases t with
      | nil => simp at hlen
      | cons b t' =>
          refine ⟨a, List.mem_cons_self _ _, b,
            List.mem_cons_of_mem _ (List.mem_cons_self _ _), ?_⟩
          intro hab
          have := List.nodup_cons.mp hnd
          exact this.1 (hab ▸ List.mem_cons_self _ _)

/-- At pop time, any component of a queued region's view that might be fixed
(at least two blocks) avoids the region's Dispatcher entry, lies inside the
component part, and is strictly smaller than the region. -/
theorem good_comp_bound (G0 Gp : CFG) (R : SubGr) (hg : Good G0 Gp R)
    {c : List Nat} {A : Nat} (hA : A ∈ R.sgBlocks) (hc : c = sccOfIn Gp R.sgBlocks A)
    (hlen : 2 ≤ c.length) :
    (∀ b ∈ c, b ∈ R.sgBlocks.tail) ∧ c.length + 1 < R.sgBlocks.length := by
  obtain ⟨hshape, hnd, hsubG, hsub0, hnoe, H, hH1, hH2, hH3, hH4⟩ := hg
  have hcnd : c.Nodup := by
    rw [hc]
    exact sccOfIn_nodup Gp hnd A
  have hcsub : ∀ b ∈ c, b ∈ R.sgBlocks := by
    intro b hb
    rw [hc] at hb
    exact sccOfIn_subset Gp _ A b hb
  -- the entry is not in the component
  have hent_not : R.sgEntry ∉ c := by
    intro hent
    -- pick another element of the component and walk from it into the entry
    have h2 : ∃ x ∈ c, x ≠ R.sgEntry := by
      by_contra hall
      push_neg at hall
      cases hc2 : c with
      | nil => rw [hc2] at hlen; simp at hlen
      | cons a t =>
          cases hc3 : t with
          | nil => rw [hc2, hc3] at hlen; simp at hlen
          | cons b t' =>
              have ha := hall a (by rw [hc2]; exact List.mem_cons_self _ _)
              have hb := hall b (by
                rw [hc2, hc3]
                exact List.mem_cons_of_mem _ (List.mem_cons_self _ _))
              rw [hc2, hc3] at hcnd
              have := List.nodup_cons.mp hcnd
              exact this.1 (by rw [ha, ← hb]; exact List.mem_cons_self _ _)
    obtain ⟨x, hx, hxne⟩ := h2
    have hxm := hcsub x hx
    -- mutual reachability within the component gives a walk from x to the entry
    rw [hc] at hx hent
    obtain ⟨_, ⟨pax, hax⟩, ⟨pxa, hxa⟩⟩ := (mem_sccOfIn_iff Gp R.sgBlocks A x).mp hx
    obtain ⟨_, ⟨pae, hae⟩, _⟩ := (mem_sccOfIn_iff Gp R.sgBlocks A R.sgEntry).mp hent
    have hwalk : Walk (viewSuccs Gp R.sgBlocks) (fun v => R.sgBlocks.contains v)
        x (pxa ++ pae) R.sgEntry := walk_append hxa hae
    have hne : pxa ++ pae ≠ [] := by
      intro hnil
      have := walk_last_eq hwalk hnil
      exact hxne this.symm
    obtain ⟨w, hw1, hw2⟩ := walk_last_edge hwalk hne
    have hwm : w ∈ R.sgBlocks := by
      rcases hw1 with h1 | h1
      · rw [h1]; exact hxm
      · simpa using h1
    exact hnoe w hwm hw2
  constructor
  · intro b hb
    have := hcsub b hb
    rw [hshape] at this
    rcases List.mem_cons.mp this with h1 | h1
    · exfalso
      rw [← h1] at hent_not
      exact hent_not hb
    · exact h1
  · -- at most one recorded header lies in the component
    have honeH : ∀ E1 ∈ H, ∀ E2 ∈ H, E1 ∈ c → E2 ∈ c → E1 = E2 := by
      intro E1 h1 E2 h2 hc1 hc2
      by_contra hne
      rw [hc] at hc1 hc2
      obtain ⟨_, ⟨p1, hp1⟩, ⟨p2, hp2⟩⟩ := (mem_sccOfIn_iff Gp R.sgBlocks A E1).mp hc1
      obtain ⟨_, ⟨p3, hp3⟩, ⟨p4, hp4⟩⟩ := (mem_sccOfIn_iff Gp R.sgBlocks A E2).mp hc2
      exact hH4 E1 h1 E2 h2 hne ⟨p2 ++ p3, walk_append hp2 hp3⟩
        ⟨p4 ++ p1, walk_append hp4 hp1⟩
    have hmiss : ∃ h ∈ H, h ∉ c := by
      obtain ⟨h1, hm1, h2, hm2, hne⟩ := two_distinct_of_nodup hH3 hH2
      by_cases hin1 : h1 ∈ c
      · by_cases hin2 : h2 ∈ c
        · exact absurd (honeH h1 hm1 h2 hm2 hin1 hin2) hne
        · exact ⟨h2, hm2, hin2⟩
      · exact ⟨h1, hm1, hin1⟩
    obtain ⟨h0, hh0, hh0n⟩ := hmiss
    have hsubtail : ∀ b ∈ c, b ∈ R.sgBlocks.tail := by
      intro b hb
      have := hcsub b hb
      rw [hshape] at this
      rcases List.mem_cons.mp this with h1 | h1
      · exact absurd (h1 ▸ hb) hent_not
      · exact h1
    have hsubErase : ∀ b ∈ c, b ∈ R.sgBlocks.tail.erase h0 := by
      intro b hb
      rw [List.mem_erase_of_ne]
      · exact hsubtail b hb
      · intro hbe
        rw [hbe] at hb
        exact hh0n hb
    have hle : c.length ≤ (R.sgBlocks.tail.erase h0).length :=
      (hcnd.subperm hsubErase).length_le
    have htl : (R.sgBlocks.tail.erase h0).length = R.sgBlocks.tail.length - 1 :=
      List.length_erase_of_mem (hH1 h0 hh0)
    have htail_pos : 1 ≤ R.sgBlocks.tail.length :=
      List.length_pos.mpr (List.ne_nil_of_mem (hH1 h0 hh0))
    have hlen_blocks : R.sgBlocks.length = R.sgBlocks.tail.length + 1 := by
      conv_lhs => rw [hshape]
      simp
    omega

/-- Invariant of the graph during the driver run relative to the original
function: well-formed, and every original block still present and
reachable. -/
def GState (G0 G : CFG) : Prop :=
  WfG G ∧ (∀ b ∈ G0.blocks, b ∈ G.blocks) ∧ (∀ b ∈ G0.blocks, b ∈ reachSet G)

theorem gstate_fix (G0 G : CFG) (scc : List Nat) (hg : GState G0 G)
    (hnd : scc.Nodup) (hsub : ∀ b ∈ scc, b ∈ G.blocks) :
    GState G0 (fixSCC G scc).out := by
  obtain ⟨hw, hb, hr⟩ := hg
  have hwf := fixWf_of_wfG hw hnd hsub
  refine ⟨fix_wfG G scc hw hnd hsub, ?_, ?_⟩
  · intro b hb0
    exact fix_blocks_sub G scc b (hb b hb0)
  · intro b hb0
    exact reachSet_preserved G scc hwf hw.2.1 (hr b hb0)

theorem good_tail_sub {G0 G : CFG} {S : SubGr} (hg : Good G0 G S) :
    ∀ b ∈ S.sgBlocks.tail, b ∈ S.sgBlocks := by
  intro b hb
  rw [hg.1]
  exact List.mem_cons_of_mem _ hb

/-- A fix of a component disjoint from a queued region preserves that
region's invariant. -/
theorem good_frame_fix (G0 G : CFG) (scc : List Nat) (hw : WfG G)
    (hnd : scc.Nodup) (hsub : ∀ b ∈ scc, b ∈ G.blocks)
    {S : SubGr} (hgS : Good G0 G S)
    (hdisj : ∀ x ∈ scc, x ∉ S.sgBlocks) :
    Good G0 (fixSCC G scc).out S := by
  have hwf := fixWf_of_wfG hw hnd hsub
  obtain ⟨hshape, hndS, hsubG, hsub0, hnoe, H, hH1, hH2, hH3, hH4⟩ := hgS
  have hdisj' : ∀ h ∈ hdrsOf G scc, h ∉ S.sgBlocks :=
    fun h hh => hdisj h (hdrs_subset_scc G scc hh)
  have hstable : ∀ X ∈ S.sgBlocks,
      viewSuccs (fixSCC G scc).out S.sgBlocks X = viewSuccs G S.sgBlocks X := by
    intro X hX
    exact viewSuccs_stable G scc hwf hsubG hdisj' (hsubG X hX)
  refine ⟨hshape, hndS, ?_, hsub0, ?_, H, hH1, hH2, hH3, ?_⟩
  · intro b hb
    exact fix_blocks_sub G scc b (hsubG b hb)
  · intro X hX
    rw [hstable X hX]
    exact hnoe X hX
  · intro E1 h1 E2 h2 hne w12 w21
    have hE1m : E1 ∈ S.sgBlocks := good_tail_sub ⟨hshape, hndS, hsubG, hsub0, hnoe,
      H, hH1, hH2, hH3, hH4⟩ E1 (hH1 E1 h1)
    have hE2m : E2 ∈ S.sgBlocks := good_tail_sub ⟨hshape, hndS, hsubG, hsub0, hnoe,
      H, hH1, hH2, hH3, hH4⟩ E2 (hH1 E2 h2)
    obtain ⟨p12, hp12⟩ := w12
    obtain ⟨p21, hp21⟩ := w21
    exact hH4 E1 h1 E2 h2 hne
      ⟨p12, walk_congr_succs hstable hp12 hE1m⟩
      ⟨p21, walk_congr_succs hstable hp21 hE2m⟩

/-- The region pushed after fixing an irreducible component satisfies the
queue invariant: Dispatcher entry never re-entered in the view, component
blocks original, and the collapsed header set has no two-header view
cycle. -/
theorem good_pushed (G0 G : CFG) (scc : List Nat) (hg : GState G0 G)
    (hnd : scc.Nodup) (hsub : ∀ b ∈ scc, b ∈ G.blocks)
    (hsub0 : ∀ b ∈ scc, b ∈ G0.blocks)
    (hgate : 2 ≤ (hdrsOf G scc).length) :
    Good G0 (fixSCC G scc).out ⟨(fixSCC G scc).disp, (fixSCC G scc).disp :: scc⟩ := by
  obtain ⟨hw, hb, hr⟩ := hg
  have hwf := fixWf_of_wfG hw hnd hsub
  have hdisp : (fixSCC G scc).disp = freshB G := rfl
  refine ⟨rfl, ?_, ?_, ?_, ?_, hdrsOf G scc, ?_, hgate, hnd.filter _, ?_⟩
  · rw [hdisp]
    refine List.nodup_cons.mpr ⟨?_, hnd⟩
    intro hmem
    have := lt_freshB G (hsub _ hmem)
    omega
  · intro b hbm
    rcases List.mem_cons.mp hbm with h1 | h1
    · rw [h1, hdisp, fix_blocks]
      exact List.mem_append_right _ (List.mem_cons_self _ _)
    · exact fix_blocks_sub G scc b (hsub b h1)
  · intro b hbm
    exact hsub0 b hbm
  · intro X hX hmem
    rw [hdisp] at hX hmem
    exact view_no_edge_into_disp G scc hwf hX hmem rfl
  · intro h hh
    exact hdrs_subset_scc G scc hh
  · intro E1 h1 E2 h2 hne w12 w21
    rw [hdisp] at w12 w21
    exact no_two_headers_in_view_cycle G scc hwf h1 h2 hne
      (hr E1 (hsub0 E1 (hdrs_subset_scc G scc h1))) w12 w21

/-- Processing a component list: the graph invariant is preserved, every
pushed region is Good for the final graph, the pushed regions are pairwise
disjoint and draw their blocks from the processed components and fresh
blocks, disjoint Good regions stay Good, and the pushed sizes are the sizes
of a sub-collection of fixed components plus one Dispatcher each. -/
theorem processSCCs_go (G0 : CFG) :
    ∀ (comps : List (List Nat)) (G : CFG),
      GState G0 G →
      (∀ c ∈ comps, c.Nodup ∧ ∀ b ∈ c, b ∈ G.blocks) →
      (∀ c ∈ comps, 2 ≤ c.length → ∀ b ∈ c, b ∈ G0.blocks) →
      comps.Pairwise (fun c d => ∀ x ∈ c, x ∉ d) →
      GState G0 (processSCCs G comps).1 ∧
      (∀ b ∈ G.blocks, b ∈ (processSCCs G comps).1.blocks) ∧
      (∀ P ∈ (processSCCs G comps).2, Good G0 (processSCCs G comps).1 P) ∧
      (∀ P ∈ (processSCCs G comps).2, ∀ x ∈ P.sgBlocks,
         (∃ c ∈ comps, x ∈ c) ∨ x ∉ G.blocks) ∧
      (processSCCs G comps).2.Pairwise (fun R S => ∀ x ∈ R.sgBlocks, x ∉ S.sgBlocks) ∧
      (∀ S : SubGr, Good G0 G S → (∀ c ∈ comps, ∀ x ∈ c, x ∉ S.sgBlocks) →
         Good G0 (processSCCs G comps).1 S) ∧
      (∃ sub : List (List Nat), List.Sublist sub comps ∧
         (processSCCs G comps).2.map (fun P => P.sgBlocks.length) =
           sub.map (fun c => c.length + 1) ∧
         ∀ c ∈ sub, 2 ≤ c.length) := by
  intro comps
  induction comps with
  | nil =>
      intro G hg _ _ _
      refine ⟨hg, fun b hb => hb, ?_, ?_, ?_, ?_, [], List.Sublist.refl _, rfl, ?_⟩
      · intro P hP; cases hP
      · intro P hP; cases hP
      · exact List.Pairwise.nil
      · intro S hS _; exact hS
      · intro c hc; cases hc
  | cons c rest ih =>
      intro G hg hcomps hcomps0 hpw
      obtain ⟨hndc, hsubc⟩ := hcomps c (List.mem_cons_self _ _)
      have hheaddisj : ∀ d ∈ rest, ∀ x ∈ c, x ∉ d := (List.pairwise_cons.mp hpw).1
      have hpw' := (List.pairwise_cons.mp hpw).2
      by_cases hgate : 2 ≤ (hdrsOf G c).length
      · -- irreducible component: it gets fixed and its region queued
        have hc2 : 2 ≤ c.length := by
          unfold hdrsOf at hgate
          exact le_trans hgate (List.length_filter_le _ _)
        have hsub0c : ∀ b ∈ c, b ∈ G0.blocks :=
          hcomps0 c (List.mem_cons_self _ _) hc2
        have hg' : GState G0 (fixSCC G c).out := gstate_fix G0 G c hg hndc hsubc
        have hrest : ∀ c' ∈ rest, c'.Nodup ∧ ∀ b ∈ c', b ∈ (fixSCC G c).out.blocks := by
          intro c' hc'
          obtain ⟨h1, h2⟩ := hcomps c' (List.mem_cons_of_mem _ hc')
          exact ⟨h1, fun b hb => fix_blocks_sub G c b (h2 b hb)⟩
        have hrest0 : ∀ c' ∈ rest, 2 ≤ c'.length → ∀ b ∈ c', b ∈ G0.blocks :=
          fun c' hc' => hcomps0 c' (List.mem_cons_of_mem _ hc')
        obtain ⟨ihg, ihmono, ihgood, ihsrc, ihpw, ihframe, sub, hsubl, hmap, hsub2⟩ :=
          ih (fixSCC G c).out hg' hrest hrest0 hpw'
        have heq : processSCCs G (c :: rest) =
            ((processSCCs (fixSCC G c).out rest).1,
             ⟨(fixSCC G c).disp, (fixSCC G c).disp :: c⟩ ::
               (processSCCs (fixSCC G c).out rest).2) := by
          simp only [processSCCs, if_pos hgate]
        have hdisp : (fixSCC G c).disp = freshB G := rfl
        have hP0sub : ∀ x ∈ (fixSCC G c).disp :: c, x ∈ (fixSCC G c).out.blocks := by
          intro x hx
          rcases List.mem_cons.mp hx with h1 | h1
          · rw [h1, hdisp, fix_blocks]
            exact List.mem_append_right _ (List.mem_cons_self _ _)
          · exact fix_blocks_sub G c x (hsubc x h1)
        have hP0good : Good G0 (processSCCs (fixSCC G c).out rest).1
            ⟨(fixSCC G c).disp, (fixSCC G c).disp :: c⟩ := by
          refine ihframe _ (good_pushed G0 G c hg hndc hsubc hsub0c hgate) ?_
          intro c' hc' x hx hmem
          have hxG : x ∈ G.blocks := (hcomps c' (List.mem_cons_of_mem _ hc')).2 x hx
          rcases List.mem_cons.mp hmem with h1 | h1
          · have hlt := lt_freshB G hxG
            rw [h1, hdisp] at hlt
            omega
          · exact hheaddisj c' hc' x h1 hx
        rw [heq]
        refine ⟨ihg, fun b hb => ihmono b (fix_blocks_sub G c b hb), ?_, ?_, ?_, ?_, ?_⟩
        · intro P hP
          rcases List.mem_cons.mp hP with h1 | h1
          · rw [h1]; exact hP0good
          · exact ihgood P h1
        · intro P hP x hx
          rcases List.mem_cons.mp hP with h1 | h1
          · rw [h1] at hx
            rcases List.mem_cons.mp hx with h2 | h2
            · right
              intro hxG
              rw [h2, hdisp] at hxG
              have := lt_freshB G hxG
              omega
            · exact Or.inl ⟨c, List.mem_cons_self _ _, h2⟩
          · rcases ihsrc P h1 x hx with ⟨c', hc', hxc'⟩ | h2
            · exact Or.inl ⟨c', List.mem_cons_of_mem _ hc', hxc'⟩
            · right
              intro hxG
              exact h2 (fix_blocks_sub G c x hxG)
        · refine List.pairwise_cons.mpr ⟨?_, ihpw⟩
          intro S hS x hx hxS
          rcases ihsrc S hS x hxS with ⟨c', hc', hxc'⟩ | h2
          · have hxG : x ∈ G.blocks := (hcomps c' (List.mem_cons_of_mem _ hc')).2 x hxc'
            rcases List.mem_cons.mp hx with h1 | h1
            · rw [h1, hdisp] at hxG
              have := lt_freshB G hxG
              omega
            · exact hheaddisj c' hc' x h1 hxc'
          · exact h2 (hP0sub x hx)
        · intro S hGood hdisjS
          refine ihframe S ?_ ?_
          · exact good_frame_fix G0 G c hg.1 hndc hsubc hGood
              (hdisjS c (List.mem_cons_self _ _))
          · intro c' hc'
            exact hdisjS c' (List.mem_cons_of_mem _ hc')
        · refine ⟨c :: sub, List.Sublist.cons₂ c hsubl, ?_, ?_⟩
          · simp only [List.map_cons, List.length_cons]
            rw [hmap]
          · intro c' hc'
            rcases List.mem_cons.mp hc' with h1 | h1
            · rw [h1]; exact hc2
            · exact hsub2 c' h1
      · -- at most one header: skipped
        have heq : processSCCs G (c :: rest) = processSCCs G rest := by
          simp only [processSCCs, if_neg hgate]
        have hrest : ∀ c' ∈ rest, c'.Nodup ∧ ∀ b ∈ c', b ∈ G.blocks :=
          fun c' hc' => hcomps c' (List.mem_cons_of_mem _ hc')
        have hrest0 : ∀ c' ∈ rest, 2 ≤ c'.length → ∀ b ∈ c', b ∈ G0.blocks :=
          fun c' hc' => hcomps0 c' (List.mem_cons_of_mem _ hc')
        obtain ⟨ihg, ihmono, ihgood, ihsrc, ihpw, ihframe, sub, hsubl, hmap, hsub2⟩ :=
          ih G hg hrest hrest0 hpw'
        rw [heq]
        refine ⟨ihg, ihmono, ihgood, ?_, ihpw, ?_, sub, List.Sublist.cons c hsubl,
          hmap, hsub2⟩
        · intro P hP x hx
          rcases ihsrc P hP x hx with ⟨c', hc', hxc'⟩ | h2
          · exact Or.inl ⟨c', List.mem_cons_of_mem _ hc', hxc'⟩
          · exact Or.inr h2
        · intro S hGood hdisjS
          exact ihframe S hGood (fun c' hc' => hdisjS c' (List.mem_cons_of_mem _ hc'))

/-- Measure of the pending work queue: exponential in each region's size. -/
def qmeasure (q : List SubGr) : Nat :=
  (q.map (fun R => 3 ^ R.sgBlocks.length)).sum

/-- Popping a Good region: the invariants are preserved, the regions pushed
back are Good and pairwise disjoint, regions disjoint from the popped one are
untouched, and the pushed measure is strictly below the popped region's
measure. -/
theorem processOnce_spec (G0 G : CFG) (R : SubGr) (hg : GState G0 G)
    (hgood : Good G0 G R) :
    GState G0 (processOnce G R).1 ∧
    (∀ b ∈ G.blocks, b ∈ (processOnce G R).1.blocks) ∧
    (∀ P ∈ (processOnce G R).2, Good G0 (processOnce G R).1 P) ∧
    (processOnce G R).2.Pairwise (fun A B => ∀ x ∈ A.sgBlocks, x ∉ B.sgBlocks) ∧
    (∀ S : SubGr, Good G0 G S → (∀ x ∈ R.sgBlocks, x ∉ S.sgBlocks) →
       Good G0 (processOnce G R).1 S) ∧
    (∀ P ∈ (processOnce G R).2, ∀ x ∈ P.sgBlocks,
       x ∈ R.sgBlocks ∨ x ∉ G.blocks) ∧
    qmeasure (processOnce G R).2 < 3 ^ R.sgBlocks.length := by
  have hgood' := hgood
  obtain ⟨hshape, hndR, hsubG, hsub0, hnoe, hH⟩ := hgood'
  have hent : R.sgEntry ∈ R.sgBlocks := by
    rw [hshape]
    exact List.mem_cons_self _ _
  obtain ⟨hrepr, hpwc⟩ := sccList_spec G R hent
  have hcomps : ∀ c ∈ sccList G R, c.Nodup ∧ ∀ b ∈ c, b ∈ G.blocks := by
    intro c hc
    obtain ⟨A, hA, hcA⟩ := hrepr c hc
    refine ⟨by rw [hcA]; exact sccOfIn_nodup G hndR A, ?_⟩
    intro b hb
    rw [hcA] at hb
    exact hsubG b (sccOfIn_subset G R.sgBlocks A b hb)
  have hbound : ∀ c ∈ sccList G R, 2 ≤ c.length →
      (∀ b ∈ c, b ∈ R.sgBlocks.tail) ∧ c.length + 1 < R.sgBlocks.length := by
    intro c hc hlen
    obtain ⟨A, hA, hcA⟩ := hrepr c hc
    exact good_comp_bound G0 G R hgood hA hcA hlen
  have hcomps0 : ∀ c ∈ sccList G R, 2 ≤ c.length → ∀ b ∈ c, b ∈ G0.blocks := by
    intro c hc hlen b hb
    exact hsub0 b ((hbound c hc hlen).1 b hb)
  obtain ⟨pg, pmono, pgood, psrc, ppw, pframe, sub, hsubl, hmap, hsub2⟩ :=
    processSCCs_go G0 (sccList G R) G hg hcomps hcomps0 hpwc
  have hcsub : ∀ c ∈ sccList G R, ∀ b ∈ c, b ∈ R.sgBlocks := by
    intro c hc
    obtain ⟨A, hA, hcA⟩ := hrepr c hc
    intro b hb
    rw [hcA] at hb
    exact sccOfIn_subset G R.sgBlocks A b hb
  refine ⟨pg, pmono, pgood, ppw, ?_, ?_, ?_⟩
  · intro S hS hdisjS
    refine pframe S hS ?_
    intro c hc x hx
    exact hdisjS x (hcsub c hc x hx)
  · intro P hP x hx
    rcases psrc P hP x hx with ⟨c, hc, hxc⟩ | h2
    · exact Or.inl (hcsub c hc x hxc)
    · exact Or.inr h2
  · -- the measure of the pushed regions
    have hsubm : ∀ c ∈ sub, c ∈ sccList G R := fun c hc => hsubl.subset hc
    have hcs2 : ∀ c ∈ sub.map List.length, 2 ≤ c := by
      intro n hn
      obtain ⟨c, hc, hcn⟩ := List.mem_map.mp hn
      rw [← hcn]
      exact hsub2 c hc
    have hcsle : ∀ n ∈ sub.map List.length, n + 1 ≤ R.sgBlocks.tail.length := by
      intro n hn
      obtain ⟨c, hc, hcn⟩ := List.mem_map.mp hn
      have := (hbound c (hsubm c hc) (hsub2 c hc)).2
      have hlb : R.sgBlocks.length = R.sgBlocks.tail.length + 1 := by
        conv_lhs => rw [hshape]
        simp
      omega
    have hcssum : (sub.map List.length).sum ≤ R.sgBlocks.tail.length := by
      have hjn : sub.flatten.Nodup := by
        rw [List.nodup_flatten]
        refine ⟨fun c hc => (hcomps c (hsubm c hc)).1, ?_⟩
        have := hpwc.sublist hsubl
        refine this.imp ?_
        intro c d h
        intro a ha1 ha2
        exact h a ha1 ha2
      have hjs : ∀ x ∈ sub.flatten, x ∈ R.sgBlocks.tail := by
        intro x hx
        obtain ⟨c, hc, hxc⟩ := List.mem_flatten.mp hx
        exact (hbound c (hsubm c hc) (hsub2 c hc)).1 x hxc
      have := (hjn.subperm hjs).length_le
      rw [List.length_flatten] at this
      exact this
    have hkey := pushed_measure_lt R.sgBlocks.tail.length (sub.map List.length)
      hcs2 hcsle hcssum
    have hmeq : qmeasure (processOnce G R).2 =
        ((sub.map List.length).map (fun c => 3 ^ (c + 1))).sum := by
      unfold qmeasure processOnce
      have h1 : (processSCCs G (sccList G R)).2.map (fun P => 3 ^ P.sgBlocks.length) =
          ((processSCCs G (sccList G R)).2.map (fun P => P.sgBlocks.length)).map
            (fun n => 3 ^ n) := by
        rw [List.map_map]
        rfl
      rw [h1, hmap, List.map_map, List.map_map]
      rfl
    have hlb : R.sgBlocks.length = R.sgBlocks.tail.length + 1 := by
      conv_lhs => rw [hshape]
      simp
    rw [hmeq, hlb]
    exact hkey

/-- The driver's queue empties: strong induction on the total queue
measure. -/
theorem driver_terminates_aux (G0 : CFG) :
    ∀ (μ : Nat) (G : CFG) (q : List SubGr),
      qmeasure q ≤ μ →
      GState G0 G →
      (∀ R ∈ q, Good G0 G R) →
      q.Pairwise (fun A B => ∀ x ∈ A.sgBlocks, x ∉ B.sgBlocks) →
      ∃ n, (driverSteps n G q).2 = [] := by
  intro μ
  induction μ with
  | zero =>
      intro G q hμ _ _ _
      cases q with
      | nil => exact ⟨0, rfl⟩
      | cons R rest =>
          exfalso
          have : 1 ≤ 3 ^ R.sgBlocks.length := Nat.one_le_pow _ _ (by omega)
          unfold qmeasure at hμ
          simp only [List.map_cons, List.sum_cons] at hμ
          omega
  | succ μ ih =>
      intro G q hμ hg hgoodq hpwq
      cases q with
      | nil => exact ⟨0, rfl⟩
      | cons R rest =>
          have hgoodR := hgoodq R (List.mem_cons_self _ _)
          have hd : ∀ S ∈ rest, ∀ x ∈ R.sgBlocks, x ∉ S.sgBlocks :=
            (List.pairwise_cons.mp hpwq).1
          have hpwr := (List.pairwise_cons.mp hpwq).2
          obtain ⟨pg, pmono, pgood, ppw, pframe, psrc, pmeas⟩ :=
            processOnce_spec G0 G R hg hgoodR
          have hgoodrest : ∀ S ∈ rest, Good G0 (processOnce G R).1 S := by
            intro S hS
            exact pframe S (hgoodq S (List.mem_cons_of_mem _ hS))
              (fun x hx => hd S hS x hx)
          have hgood' : ∀ S ∈ rest ++ (processOnce G R).2,
              Good G0 (processOnce G R).1 S := by
            intro S hS
            rcases List.mem_append.mp hS with h1 | h1
            · exact hgoodrest S h1
            · exact pgood S h1
          have hpw' : (rest ++ (processOnce G R).2).Pairwise
              (fun A B => ∀ x ∈ A.sgBlocks, x ∉ B.sgBlocks) := by
            rw [List.pairwise_append]
            refine ⟨hpwr, ppw, ?_⟩
            intro S hS P hP x hxS hxP
            rcases psrc P hP x hxP with h1 | h1
            · exact hd S hS x h1 hxS
            · exact h1 ((hgoodq S (List.mem_cons_of_mem _ hS)).2.2.1 x hxS)
          have hμ' : qmeasure (rest ++ (processOnce G R).2) ≤ μ := by
            unfold qmeasure at hμ ⊢
            rw [List.map_append, List.sum_append]
            simp only [List.map_cons, List.sum_cons] at hμ
            have := pmeas
            unfold qmeasure at this
            omega
          obtain ⟨n, hn⟩ := ih (processOnce G R).1 (rest ++ (processOnce G R).2)
            hμ' pg hgood' hpw'
          refine ⟨n + 1, ?_⟩
          simp only [driverSteps]
          exact hn

/-- C3: for every well-formed input function with all blocks reachable, the
fixpoint driver terminates: each fix operation strictly reduces the count of
externally-multi-entered headers in its region (at least two headers collapse
into the single Dispatcher entry), and the work queue processed by the driver
empties after finitely many iterations. -/
theorem c3_driver_terminates (G : CFG) (hw : WfG G)
    (hreach : ∀ b ∈ G.blocks, b ∈ reachSet G) :
    (∀ scc : List Nat, FixWf G scc →
        (∀ h ∈ hdrsOf G scc, ∀ P ∈ predsOf G h,
          dominatesB G h P = true → P ∈ scc) →
        2 ≤ countExt G scc →
        countExt (fixSCC G scc).out (freshB G :: scc) < countExt G scc) ∧
    (∃ n, (driverSteps n G [⟨G.entry, G.blocks⟩]).2 = []) := by
  constructor
  · intro scc hwf hdom hk
    have h1 := fix_entry_count G scc hwf hdom hk
    rw [h1]
    omega
  · -- peel the initial subgraph, whose components seed the Good queue
    have hg0 : GState G G := ⟨hw, fun b hb => hb, hreach⟩
    have hent : (SubGr.mk G.entry G.blocks).sgEntry ∈
        (SubGr.mk G.entry G.blocks).sgBlocks := hw.2.1
    obtain ⟨hrepr, hpwc⟩ := sccList_spec G ⟨G.entry, G.blocks⟩ hent
    have hcomps : ∀ c ∈ sccList G ⟨G.entry, G.blocks⟩,
        c.Nodup ∧ ∀ b ∈ c, b ∈ G.blocks := by
      intro c hc
      obtain ⟨A, hA, hcA⟩ := hrepr c hc
      refine ⟨by rw [hcA]; exact sccOfIn_nodup G hw.1 A, ?_⟩
      intro b hb
      rw [hcA] at hb
      exact sccOfIn_subset G G.blocks A b hb
    have hcomps0 : ∀ c ∈ sccList G ⟨G.entry, G.blocks⟩, 2 ≤ c.length →
        ∀ b ∈ c, b ∈ G.blocks := fun c hc _ => (hcomps c hc).2
    obtain ⟨pg, pmono, pgood, psrc, ppw, pframe, _⟩ :=
      processSCCs_go G (sccList G ⟨G.entry, G.blocks⟩) G hg0 hcomps hcomps0 hpwc
    obtain ⟨n, hn⟩ := driver_terminates_aux G
      (qmeasure (processSCCs G (sccList G ⟨G.entry, G.blocks⟩)).2)
      (processSCCs G (sccList G ⟨G.entry, G.blocks⟩)).1
      (processSCCs G (sccList G ⟨G.entry, G.blocks⟩)).2
      (le_refl _) pg pgood ppw
    refine ⟨n + 1, ?_⟩
    simp only [driverSteps, List.nil_append]
    exact hn

theorem c3_driver_terminates_witness :
    (WfG twoEntryG ∧ ∀ b ∈ twoEntryG.blocks, b ∈ reachSet twoEntryG) ∧
    ((∀ scc : List Nat, FixWf twoEntryG scc →
        (∀ h ∈ hdrsOf twoEntryG scc, ∀ P ∈ predsOf twoEntryG h,
          dominatesB twoEntryG h P = true → P ∈ scc) →
        2 ≤ countExt twoEntryG scc →
        countExt (fixSCC twoEntryG scc).out (freshB twoEntryG :: scc) <
          countExt twoEntryG scc) ∧
      (∃ n, (driverSteps n twoEntryG
        [⟨twoEntryG.entry, twoEntryG.blocks⟩]).2 = [])) :=
  ⟨⟨by decide, by decide⟩, c3_driver_terminates twoEntryG (by decide) (by decide)⟩

/-!  Path semantics: evaluation of phi-merge selections along a walk. -/

/-- All phi-merge value identifiers of the function. -/
def phiPids (G : CFG) : List Nat :=
  (G.blocks.map (fun b => (G.phis b).map (fun φ => φ.pid))).flatten

def isPhiPid (G : CFG) (n : Nat) : Bool := (phiPids G).contains n

/-- Resolve a value: a reference to a phi-merge record reads that record's
last computed value from the environment; anything else denotes itself. -/
def resolve (G : CFG) (env : Nat → Val) : Val → Val
  | Val.ref n => if isPhiPid G n then env n else Val.ref n
  | v => v

/-- Environment after control transfers from `P` into `B`: every phi-merge
record of `B` selects (in parallel) its incoming value for predecessor `P`. -/
def stepEnv (G : CFG) (P B : Nat) (env : Nat → Val) : Nat → Val :=
  fun p => match (G.phis B).find? (fun φ => φ.pid == p) with
    | some φ => resolve G env (lookupVal φ.incoming P)
    | none => env p

/-- The observable phi-merge selections of a path, projected to the blocks
and phi-merge records of the observation universe `Gobs`: one entry per step
into an observed block, listing the resolved values its phis computed. -/
def runObs (Gsem Gobs : CFG) : Nat → (Nat → Val) → List Nat → List (Nat × List Val)
  | _, _, [] => []
  | x, env, y :: rest =>
      (if Gobs.blocks.contains y then
        [(y, (Gobs.phis y).map (fun φ => stepEnv Gsem x y env φ.pid))] else []) ++
        runObs Gsem Gobs y (stepEnv Gsem x y env) rest

/-- A dispatcher record: the synthetic block and its Label phi identifier. -/
structure DSpec where
  dblk : Nat
  dpid : Nat
deriving DecidableEq

/-- A path is admissible when, at every dispatcher block, the successor taken
is the switch case selected by the current Label value. -/
def admissible (G : CFG) (specs : List DSpec) : Nat → (Nat → Val) → List Nat → Prop
  | _, _, [] => True
  | x, env, y :: rest =>
      (∀ s ∈ specs, s.dblk = x →
        ∃ i, env s.dpid = Val.cst i ∧ (G.succs x)[i]? = some y) ∧
      admissible G specs y (stepEnv G x y env) rest

def valRefBound (m : Nat) : Val → Prop
  | Val.ref n => n ≤ m
  | _ => True

instance (m : Nat) (v : Val) : Decidable (valRefBound m v) :=
  match v with
  | Val.ref n => (inferInstance : Decidable (n ≤ m))
  | Val.undef => isTrue True.intro
  | Val.cst _ => isTrue True.intro

/-- Every reference occurring in a phi-merge record points at an existing
value identifier. -/
def refsBounded (G : CFG) : Prop :=
  ∀ b ∈ G.blocks, ∀ φ ∈ G.phis b, ∀ q ∈ φ.incoming, valRefBound (maxPid G) q.2

instance (G : CFG) : Decidable (refsBounded G) := by
  unfold refsBounded
  infer_instance

/-- Dispatcher records name existing blocks and value identifiers. -/
def SpecsWf (G : CFG) (specs : List DSpec) : Prop :=
  ∀ s ∈ specs, s.dblk ∈ G.blocks ∧ s.dpid ≤ maxPid G

/-- Two environments agree on all identifiers up to `m`. -/
def envAgreeTo (m : Nat) (e1 e2 : Nat → Val) : Prop :=
  ∀ p, p ≤ m → e1 p = e2 p

/-- The initial environment: nothing computed yet. -/
def env0 : Nat → Val := fun _ => Val.undef

theorem admissible_nil_specs (G : CFG) :
    ∀ (p : List Nat) (x : Nat) (env : Nat → Val), admissible G [] x env p := by
  intro p
  induction p with
  | nil => intro x env; trivial
  | cons y rest ih =>
      intro x env
      exact ⟨fun s hs => absurd hs (List.not_mem_nil s), ih y _⟩

theorem pid_le_foldr (φ : PhiNode) :
    ∀ (l : List PhiNode), φ ∈ l → φ.pid ≤ l.foldr (fun p m => max p.pid m) 0 := by
  intro l
  induction l with
  | nil => intro h; cases h
  | cons ψ rest ih =>
      intro h
      rcases List.mem_cons.mp h with h1 | h1
      · rw [h1]; exact le_max_left _ _
      · exact le_trans (ih h1) (le_max_right _ _)

theorem pid_le_maxPid (G : CFG) {b : Nat} (hb : b ∈ G.blocks) {φ : PhiNode}
    (hφ : φ ∈ G.phis b) : φ.pid ≤ maxPid G := by
  refine le_trans (pid_le_foldr φ (G.phis b) hφ) ?_
  exact mem_le_foldr_max _ _ (List.mem_map.mpr ⟨b, hb, rfl⟩)

theorem mem_phiPids (G : CFG) (n : Nat) :
    n ∈ phiPids G ↔ ∃ b ∈ G.blocks, ∃ φ ∈ G.phis b, φ.pid = n := by
  unfold phiPids
  rw [List.mem_flatten]
  constructor
  · intro ⟨l, hl, hn⟩
    obtain ⟨b, hb, hbe⟩ := List.mem_map.mp hl
    rw [← hbe] at hn
    obtain ⟨φ, hφ, hφe⟩ := List.mem_map.mp hn
    exact ⟨b, hb, φ, hφ, hφe⟩
  · intro ⟨b, hb, φ, hφ, hφe⟩
    exact ⟨(G.phis b).map (fun φ => φ.pid), List.mem_map.mpr ⟨b, hb, rfl⟩,
      List.mem_map.mpr ⟨φ, hφ, hφe⟩⟩

theorem phiPid_le_maxPid (G : CFG) {n : Nat} (h : isPhiPid G n = true) :
    n ≤ maxPid G := by
  have := (mem_phiPids G n).mp (by simpa [isPhiPid] using h)
  obtain ⟨b, hb, φ, hφ, hφe⟩ := this
  rw [← hφe]
  exact pid_le_maxPid G hb hφ

/-!  Shape of the phi-merge records after a fix, block by block. -/

theorem fwd_any_eq_false (G : CFG) (scc : List Nat) {X : Nat} (hX : X < freshB G + 2) :
    ((fwdSpecs G (hdrsOf G scc) (freshB G + 2)).any (fun t => t.1 == X)) = false := by
  rw [List.any_eq_false]
  intro t ht habs
  have := fwdSpecs_base G scc t ht
  have h2 : t.1 = X := by simpa using habs
  omega

theorem fix_phis_old_nonhdr (G : CFG) (scc : List Nat) {X : Nat}
    (hX : X ∈ G.blocks) (hnh : X ∉ hdrsOf G scc) :
    (fixSCC G scc).out.phis X = G.phis X := by
  have hXlt : X < freshB G := lt_freshB G hX
  rw [fix_phis]
  unfold newPhis
  rw [if_neg (by omega), if_neg (by omega), if_neg (by simpa using hnh),
    if_neg (by rw [fwd_any_eq_false G scc (by omega)]; simp)]

theorem fix_phis_hdr (G : CFG) (scc : List Nat) (hwf : FixWf G scc) {X : Nat}
    (hX : X ∈ hdrsOf G scc) :
    (fixSCC G scc).out.phis X =
      (G.phis X).enum.map (fun q =>
        entryPhiFor G (freshB G) (freshV G) ((hdrsOf G scc).indexOf X) q.1 X q.2) := by
  have hXlt : X < freshB G := lt_freshB G (hwf.2.2.1 _ (hdrs_subset_scc G scc hX))
  rw [fix_phis]
  unfold newPhis
  rw [if_neg (by omega), if_neg (by omega), if_pos (by simpa using hX)]

theorem fix_phis_disp (G : CFG) (scc : List Nat) :
    (fixSCC G scc).out.phis (freshB G) =
      labelPhi (fwdSpecs G (hdrsOf G scc) (freshB G + 2)) (freshV G) ::
        ((hdrsOf G scc).enum.flatMap (fun p =>
          (G.phis p.2).enum.map (fun q =>
            dispatchPhiFor (fwdSpecs G (hdrsOf G scc) (freshB G + 2))
              (freshV G) p.1 q.1 q.2))) := by
  rw [fix_phis]
  unfold newPhis
  rw [if_pos rfl]

theorem fix_phis_dflt (G : CFG) (scc : List Nat) :
    (fixSCC G scc).out.phis (freshB G + 1) = [] := by
  rw [fix_phis]
  unfold newPhis
  rw [if_neg (by omega), if_pos rfl]

theorem fix_phis_fwd (G : CFG) (scc : List Nat) (hwf : FixWf G scc) {F : Nat}
    (hF : ∃ t ∈ fwdSpecs G (hdrsOf G scc) (freshB G + 2), t.1 = F) :
    (fixSCC G scc).out.phis F = [] := by
  obtain ⟨t, ht, hte⟩ := hF
  have hge := fwdSpecs_base G scc t ht
  rw [fix_phis]
  unfold newPhis
  rw [if_neg (by omega), if_neg (by omega), if_neg ?hc, if_pos ?ha]
  case hc =>
    intro hmem
    have : F ∈ hdrsOf G scc := by simpa using hmem
    have := lt_freshB G (hwf.2.2.1 _ (hdrs_subset_scc G scc this))
    omega
  case ha =>
    exact List.any_eq_true.mpr ⟨t, ht, by simp [hte]⟩

/-- The phi identifiers of an original block are unchanged by a fix. -/
theorem fix_phis_pids_old (G : CFG) (scc : List Nat) (hwf : FixWf G scc) {X : Nat}
    (hX : X ∈ G.blocks) :
    ((fixSCC G scc).out.phis X).map (fun φ => φ.pid) =
      (G.phis X).map (fun φ => φ.pid) := by
  by_cases hh : X ∈ hdrsOf G scc
  · rw [fix_phis_hdr G scc hwf hh, List.map_map]
    have : ((fun φ => φ.pid) ∘ (fun q : Nat × PhiNode =>
        entryPhiFor G (freshB G) (freshV G) ((hdrsOf G scc).indexOf X) q.1 X q.2)) =
        (fun q : Nat × PhiNode => q.2.pid) := by
      funext q
      rfl
    rw [this]
    have h2 : (fun q : Nat × PhiNode => q.2.pid) =
        ((fun φ : PhiNode => φ.pid) ∘ Prod.snd) := rfl
    rw [h2, ← List.map_map, List.enum_map_snd]
  · rw [fix_phis_old_nonhdr G scc hX hh]

theorem foldr_max_cases :
    ∀ (l : List Nat), l.foldr max 0 = 0 ∨ l.foldr max 0 ∈ l := by
  intro l
  induction l with
  | nil => exact Or.inl rfl
  | cons a t ih =>
      rcases le_total (t.foldr max 0) a with h | h
      · right
        simp only [List.foldr_cons]
        rw [Nat.max_eq_left h]
        exact List.mem_cons_self _ _
      · rcases ih with h0 | hm
        · simp only [List.foldr_cons, h0]
          rcases Nat.eq_zero_or_pos a with ha | ha
          · left; simp [ha]
          · right; simp only [Nat.max_zero]; exact List.mem_cons_self _ _
        · right
          simp only [List.foldr_cons]
          rw [Nat.max_eq_right h]
          exact List.mem_cons_of_mem _ hm

theorem foldr_pid_cases :
    ∀ (l : List PhiNode), l.foldr (fun p m => max p.pid m) 0 = 0 ∨
      ∃ φ ∈ l, φ.pid = l.foldr (fun p m => max p.pid m) 0 := by
  intro l
  induction l with
  | nil => exact Or.inl rfl
  | cons a t ih =>
      rcases le_total (t.foldr (fun p m => max p.pid m) 0) a.pid with h | h
      · right
        refine ⟨a, List.mem_cons_self _ _, ?_⟩
        simp only [List.foldr_cons]
        rw [Nat.max_eq_left h]
      · rcases ih with h0 | ⟨φ, hφ, hφe⟩
        · simp only [List.foldr_cons, h0]
          rcases Nat.eq_zero_or_pos a.pid with ha | ha
          · left; simp [ha]
          · right
            exact ⟨a, List.mem_cons_self _ _, by simp⟩
        · right
          refine ⟨φ, List.mem_cons_of_mem _ hφ, ?_⟩
          simp only [List.foldr_cons]
          rw [Nat.max_eq_right h, hφe]

/-- The maximal phi identifier is achieved by a phi-merge record (or the
function has none). -/
theorem maxPid_cases (G : CFG) :
    maxPid G = 0 ∨ ∃ b ∈ G.blocks, ∃ φ ∈ G.phis b, φ.pid = maxPid G := by
  unfold maxPid
  rcases foldr_max_cases ((G.blocks.map (fun b =>
      (G.phis b).foldr (fun p m => max p.pid m) 0))) with h0 | hm
  · exact Or.inl h0
  · obtain ⟨b, hb, hbe⟩ := List.mem_map.mp hm
    rcases foldr_pid_cases (G.phis b) with h1 | ⟨φ, hφ, hφe⟩
    · rw [h1] at hbe
      exact Or.inl hbe.symm
    · exact Or.inr ⟨b, hb, φ, hφ, by rw [hφe, hbe]⟩

theorem mem_enum_of_mem {φ : PhiNode} {l : List PhiNode} (h : φ ∈ l) :
    ∃ j, (j, φ) ∈ l.enum := by
  obtain ⟨j, hj⟩ := List.mem_iff_getElem?.mp h
  exact ⟨j, (List.mk_mem_enum_iff_getElem?).mpr hj⟩

/-- An original phi identifier is still a phi identifier after a fix. -/
theorem isPhiPid_fix_of (G : CFG) (scc : List Nat) (hwf : FixWf G scc) {n : Nat}
    (h : isPhiPid G n = true) : isPhiPid (fixSCC G scc).out n = true := by
  simp only [isPhiPid, List.contains, List.elem_eq_mem, decide_eq_true_eq] at h ⊢
  obtain ⟨b, hb, φ, hφ, hφe⟩ := (mem_phiPids G n).mp h
  refine (mem_phiPids _ n).mpr ⟨b, fix_blocks_sub G scc b hb, ?_⟩
  by_cases hh : b ∈ hdrsOf G scc
  · obtain ⟨j, hj⟩ := mem_enum_of_mem hφ
    rw [fix_phis_hdr G scc hwf hh]
    exact ⟨entryPhiFor G (freshB G) (freshV G) ((hdrsOf G scc).indexOf b) j b φ,
      List.mem_map.mpr ⟨(j, φ), hj, rfl⟩, hφe⟩
  · rw [fix_phis_old_nonhdr G scc hb hh]
    exact ⟨φ, hφ, hφe⟩

theorem maxPid_fix_mono (G : CFG) (scc : List Nat) (hwf : FixWf G scc) :
    maxPid G ≤ maxPid (fixSCC G scc).out := by
  rcases maxPid_cases G with h0 | ⟨b, hb, φ, hφ, hφe⟩
  · omega
  · rw [← hφe]
    by_cases hh : b ∈ hdrsOf G scc
    · obtain ⟨j, hj⟩ := mem_enum_of_mem hφ
      have hm : entryPhiFor G (freshB G) (freshV G) ((hdrsOf G scc).indexOf b) j b φ ∈
          (fixSCC G scc).out.phis b := by
        rw [fix_phis_hdr G scc hwf hh]
        exact List.mem_map.mpr ⟨(j, φ), hj, rfl⟩
      have h3 : (entryPhiFor G (freshB G) (freshV G)
          ((hdrsOf G scc).indexOf b) j b φ).pid = φ.pid := rfl
      rw [← h3]
      exact pid_le_maxPid (fixSCC G scc).out (fix_blocks_sub G scc b hb) hm
    · have hm : φ ∈ (fixSCC G scc).out.phis b := by
        rw [fix_phis_old_nonhdr G scc hb hh]
        exact hφ
      exact pid_le_maxPid (fixSCC G scc).out (fix_blocks_sub G scc b hb) hm

/-- Phi identifiers up to the original maximum are unchanged by a fix. -/
theorem isPhiPid_fix (G : CFG) (scc : List Nat) (hwf : FixWf G scc) {n : Nat}
    (hn : n ≤ maxPid G) :
    isPhiPid (fixSCC G scc).out n = isPhiPid G n := by
  by_cases h : isPhiPid G n = true
  · rw [h, isPhiPid_fix_of G scc hwf h]
  · rw [Bool.not_eq_true] at h
    rw [h]
    rw [Bool.eq_false_iff]
    intro habs
    apply absurd h
    simp only [isPhiPid, List.contains, List.elem_eq_mem, decide_eq_true_eq,
      Bool.false_eq_true] at habs ⊢
    rw [Bool.not_eq_false]
    simp only [decide_eq_true_eq]
    obtain ⟨b, hb, ψ, hψ, hψe⟩ := (mem_phiPids _ n).mp habs
    rcases mem_fix_blocks_cases G scc hb with hold | hD | hU | ⟨t, ht, hte⟩
    · rw [mem_phiPids]
      by_cases hh : b ∈ hdrsOf G scc
      · rw [fix_phis_hdr G scc hwf hh] at hψ
        obtain ⟨q, hq, hqe⟩ := List.mem_map.mp hψ
        refine ⟨b, hold, q.2, ?_, ?_⟩
        · have h5 : (G.phis b)[q.1]? = some q.2 := by
            have := (List.mk_mem_enum_iff_getElem?).mp (by
              show (q.1, q.2) ∈ (G.phis b).enum
              exact hq)
            exact this
          exact List.getElem?_mem h5
        · rw [← hψe, ← hqe]
          rfl
      · rw [fix_phis_old_nonhdr G scc hold hh] at hψ
        exact ⟨b, hold, ψ, hψ, hψe⟩
    · exfalso
      rw [hD, fix_phis_disp] at hψ
      rcases List.mem_cons.mp hψ with h1 | h1
      · rw [h1] at hψe
        simp only [labelPhi] at hψe
        unfold freshV at hψe
        omega
      · obtain ⟨p, _, hp2⟩ := List.mem_flatMap.mp h1
        obtain ⟨q, _, hq2⟩ := List.mem_map.mp hp2
        rw [← hq2] at hψe
        simp only [dispatchPhiFor] at hψe
        unfold freshV at hψe
        omega
    · rw [hU, fix_phis_dflt] at hψ
      cases hψ
    · rw [← hte, fix_phis_fwd G scc hwf ⟨t, ht, rfl⟩] at hψ
      cases hψ

theorem resolve_agree (G : CFG) (scc : List Nat) (hwf : FixWf G scc) {v : Val}
    (hv : valRefBound (maxPid G) v) {e_o e_f : Nat → Val}
    (ha : envAgreeTo (maxPid G) e_o e_f) :
    resolve G e_o v = resolve (fixSCC G scc).out e_f v := by
  cases v with
  | undef => rfl
  | cst n => rfl
  | ref n =>
      have hn : n ≤ maxPid G := hv
      show (if isPhiPid G n = true then e_o n else Val.ref n) =
        (if isPhiPid (fixSCC G scc).out n = true then e_f n else Val.ref n)
      rw [isPhiPid_fix G scc hwf hn]
      by_cases h : isPhiPid G n = true
      · rw [if_pos h, if_pos h]
        exact ha n hn
      · rw [if_neg h, if_neg h]

theorem stepEnv_nophis {G : CFG} {B : Nat} (h : G.phis B = []) (P : Nat)
    (env : Nat → Val) : stepEnv G P B env = env := by
  funext p
  unfold stepEnv
  rw [h]
  rfl

/-!  Lookup helpers for the relocated phi-merge records. -/

theorem find?_filter_of_imp {α : Type} (pr keep : α → Bool)
    (himp : ∀ a, pr a = true → keep a = true) :
    ∀ (l : List α), (l.filter keep).find? pr = l.find? pr := by
  intro l
  induction l with
  | nil => rfl
  | cons a t ih =>
      by_cases hpa : pr a = true
      · rw [List.filter_cons, if_pos (himp a hpa), List.find?_cons_of_pos _ hpa,
          List.find?_cons_of_pos _ hpa]
      · rw [List.find?_cons_of_neg _ hpa, List.filter_cons]
        by_cases hk : keep a = true
        · rw [if_pos hk, List.find?_cons_of_neg _ hpa]
          exact ih
        · rw [if_neg hk]
          exact ih

theorem enumFrom_find?_snd (p : Nat) :
    ∀ (l : List PhiNode) (k : Nat),
      ((List.enumFrom k l).find? (fun q => q.2.pid == p)).map Prod.snd =
        l.find? (fun φ => φ.pid == p) := by
  intro l
  induction l with
  | nil => intro k; rfl
  | cons φ t ih =>
      intro k
      show (((k, φ) :: List.enumFrom (k + 1) t).find?
        (fun q => q.2.pid == p)).map Prod.snd = _
      by_cases h : (φ.pid == p) = true
      · rw [List.find?_cons, List.find?_cons]
        simp only [h]
        rfl
      · rw [List.find?_cons, List.find?_cons]
        rw [Bool.not_eq_true] at h
        simp only [h]
        exact ih (k + 1)

theorem find?_pid_unique {ψ0 : PhiNode} {p : Nat} :
    ∀ (l : List PhiNode), ψ0 ∈ l → ψ0.pid = p →
      (∀ ψ ∈ l, ψ.pid = p → ψ = ψ0) →
      l.find? (fun ψ => ψ.pid == p) = some ψ0 := by
  intro l
  induction l with
  | nil => intro h; cases h
  | cons a t ih =>
      intro hm hp huniq
      by_cases ha : a.pid = p
      · rw [List.find?_cons_of_pos _ (by simpa using ha)]
        rw [huniq a (List.mem_cons_self _ _) ha]
      · rw [List.find?_cons_of_neg _ (by simpa using ha)]
        refine ih ?_ hp ?_
        · rcases List.mem_cons.mp hm with h1 | h1
          · exact absurd (h1 ▸ hp) ha
          · exact h1
        · intro ψ hψ
          exact huniq ψ (List.mem_cons_of_mem _ hψ)

theorem lookupVal_cons_ne {a : Nat × Val} {l : List (Nat × Val)} {P : Nat}
    (h : a.1 ≠ P) : lookupVal (a :: l) P = lookupVal l P := by
  unfold lookupVal
  rw [List.find?_cons_of_neg _ (by simpa using h)]

theorem lookupVal_refBound (G : CFG) (hrb : refsBounded G) {b : Nat}
    (hb : b ∈ G.blocks) {φ : PhiNode} (hφ : φ ∈ G.phis b) (P : Nat) :
    valRefBound (maxPid G) (lookupVal φ.incoming P) := by
  unfold lookupVal
  cases hf : φ.incoming.find? (fun q => q.1 == P) with
  | none => trivial
  | some q => exact hrb b hb φ hφ q (List.mem_of_find?_eq_some hf)

theorem lookupVal_entry_keep (G : CFG) {D fv i j E x : Nat} {φ : PhiNode}
    (hxD : x ≠ D) (hx : (metaPreds G E).contains x = false) :
    lookupVal (entryPhiFor G D fv i j E φ).incoming x = lookupVal φ.incoming x := by
  show lookupVal ((D, Val.ref (fv + 1 + Nat.pair i j)) ::
    φ.incoming.filter (fun q => !((metaPreds G E).contains q.1))) x = _
  rw [lookupVal_cons_ne (fun h => hxD h.symm)]
  unfold lookupVal
  rw [find?_filter_of_imp _ _ ?_]
  intro q hq
  have hq1 : q.1 = x := by simpa using hq
  rw [hq1, hx]
  rfl

theorem lookupVal_entry_disp (G : CFG) {D fv i j E : Nat} {φ : PhiNode} :
    lookupVal (entryPhiFor G D fv i j E φ).incoming D =
      Val.ref (fv + 1 + Nat.pair i j) := by
  show lookupVal ((D, Val.ref (fv + 1 + Nat.pair i j)) ::
    φ.incoming.filter (fun q => !((metaPreds G E).contains q.1))) D = _
  unfold lookupVal
  rw [List.find?_cons_of_pos _ (by simp)]

theorem stepEnv_some {G : CFG} {B p : Nat} {φ : PhiNode}
    (h : (G.phis B).find? (fun ψ => ψ.pid == p) = some φ) (P : Nat) (env : Nat → Val) :
    stepEnv G P B env p = resolve G env (lookupVal φ.incoming P) := by
  unfold stepEnv
  rw [h]

theorem stepEnv_none {G : CFG} {B p : Nat}
    (h : (G.phis B).find? (fun ψ => ψ.pid == p) = none) (P : Nat) (env : Nat → Val) :
    stepEnv G P B env p = env p := by
  unfold stepEnv
  rw [h]

theorem resolve_ref_phi {G : CFG} {n : Nat} (h : isPhiPid G n = true) (env : Nat → Val) :
    resolve G env (Val.ref n) = env n := by
  show (if isPhiPid G n = true then env n else Val.ref n) = env n
  rw [if_pos h]

/-- Stepping through two environments that agree up to the original maximum
produces agreeing environments when the entered block's phi-merge records are
unchanged by the fix. -/
theorem stepEnv_agree_same_phis (G : CFG) (scc : List Nat) (hwf : FixWf G scc)
    (hrb : refsBounded G) {x y : Nat} (hy : y ∈ G.blocks)
    (hphis : (fixSCC G scc).out.phis y = G.phis y)
    {e_o e_f : Nat → Val} (ha : envAgreeTo (maxPid G) e_o e_f) :
    envAgreeTo (maxPid G) (stepEnv G x y e_o) (stepEnv (fixSCC G scc).out x y e_f) := by
  intro p hp
  cases hf : (G.phis y).find? (fun φ => φ.pid == p) with
  | none =>
      rw [stepEnv_none hf, stepEnv_none (by rw [hphis]; exact hf)]
      exact ha p hp
  | some φ =>
      rw [stepEnv_some hf, stepEnv_some (by rw [hphis]; exact hf)]
      exact resolve_agree G scc hwf
        (lookupVal_refBound G hrb hy (List.mem_of_find?_eq_some hf) x) ha

/-- Entering the Dispatcher changes only fresh value identifiers. -/
theorem stepEnv_disp_untouched (G : CFG) (scc : List Nat) (P : Nat) (env : Nat → Val) :
    ∀ p ≤ maxPid G, stepEnv (fixSCC G scc).out P (freshB G) env p = env p := by
  intro p hp
  refine stepEnv_none ?_ P env
  rw [List.find?_eq_none]
  intro ψ hψ
  rw [fix_phis_disp] at hψ
  simp only [beq_eq_false_iff_ne, ne_eq, Bool.not_eq_true]
  rcases List.mem_cons.mp hψ with h1 | h1
  · rw [h1]
    show ¬(freshV G = p)
    unfold freshV
    omega
  · obtain ⟨pp, _, hin⟩ := List.mem_flatMap.mp h1
    obtain ⟨qq, _, hqe⟩ := List.mem_map.mp hin
    rw [← hqe]
    show ¬(freshV G + 1 + Nat.pair pp.1 qq.1 = p)
    unfold freshV
    omega

/-- Entering the Dispatcher from a forwarding block sets the Label to that
forwarding block's MetaBlock index. -/
theorem stepEnv_disp_label (G : CFG) (scc : List Nat) {t : Nat × Nat × Nat}
    (ht : t ∈ fwdSpecs G (hdrsOf G scc) (freshB G + 2)) (env : Nat → Val) :
    stepEnv (fixSCC G scc).out t.1 (freshB G) env (freshV G) = Val.cst t.2.2 := by
  have hfind : ((fixSCC G scc).out.phis (freshB G)).find?
      (fun ψ => ψ.pid == freshV G) =
      some (labelPhi (fwdSpecs G (hdrsOf G scc) (freshB G + 2)) (freshV G)) := by
    rw [fix_phis_disp, List.find?_cons]
    have : ((labelPhi (fwdSpecs G (hdrsOf G scc) (freshB G + 2)) (freshV G)).pid ==
        freshV G) = true := by simp [labelPhi]
    simp only [this]
  rw [stepEnv_some hfind]
  have hlook : lookupVal (labelPhi (fwdSpecs G (hdrsOf G scc) (freshB G + 2))
      (freshV G)).incoming t.1 = Val.cst t.2.2 := by
    show lookupVal ((fwdSpecs G (hdrsOf G scc) (freshB G + 2)).map
      (fun u => (u.1, Val.cst u.2.2))) t.1 = Val.cst t.2.2
    exact lookupVal_map_specs (fun u => Val.cst u.2.2) _ t
      (fun u hu u2 hu2 => fwdSpecsAux_id_inj hu hu2) ht
  rw [hlook]
  rfl

/-- The dispatch phi for the `j`-th phi of the `iE`-th MetaBlock is the unique
phi of that identifier in the Dispatcher's list. -/
theorem dispatch_find? (G : CFG) (scc : List Nat) {iE j : Nat} {E : Nat} {φ : PhiNode}
    (hE : (hdrsOf G scc)[iE]? = some E) (hφ : (G.phis E)[j]? = some φ) :
    ((hdrsOf G scc).enum.flatMap (fun p =>
      (G.phis p.2).enum.map (fun q =>
        dispatchPhiFor (fwdSpecs G (hdrsOf G scc) (freshB G + 2))
          (freshV G) p.1 q.1 q.2))).find?
      (fun ψ => ψ.pid == freshV G + 1 + Nat.pair iE j) =
    some (dispatchPhiFor (fwdSpecs G (hdrsOf G scc) (freshB G + 2)) (freshV G) iE j φ) := by
  apply find?_pid_unique
  · exact List.mem_flatMap.mpr ⟨(iE, E), (List.mk_mem_enum_iff_getElem?).mpr hE,
      List.mem_map.mpr ⟨(j, φ), (List.mk_mem_enum_iff_getElem?).mpr hφ, rfl⟩⟩
  · rfl
  · intro ψ hψ hpid
    obtain ⟨pp, hpp, hin⟩ := List.mem_flatMap.mp hψ
    obtain ⟨p1, p2⟩ := pp
    obtain ⟨qq, hqq, hqe⟩ := List.mem_map.mp hin
    obtain ⟨q1, q2⟩ := qq
    rw [← hqe] at hpid ⊢
    have hpair : Nat.pair p1 q1 = Nat.pair iE j := by
      have hpp : (dispatchPhiFor (fwdSpecs G (hdrsOf G scc) (freshB G + 2))
          (freshV G) p1 q1 q2).pid = freshV G + 1 + Nat.pair p1 q1 := rfl
      rw [hpp] at hpid
      omega
    obtain ⟨h1, h2⟩ := Nat.pair_eq_pair.mp hpair
    have hppE : p2 = E := by
      have hg := (List.mk_mem_enum_iff_getElem?).mp hpp
      rw [h1, hE] at hg
      exact (Option.some.inj hg).symm
    have hqqφ : q2 = φ := by
      have hg := (List.mk_mem_enum_iff_getElem?).mp hqq
      rw [hppE, h2, hφ] at hg
      exact (Option.some.inj hg).symm
    rw [h1, h2, hqqφ]

/-- Entering a header along a kept (non-rerouted) edge computes the same
phi-merge values as before the fix. -/
theorem stepEnv_agree_entry_direct (G : CFG) (scc : List Nat) (hwf : FixWf G scc)
    (hrb : refsBounded G) {x E : Nat} (hE : E ∈ hdrsOf G scc)
    (hxD : x ≠ freshB G) (hxm : (metaPreds G E).contains x = false)
    {e_o e_f : Nat → Val} (ha : envAgreeTo (maxPid G) e_o e_f) :
    envAgreeTo (maxPid G) (stepEnv G x E e_o) (stepEnv (fixSCC G scc).out x E e_f) := by
  have hEblk : E ∈ G.blocks := hwf.2.2.1 _ (hdrs_subset_scc G scc hE)
  have hgfun : ((fun ψ : PhiNode => ψ.pid == freshV G + 0) = (fun ψ => ψ.pid == freshV G)) := by
    norm_num
  intro p hp
  have hconv : ((fixSCC G scc).out.phis E).find? (fun ψ => ψ.pid == p) =
      (((G.phis E).enum).find? (fun q => q.2.pid == p)).map
        (fun q => entryPhiFor G (freshB G) (freshV G)
          ((hdrsOf G scc).indexOf E) q.1 E q.2) := by
    rw [fix_phis_hdr G scc hwf hE, List.find?_map]
    rfl
  cases henum : ((G.phis E).enum).find? (fun q => q.2.pid == p) with
  | none =>
      have horig : (G.phis E).find? (fun φ => φ.pid == p) = none := by
        have := enumFrom_find?_snd p (G.phis E) 0
        rw [show (G.phis E).enum = (G.phis E).enumFrom 0 from rfl] at henum
        rw [henum] at this
        exact this.symm
      rw [stepEnv_none horig, stepEnv_none (by rw [hconv, henum]; rfl)]
      exact ha p hp
  | some q =>
      obtain ⟨j, φ⟩ := q
      have horig : (G.phis E).find? (fun φ => φ.pid == p) = some φ := by
        have := enumFrom_find?_snd p (G.phis E) 0
        rw [show (G.phis E).enum = (G.phis E).enumFrom 0 from rfl] at henum
        rw [henum] at this
        exact this.symm
      have hφm : φ ∈ G.phis E := List.mem_of_find?_eq_some horig
      rw [stepEnv_some horig, stepEnv_some (by rw [hconv, henum]; rfl)]
      rw [lookupVal_entry_keep G hxD hxm]
      exact resolve_agree G scc hwf (lookupVal_refBound G hrb hEblk hφm x) ha

/-- Entering a header through its forwarding block and the Dispatcher computes
the same phi-merge values as entering it directly from the rerouted
predecessor in the original graph. -/
theorem stepEnv_agree_entry_disp (G : CFG) (scc : List Nat) (hwf : FixWf G scc)
    (hrb : refsBounded G) {t : Nat × Nat × Nat}
    (ht : t ∈ fwdSpecs G (hdrsOf G scc) (freshB G + 2))
    {E : Nat} (hE : (hdrsOf G scc)[t.2.2]? = some E)
    {e_o e_f : Nat → Val} (ha : envAgreeTo (maxPid G) e_o e_f) :
    envAgreeTo (maxPid G) (stepEnv G t.2.1 E e_o)
      (stepEnv (fixSCC G scc).out (freshB G) E
        (stepEnv (fixSCC G scc).out t.1 (freshB G) e_f)) := by
  have hEmem : E ∈ hdrsOf G scc := List.getElem?_mem hE
  have hEblk : E ∈ G.blocks := hwf.2.2.1 _ (hdrs_subset_scc G scc hEmem)
  have hhnd : (hdrsOf G scc).Nodup := hwf.2.1.filter _
  obtain ⟨hilt, hiE⟩ := List.getElem?_eq_some.mp hE
  have hidx : (hdrsOf G scc).indexOf E = t.2.2 := by
    rw [← hiE]
    exact List.indexOf_getElem hhnd t.2.2 hilt
  have hDenv := stepEnv_disp_untouched G scc t.1 e_f
  intro p hp
  have hconv : ((fixSCC G scc).out.phis E).find? (fun ψ => ψ.pid == p) =
      (((G.phis E).enum).find? (fun q => q.2.pid == p)).map
        (fun q => entryPhiFor G (freshB G) (freshV G)
          ((hdrsOf G scc).indexOf E) q.1 E q.2) := by
    rw [fix_phis_hdr G scc hwf hEmem, List.find?_map]
    rfl
  cases henum : ((G.phis E).enum).find? (fun q => q.2.pid == p) with
  | none =>
      have horig : (G.phis E).find? (fun φ => φ.pid == p) = none := by
        have := enumFrom_find?_snd p (G.phis E) 0
        rw [show (G.phis E).enum = (G.phis E).enumFrom 0 from rfl] at henum
        rw [henum] at this
        exact this.symm
      rw [stepEnv_none horig, stepEnv_none (by rw [hconv, henum]; rfl)]
      rw [hDenv p hp]
      exact ha p hp
  | some q =>
      obtain ⟨j, φ⟩ := q
      have horig : (G.phis E).find? (fun φ => φ.pid == p) = some φ := by
        have := enumFrom_find?_snd p (G.phis E) 0
        rw [show (G.phis E).enum = (G.phis E).enumFrom 0 from rfl] at henum
        rw [henum] at this
        exact this.symm
      have hφm : φ ∈ G.phis E := List.mem_of_find?_eq_some horig
      have hφj : (G.phis E)[j]? = some φ := by
        have := (List.mk_mem_enum_iff_getElem?).mp
          (List.mem_of_find?_eq_some henum)
        exact this
      rw [stepEnv_some horig, stepEnv_some (by rw [hconv, henum]; rfl)]
      rw [lookupVal_entry_disp]
      -- the reference resolves to the dispatch phi's freshly computed value
      have hdpid : isPhiPid (fixSCC G scc).out
          (freshV G + 1 + Nat.pair ((hdrsOf G scc).indexOf E) j) = true := by
        simp only [isPhiPid, List.contains, List.elem_eq_mem, decide_eq_true_eq]
        refine (mem_phiPids _ _).mpr ⟨freshB G, ?_, ?_⟩
        · rw [fix_blocks]
          exact List.mem_append_right _ (List.mem_cons_self _ _)
        · rw [fix_phis_disp]
          refine ⟨dispatchPhiFor (fwdSpecs G (hdrsOf G scc) (freshB G + 2))
            (freshV G) ((hdrsOf G scc).indexOf E) j φ, ?_, rfl⟩
          refine List.mem_cons_of_mem _ (List.mem_flatMap.mpr
            ⟨((hdrsOf G scc).indexOf E, E), ?_, ?_⟩)
          · refine (List.mk_mem_enum_iff_getElem?).mpr ?_
            rw [hidx]
            exact hE
          · exact List.mem_map.mpr ⟨(j, φ), (List.mk_mem_enum_iff_getElem?).mpr hφj, rfl⟩
      rw [resolve_ref_phi hdpid]
      -- read the dispatch phi's value computed on entering the Dispatcher
      have hdfind : ((fixSCC G scc).out.phis (freshB G)).find?
          (fun ψ => ψ.pid == freshV G + 1 + Nat.pair ((hdrsOf G scc).indexOf E) j) =
          some (dispatchPhiFor (fwdSpecs G (hdrsOf G scc) (freshB G + 2))
            (freshV G) ((hdrsOf G scc).indexOf E) j φ) := by
        rw [fix_phis_disp, List.find?_cons]
        have hlne : ((labelPhi (fwdSpecs G (hdrsOf G scc) (freshB G + 2))
            (freshV G)).pid == freshV G + 1 +
              Nat.pair ((hdrsOf G scc).indexOf E) j) = false := by
          show ((freshV G : Nat) == freshV G + 1 + Nat.pair ((hdrsOf G scc).indexOf E) j) = false
          rw [beq_eq_false_iff_ne]
          omega
        simp only [hlne]
        refine dispatch_find? G scc ?_ hφj
        rw [hidx]
        exact hE
      rw [stepEnv_some hdfind]
      have hlook : lookupVal (dispatchPhiFor (fwdSpecs G (hdrsOf G scc) (freshB G + 2))
          (freshV G) ((hdrsOf G scc).indexOf E) j φ).incoming t.1 =
          lookupVal φ.incoming t.2.1 := by
        have hmap := lookupVal_map_specs (fun u => if u.2.2 = (hdrsOf G scc).indexOf E then
            lookupVal φ.incoming u.2.1 else Val.undef)
          (fwdSpecs G (hdrsOf G scc) (freshB G + 2)) t
          (fun u hu u2 hu2 => fwdSpecsAux_id_inj hu hu2) ht
        refine hmap.trans ?_
        show (if t.2.2 = List.indexOf E (hdrsOf G scc) then
          lookupVal φ.incoming t.2.1 else Val.undef) = lookupVal φ.incoming t.2.1
        rw [if_pos hidx.symm]
      rw [hlook]
      exact resolve_agree G scc hwf (lookupVal_refBound G hrb hEblk hφm t.2.1) ha

/-- Forward simulation of one fix: every original walk (admissible for the
already-created dispatchers) transports to an admissible walk of the
rewritten graph with the same endpoint and the same observable phi-merge
selections. -/
theorem fix_forward_sim (G : CFG) (scc : List Nat) (Gobs : CFG) (specs : List DSpec)
    (hwf : FixWf G scc) (hrb : refsBounded G) (hsw : SpecsWf G specs)
    (hobs1 : ∀ b ∈ Gobs.blocks, b ∈ G.blocks)
    (hobs2 : ∀ b ∈ Gobs.blocks, ∀ φ ∈ Gobs.phis b, φ.pid ≤ maxPid G) :
    ∀ {x z : Nat} {p : List Nat}, Walk G.succs (blocksKeep G) x p z →
      x ∈ G.blocks →
      ∀ (e_o e_f : Nat → Val), envAgreeTo (maxPid G) e_o e_f →
      admissible G specs x e_o p →
      ∃ q, Walk (fixSCC G scc).out.succs (blocksKeep (fixSCC G scc).out) x q z ∧
        admissible (fixSCC G scc).out (specs ++ [⟨freshB G, freshV G⟩]) x e_f q ∧
        runObs (fixSCC G scc).out Gobs x e_f q = runObs G Gobs x e_o p := by
  have hwf' := hwf
  obtain ⟨hnd, hsnd, hsub, hcl, hphi⟩ := hwf'
  have hbase := fwdSpecs_base G scc
  have hkeep : ∀ b ∈ (fixSCC G scc).out.blocks,
      blocksKeep (fixSCC G scc).out b = true := by
    intro b hb
    simp only [blocksKeep]
    simpa using hb
  intro x z p w
  induction w with
  | refl =>
      intro _ e_o e_f _ _
      exact ⟨[], Walk.refl _, trivial, rfl⟩
  | @step x0 y0 z0 p0 he hk w' ih =>
      intro hx0 e_o e_f ha hadm
      obtain ⟨hcx, hadm'⟩ := hadm
      have hy0 : y0 ∈ G.blocks := by simpa [blocksKeep] using hk
      have hx0lt : x0 < freshB G := lt_freshB G hx0
      have hy0lt : y0 < freshB G := lt_freshB G hy0
      have hsuccs : (fixSCC G scc).out.succs x0 = (G.succs x0).map
          (fun s => redirectSlot (fwdSpecs G (hdrsOf G scc) (freshB G + 2))
            (hdrsOf G scc) x0 s) := by
        rw [fix_succs]
        exact newSuccs_old G _ _ _ x0 hbase hx0lt
      rcases redirectSlot_cases (fwdSpecs G (hdrsOf G scc) (freshB G + 2))
          (hdrsOf G scc) x0 y0 with hc | ⟨t, ht, he2, ht1, ht2⟩
      · -- slot kept: direct step
        have hedge : y0 ∈ (fixSCC G scc).out.succs x0 := by
          rw [hsuccs]
          exact List.mem_map.mpr ⟨y0, he, hc⟩
        have hstep : envAgreeTo (maxPid G) (stepEnv G x0 y0 e_o)
            (stepEnv (fixSCC G scc).out x0 y0 e_f) := by
          by_cases hh : y0 ∈ hdrsOf G scc
          · -- direct edge into a header: the predecessor was not rerouted
            have hnm : x0 ∉ metaPreds G y0 := by
              intro hm
              obtain ⟨iy, hiy⟩ := List.mem_iff_getElem?.mp hh
              obtain ⟨f, hf⟩ := fwdSpecsAux_complete (freshB G + 2) 0 iy
                (hdrsOf G scc) hiy hm
              rw [Nat.zero_add] at hf
              obtain ⟨t', ht', heq, _, _⟩ := redirectSlot_of_match
                (fwdSpecs G (hdrsOf G scc) (freshB G + 2)) (hdrsOf G scc) x0 y0
                (f, x0, iy) hf rfl hiy
              rw [hc] at heq
              have := hbase t' ht'
              omega
            refine stepEnv_agree_entry_direct G scc hwf hrb hh (by omega) ?_ ha
            simpa using hnm
          · exact stepEnv_agree_same_phis G scc hwf hrb hy0
              (fix_phis_old_nonhdr G scc hy0 hh) ha
        obtain ⟨q, hq, hqadm, hqobs⟩ := ih hy0 (stepEnv G x0 y0 e_o)
          (stepEnv (fixSCC G scc).out x0 y0 e_f) hstep hadm'
        refine ⟨y0 :: q, Walk.step hedge (hkeep y0 (fix_blocks_sub G scc y0 hy0)) hq,
          ⟨?_, hqadm⟩, ?_⟩
        · intro s hs hsx
          rcases List.mem_append.mp hs with h1 | h1
          · obtain ⟨i, hi1, hi2⟩ := hcx s h1 hsx
            refine ⟨i, ?_, ?_⟩
            · rw [← ha s.dpid (hsw s h1).2]
              exact hi1
            · rw [hsuccs, List.getElem?_map, hi2]
              show some (redirectSlot (fwdSpecs G (hdrsOf G scc) (freshB G + 2))
                (hdrsOf G scc) x0 y0) = some y0
              rw [hc]
          · exfalso
            have hse : s = ⟨freshB G, freshV G⟩ := by simpa using h1
            rw [hse] at hsx
            simp only at hsx
            omega
        · simp only [runObs]
          refine congrArg₂ (· ++ ·) ?_ hqobs
          by_cases hyo : Gobs.blocks.contains y0 = true
          · rw [if_pos hyo, if_pos hyo]
            have hym : y0 ∈ Gobs.blocks := by simpa using hyo
            have hv : (Gobs.phis y0).map
                (fun φ => stepEnv (fixSCC G scc).out x0 y0 e_f φ.pid) =
                (Gobs.phis y0).map (fun φ => stepEnv G x0 y0 e_o φ.pid) :=
              List.map_congr_left (fun φ hφ => (hstep φ.pid (hobs2 y0 hym φ hφ)).symm)
            rw [hv]
          · rw [if_neg hyo, if_neg hyo]
      · -- rerouted slot: step through the forwarding block and the Dispatcher
        have hF := hbase t ht
        have hedge1 : t.1 ∈ (fixSCC G scc).out.succs x0 := by
          rw [hsuccs]
          exact List.mem_map.mpr ⟨y0, he, he2⟩
        have hFsuccs : (fixSCC G scc).out.succs t.1 = [freshB G] := by
          rw [fix_succs]
          exact newSuccs_fwd G _ _ _ t.1 hbase ⟨t, ht, rfl⟩
        have hDsuccs : (fixSCC G scc).out.succs (freshB G) =
            hdrsOf G scc ++ [freshB G + 1] := by
          rw [fix_succs]
          exact newSuccs_disp G _ _ _
        obtain ⟨hislt, _⟩ := List.getElem?_eq_some.mp ht2
        have hFblk : t.1 ∈ (fixSCC G scc).out.blocks := by
          rw [fix_blocks]
          exact List.mem_append_right _ (List.mem_cons_of_mem _
            (List.mem_cons_of_mem _ (List.mem_map.mpr ⟨t, ht, rfl⟩)))
        have hDblk : freshB G ∈ (fixSCC G scc).out.blocks := by
          rw [fix_blocks]
          exact List.mem_append_right _ (List.mem_cons_self _ _)
        have hFphis : (fixSCC G scc).out.phis t.1 = [] :=
          fix_phis_fwd G scc hwf ⟨t, ht, rfl⟩
        have hFenv : stepEnv (fixSCC G scc).out x0 t.1 e_f = e_f :=
          stepEnv_nophis hFphis x0 e_f
        have hstep : envAgreeTo (maxPid G) (stepEnv G x0 y0 e_o)
            (stepEnv (fixSCC G scc).out (freshB G) y0
              (stepEnv (fixSCC G scc).out t.1 (freshB G) e_f)) := by
          have := stepEnv_agree_entry_disp G scc hwf hrb ht ht2 ha
          rw [ht1] at this
          exact this
        obtain ⟨q, hq, hqadm, hqobs⟩ := ih hy0 (stepEnv G x0 y0 e_o)
          (stepEnv (fixSCC G scc).out (freshB G) y0
            (stepEnv (fixSCC G scc).out t.1 (freshB G) e_f)) hstep hadm'
        have hDedge : y0 ∈ (fixSCC G scc).out.succs (freshB G) := by
          rw [hDsuccs]
          exact List.mem_append_left _ (List.getElem?_mem ht2)
        refine ⟨t.1 :: freshB G :: y0 :: q,
          Walk.step hedge1 (hkeep _ hFblk) (Walk.step (by
            rw [hFsuccs]; exact List.mem_cons_self _ _) (hkeep _ hDblk)
            (Walk.step hDedge (hkeep y0 (fix_blocks_sub G scc y0 hy0)) hq)),
          ⟨?_, ?_, ?_, ?_⟩, ?_⟩
        · -- constraints at the rerouted predecessor
          intro s hs hsx
          rcases List.mem_append.mp hs with h1 | h1
          · obtain ⟨i, hi1, hi2⟩ := hcx s h1 hsx
            refine ⟨i, ?_, ?_⟩
            · rw [← ha s.dpid (hsw s h1).2]
              exact hi1
            · rw [hsuccs, List.getElem?_map, hi2]
              show some (redirectSlot (fwdSpecs G (hdrsOf G scc) (freshB G + 2))
                (hdrsOf G scc) x0 y0) = some t.1
              rw [he2]
          · exfalso
            have hse : s = ⟨freshB G, freshV G⟩ := by simpa using h1
            rw [hse] at hsx
            simp only at hsx
            omega
        · -- no constraints at the forwarding block
          intro s hs hsx
          exfalso
          rcases List.mem_append.mp hs with h1 | h1
          · have := lt_freshB G (hsw s h1).1
            omega
          · have hse : s = ⟨freshB G, freshV G⟩ := by simpa using h1
            rw [hse] at hsx
            simp only at hsx
            omega
        · -- at the Dispatcher the Label selects the recorded case
          intro s hs hsx
          rcases List.mem_append.mp hs with h1 | h1
          · exfalso
            have := lt_freshB G (hsw s h1).1
            omega
          · have hse : s = ⟨freshB G, freshV G⟩ := by simpa using h1
            refine ⟨t.2.2, ?_, ?_⟩
            · rw [hse]
              simp only
              rw [hFenv]
              exact stepEnv_disp_label G scc ht e_f
            · rw [hDsuccs, List.getElem?_append, if_pos hislt]
              exact ht2
        · rw [hFenv]
          exact hqadm
        · -- the inserted blocks are invisible to the observation universe
          have hcF : ¬(Gobs.blocks.contains t.1 = true) := by
            intro habs
            have : t.1 ∈ G.blocks := hobs1 t.1 (by simpa using habs)
            have := lt_freshB G this
            omega
          have hcD : ¬(Gobs.blocks.contains (freshB G) = true) := by
            intro habs
            have : freshB G ∈ G.blocks := hobs1 _ (by simpa using habs)
            have := lt_freshB G this
            omega
          simp only [runObs]
          rw [if_neg hcF, if_neg hcD, hFenv]
          rw [List.nil_append, List.nil_append]
          refine congrArg₂ (· ++ ·) ?_ hqobs
          by_cases hyo : Gobs.blocks.contains y0 = true
          · rw [if_pos hyo, if_pos hyo]
            have hym : y0 ∈ Gobs.blocks := by simpa using hyo
            have hv : (Gobs.phis y0).map
                (fun φ => stepEnv (fixSCC G scc).out (freshB G) y0
                  (stepEnv (fixSCC G scc).out t.1 (freshB G) e_f) φ.pid) =
                (Gobs.phis y0).map (fun φ => stepEnv G x0 y0 e_o φ.pid) :=
              List.map_congr_left (fun φ hφ => (hstep φ.pid (hobs2 y0 hym φ hφ)).symm)
            rw [hv]
          · rw [if_neg hyo, if_neg hyo]

/-- Backward simulation of one fix: every admissible walk of the rewritten
graph projects to an original walk with the same observable phi-merge
selections — the Dispatcher reroutes existing paths but adds no new
observable behavior. -/
theorem fix_backward_sim (G : CFG) (scc : List Nat) (Gobs : CFG) (specs : List DSpec)
    (hwf : FixWf G scc) (hrb : refsBounded G) (hsw : SpecsWf G specs)
    (hobs1 : ∀ b ∈ Gobs.blocks, b ∈ G.blocks)
    (hobs2 : ∀ b ∈ Gobs.blocks, ∀ φ ∈ Gobs.phis b, φ.pid ≤ maxPid G) :
    ∀ (n : Nat) {x z : Nat} {q : List Nat}, q.length ≤ n →
      Walk (fixSCC G scc).out.succs (blocksKeep (fixSCC G scc).out) x q z →
      x ∈ G.blocks →
      ∀ (e_o e_f : Nat → Val), envAgreeTo (maxPid G) e_o e_f →
      admissible (fixSCC G scc).out (specs ++ [⟨freshB G, freshV G⟩]) x e_f q →
      ∃ p z0, Walk G.succs (blocksKeep G) x p z0 ∧
        admissible G specs x e_o p ∧
        runObs G Gobs x e_o p = runObs (fixSCC G scc).out Gobs x e_f q := by
  have hwf' := hwf
  obtain ⟨hnd, hsnd, hsub, hcl, hphi⟩ := hwf'
  have hbase := fwdSpecs_base G scc
  have hGobs_lt : ∀ b ∈ Gobs.blocks, b < freshB G :=
    fun b hb => lt_freshB G (hobs1 b hb)
  intro n
  induction n with
  | zero =>
      intro x z q hlen w _ e_o e_f _ _
      have hq : q = [] := List.length_eq_zero.mp (Nat.le_zero.mp hlen)
      subst hq
      exact ⟨[], x, Walk.refl _, trivial, rfl⟩
  | succ n ih =>
      intro x z q hlen w hx e_o e_f ha hadm
      cases w with
      | refl => exact ⟨[], x, Walk.refl _, trivial, rfl⟩
      | @step _ y0 _ rest he hk w' =>
          obtain ⟨hcx, hadm'⟩ := hadm
          have hxlt : x < freshB G := lt_freshB G hx
          have hsuccs : (fixSCC G scc).out.succs x = (G.succs x).map
              (fun s => redirectSlot (fwdSpecs G (hdrsOf G scc) (freshB G + 2))
                (hdrsOf G scc) x s) := by
            rw [fix_succs]
            exact newSuccs_old G _ _ _ x hbase hxlt
          rw [hsuccs] at he
          obtain ⟨s, hs, hsred⟩ := List.mem_map.mp he
          have hsblk : s ∈ G.blocks := hcl x hx s hs
          have hslt : s < freshB G := lt_freshB G hsblk
          rcases redirectSlot_cases (fwdSpecs G (hdrsOf G scc) (freshB G + 2))
              (hdrsOf G scc) x s with hcase | ⟨t, ht, he2, ht1, ht2⟩
          · -- kept slot: the step existed in the original graph
            have hy0s : y0 = s := by rw [← hsred, hcase]
            subst hy0s
            have hstep : envAgreeTo (maxPid G) (stepEnv G x y0 e_o)
                (stepEnv (fixSCC G scc).out x y0 e_f) := by
              by_cases hh : y0 ∈ hdrsOf G scc
              · have hnm : x ∉ metaPreds G y0 := by
                  intro hm
                  obtain ⟨iy, hiy⟩ := List.mem_iff_getElem?.mp hh
                  obtain ⟨f, hf⟩ := fwdSpecsAux_complete (freshB G + 2) 0 iy
                    (hdrsOf G scc) hiy hm
                  rw [Nat.zero_add] at hf
                  obtain ⟨t', ht', heq, _, _⟩ := redirectSlot_of_match
                    (fwdSpecs G (hdrsOf G scc) (freshB G + 2)) (hdrsOf G scc) x y0
                    (f, x, iy) hf rfl hiy
                  rw [hcase] at heq
                  have := hbase t' ht'
                  omega
                refine stepEnv_agree_entry_direct G scc hwf hrb hh (by omega) ?_ ha
                simpa using hnm
              · exact stepEnv_agree_same_phis G scc hwf hrb hsblk
                  (fix_phis_old_nonhdr G scc hsblk hh) ha
            obtain ⟨p, z0, hp, hpadm, hpobs⟩ := ih (by
                simpa using Nat.le_of_succ_le_succ (by simpa using hlen)) w' hsblk
              (stepEnv G x y0 e_o) (stepEnv (fixSCC G scc).out x y0 e_f) hstep hadm'
            refine ⟨y0 :: p, z0, Walk.step hs (by
                simp only [blocksKeep]; simpa using hsblk) hp, ⟨?_, hpadm⟩, ?_⟩
            · intro s' hs' hsx
              obtain ⟨i, hi1, hi2⟩ := hcx s' (List.mem_append_left _ hs') hsx
              refine ⟨i, ?_, ?_⟩
              · rw [ha s'.dpid (hsw s' hs').2]
                exact hi1
              · rw [hsuccs, List.getElem?_map] at hi2
                cases hgi : (G.succs x)[i]? with
                | none => rw [hgi] at hi2; cases hi2
                | some s2 =>
                    rw [hgi] at hi2
                    have hred2 : redirectSlot (fwdSpecs G (hdrsOf G scc) (freshB G + 2))
                        (hdrsOf G scc) x s2 = y0 := by
                      have : some (redirectSlot (fwdSpecs G (hdrsOf G scc) (freshB G + 2))
                          (hdrsOf G scc) x s2) = some y0 := hi2
                      exact Option.some.inj this
                    have hs2blk : s2 ∈ G.blocks := hcl x hx s2 (List.getElem?_mem hgi)
                    rcases redirectSlot_cases (fwdSpecs G (hdrsOf G scc) (freshB G + 2))
                        (hdrsOf G scc) x s2 with hc2 | ⟨t2, ht2', he22, _, _⟩
                    · rw [hc2] at hred2
                      rw [hred2]
                    · exfalso
                      rw [he22] at hred2
                      have := hbase t2 ht2'
                      have := lt_freshB G hsblk
                      omega
            · simp only [runObs]
              refine congrArg₂ (· ++ ·) ?_ hpobs
              by_cases hyo : Gobs.blocks.contains y0 = true
              · rw [if_pos hyo, if_pos hyo]
                have hym : y0 ∈ Gobs.blocks := by simpa using hyo
                have hv : (Gobs.phis y0).map (fun φ => stepEnv G x y0 e_o φ.pid) =
                    (Gobs.phis y0).map
                      (fun φ => stepEnv (fixSCC G scc).out x y0 e_f φ.pid) :=
                  List.map_congr_left (fun φ hφ => hstep φ.pid (hobs2 y0 hym φ hφ))
                rw [hv]
              · rw [if_neg hyo, if_neg hyo]
          · -- rerouted slot: the walk enters a forwarding block
            have hy0F : y0 = t.1 := by rw [← hsred, he2]
            subst hy0F
            have hF := hbase t ht
            have hcF : ¬(Gobs.blocks.contains t.1 = true) := by
              intro habs
              have := hGobs_lt t.1 (by simpa using habs)
              omega
            have hcD : ¬(Gobs.blocks.contains (freshB G) = true) := by
              intro habs
              have := hGobs_lt _ (by simpa using habs)
              omega
            have hFsuccs : (fixSCC G scc).out.succs t.1 = [freshB G] := by
              rw [fix_succs]
              exact newSuccs_fwd G _ _ _ t.1 hbase ⟨t, ht, rfl⟩
            have hFphis : (fixSCC G scc).out.phis t.1 = [] :=
              fix_phis_fwd G scc hwf ⟨t, ht, rfl⟩
            have hFenv : stepEnv (fixSCC G scc).out x t.1 e_f = e_f :=
              stepEnv_nophis hFphis x e_f
            cases w' with
            | refl =>
                refine ⟨[], x, Walk.refl _, trivial, ?_⟩
                show ([] : List (Nat × List Val)) =
                  runObs (fixSCC G scc).out Gobs x e_f [t.1]
                simp only [runObs]
                rw [if_neg hcF]
                rfl
            | @step _ y2 _ rest2 he2' hk2 w'' =>
                rw [hFsuccs] at he2'
                have hy2D : y2 = freshB G := by simpa using he2'
                subst hy2D
                obtain ⟨hcF2, hadm2⟩ := hadm'
                cases w'' with
                | refl =>
                    refine ⟨[], x, Walk.refl _, trivial, ?_⟩
                    show ([] : List (Nat × List Val)) =
                      runObs (fixSCC G scc).out Gobs x e_f [t.1, freshB G]
                    simp only [runObs]
                    rw [if_neg hcF, if_neg hcD]
                    rfl
                | @step _ y3 _ rest3 he3 hk3 w''' =>
                    obtain ⟨hcD2, hadm3⟩ := hadm2
                    -- the Label forces the Dispatcher's taken case
                    have hlabel : stepEnv (fixSCC G scc).out t.1 (freshB G)
                        (stepEnv (fixSCC G scc).out x t.1 e_f) (freshV G) =
                        Val.cst t.2.2 := by
                      rw [hFenv]
                      exact stepEnv_disp_label G scc ht e_f
                    obtain ⟨i, hi1, hi2⟩ := hcD2 ⟨freshB G, freshV G⟩
                      (List.mem_append_right _ (List.mem_cons_self _ _)) rfl
                    have hieq : i = t.2.2 := by
                      rw [hlabel] at hi1
                      exact (Val.cst.inj hi1.symm)
                    obtain ⟨hislt, _⟩ := List.getElem?_eq_some.mp ht2
                    have hy3s : y3 = s := by
                      rw [hieq] at hi2
                      rw [fix_succs, newSuccs_disp G _ _ _,
                        List.getElem?_append, if_pos hislt, ht2] at hi2
                      exact (Option.some.inj hi2).symm
                    subst hy3s
                    have hstep : envAgreeTo (maxPid G) (stepEnv G x y3 e_o)
                        (stepEnv (fixSCC G scc).out (freshB G) y3
                          (stepEnv (fixSCC G scc).out t.1 (freshB G) e_f)) := by
                      have := stepEnv_agree_entry_disp G scc hwf hrb ht ht2 ha
                      rw [ht1] at this
                      exact this
                    have hlen3 : rest3.length ≤ n := by
                      have : rest3.length + 3 ≤ n + 1 := by simpa using hlen
                      omega
                    have hadm3' : admissible (fixSCC G scc).out
                        (specs ++ [⟨freshB G, freshV G⟩]) y3
                        (stepEnv (fixSCC G scc).out (freshB G) y3
                          (stepEnv (fixSCC G scc).out t.1 (freshB G) e_f)) rest3 := by
                      rw [hFenv] at hadm3
                      exact hadm3
                    obtain ⟨p, z0, hp, hpadm, hpobs⟩ := ih hlen3 w''' hsblk
                      (stepEnv G x y3 e_o)
                      (stepEnv (fixSCC G scc).out (freshB G) y3
                        (stepEnv (fixSCC G scc).out t.1 (freshB G) e_f)) hstep hadm3'
                    refine ⟨y3 :: p, z0, Walk.step hs (by
                        simp only [blocksKeep]; simpa using hsblk) hp, ⟨?_, hpadm⟩, ?_⟩
                    · -- constraints at the rerouted predecessor, on the original side
                      intro s' hs' hsx
                      obtain ⟨i2, hi21, hi22⟩ := hcx s' (List.mem_append_left _ hs') hsx
                      refine ⟨i2, ?_, ?_⟩
                      · rw [ha s'.dpid (hsw s' hs').2]
                        exact hi21
                      · rw [hsuccs, List.getElem?_map] at hi22
                        cases hgi : (G.succs x)[i2]? with
                        | none => rw [hgi] at hi22; cases hi22
                        | some s2 =>
                            rw [hgi] at hi22
                            have hred2 : redirectSlot
                                (fwdSpecs G (hdrsOf G scc) (freshB G + 2))
                                (hdrsOf G scc) x s2 = t.1 := Option.some.inj hi22
                            rcases redirectSlot_cases
                                (fwdSpecs G (hdrsOf G scc) (freshB G + 2))
                                (hdrsOf G scc) x s2 with hc2 | ⟨t2, ht2', he22, _, ht22⟩
                            · exfalso
                              rw [hc2] at hred2
                              have hs2blk : s2 ∈ G.blocks :=
                                hcl x hx s2 (List.getElem?_mem hgi)
                              have := lt_freshB G hs2blk
                              omega
                            · have ht2t : t2 = t := by
                                refine fwdSpecsAux_id_inj ht2' ht ?_
                                rw [← he22, hred2]
                              rw [ht2t] at ht22
                              have hs2y : s2 = y3 := by
                                rw [ht22] at ht2
                                exact Option.some.inj ht2
                              rw [hs2y]
                    · -- the forwarding block and Dispatcher are unobservable
                      simp only [runObs]
                      rw [if_neg hcF, if_neg hcD, hFenv]
                      rw [List.nil_append, List.nil_append]
                      refine congrArg₂ (· ++ ·) ?_ ?_
                      · by_cases hyo : Gobs.blocks.contains y3 = true
                        · rw [if_pos hyo, if_pos hyo]
                          have hym : y3 ∈ Gobs.blocks := by simpa using hyo
                          have hv : (Gobs.phis y3).map
                              (fun φ => stepEnv G x y3 e_o φ.pid) =
                              (Gobs.phis y3).map
                                (fun φ => stepEnv (fixSCC G scc).out (freshB G) y3
                                  (stepEnv (fixSCC G scc).out t.1 (freshB G) e_f)
                                    φ.pid) :=
                            List.map_congr_left
                              (fun φ hφ => hstep φ.pid (hobs2 y3 hym φ hφ))
                          rw [hv]
                        · rw [if_neg hyo, if_neg hyo]
                      · exact hpobs

theorem valRefBound_mono {m m2 : Nat} (h : m ≤ m2) {v : Val}
    (hv : valRefBound m v) : valRefBound m2 v := by
  cases v with
  | ref n => exact le_trans hv h
  | undef => trivial
  | cst n => trivial

/-- Reference boundedness is preserved by a fix. -/
theorem refsBounded_fix (G : CFG) (scc : List Nat) (hwf : FixWf G scc)
    (hrb : refsBounded G) : refsBounded (fixSCC G scc).out := by
  have hmono := maxPid_fix_mono G scc hwf
  intro b hb φ hφ q hq
  rcases mem_fix_blocks_cases G scc hb with hold | hD | hU | ⟨t, ht, hte⟩
  · by_cases hh : b ∈ hdrsOf G scc
    · rw [fix_phis_hdr G scc hwf hh] at hφ
      obtain ⟨jq, hjq, hje⟩ := List.mem_map.mp hφ
      obtain ⟨j, φ0⟩ := jq
      rw [← hje] at hq
      have hφ0 : φ0 ∈ G.phis b := by
        have := (List.mk_mem_enum_iff_getElem?).mp hjq
        exact List.getElem?_mem this
      rcases List.mem_cons.mp hq with h1 | h1
      · -- the Dispatcher incoming references the dispatch phi
        rw [h1]
        show freshV G + 1 + Nat.pair ((hdrsOf G scc).indexOf b) j ≤
          maxPid (fixSCC G scc).out
        have hφj : (G.phis b)[j]? = some φ0 :=
          (List.mk_mem_enum_iff_getElem?).mp hjq
        have hbm : b ∈ hdrsOf G scc := hh
        have hbgt : (hdrsOf G scc).indexOf b < (hdrsOf G scc).length :=
          List.indexOf_lt_length.mpr hbm
        have hbi : (hdrsOf G scc)[(hdrsOf G scc).indexOf b]? = some b := by
          rw [List.getElem?_eq_getElem hbgt, List.getElem_indexOf]
        have hdm : dispatchPhiFor (fwdSpecs G (hdrsOf G scc) (freshB G + 2))
            (freshV G) ((hdrsOf G scc).indexOf b) j φ0 ∈
            (fixSCC G scc).out.phis (freshB G) := by
          rw [fix_phis_disp]
          refine List.mem_cons_of_mem _ (List.mem_flatMap.mpr
            ⟨((hdrsOf G scc).indexOf b, b),
              (List.mk_mem_enum_iff_getElem?).mpr hbi, ?_⟩)
          exact List.mem_map.mpr ⟨(j, φ0), (List.mk_mem_enum_iff_getElem?).mpr hφj, rfl⟩
        have hDblk : freshB G ∈ (fixSCC G scc).out.blocks := by
          rw [fix_blocks]
          exact List.mem_append_right _ (List.mem_cons_self _ _)
        exact pid_le_maxPid (fixSCC G scc).out hDblk hdm
      · have hqm : q ∈ φ0.incoming := List.mem_of_mem_filter h1
        exact valRefBound_mono hmono (hrb b hold φ0 hφ0 q hqm)
    · rw [fix_phis_old_nonhdr G scc hold hh] at hφ
      exact valRefBound_mono hmono (hrb b hold φ hφ q hq)
  · rw [hD, fix_phis_disp] at hφ
    rcases List.mem_cons.mp hφ with h1 | h1
    · rw [h1] at hq
      obtain ⟨u, _, hue⟩ := List.mem_map.mp hq
      rw [← hue]
      trivial
    · obtain ⟨pp, hpp, hin⟩ := List.mem_flatMap.mp h1
      obtain ⟨qq, hqq, hqe⟩ := List.mem_map.mp hin
      rw [← hqe] at hq
      obtain ⟨u, _, hue⟩ := List.mem_map.mp hq
      rw [← hue]
      by_cases hcond : u.2.2 = pp.1
      · simp only [if_pos hcond]
        have hppb : pp.2 ∈ G.blocks :=
          hwf.2.2.1 _ (hdrs_subset_scc G scc (by
            have := (List.mk_mem_enum_iff_getElem?).mp (by
              show (pp.1, pp.2) ∈ (hdrsOf G scc).enum
              exact hpp)
            exact List.getElem?_mem this))
        have hqqφ : qq.2 ∈ G.phis pp.2 := by
          have := (List.mk_mem_enum_iff_getElem?).mp (by
            show (qq.1, qq.2) ∈ (G.phis pp.2).enum
            exact hqq)
          exact List.getElem?_mem this
        exact valRefBound_mono hmono (lookupVal_refBound G hrb hppb hqqφ u.2.1)
      · simp only [if_neg hcond]
        trivial
  · rw [hU, fix_phis_dflt] at hφ
    cases hφ
  · rw [← hte, fix_phis_fwd G scc hwf ⟨t, ht, rfl⟩] at hφ
    cases hφ

/-- Well-formedness of the dispatcher records is preserved by a fix, adding
the newly created Dispatcher. -/
theorem specsWf_fix (G : CFG) (scc : List Nat) (hwf : FixWf G scc)
    {specs : List DSpec} (hsw : SpecsWf G specs) :
    SpecsWf (fixSCC G scc).out (specs ++ [⟨freshB G, freshV G⟩]) := by
  intro s hs
  rcases List.mem_append.mp hs with h1 | h1
  · exact ⟨fix_blocks_sub G scc _ (hsw s h1).1,
      le_trans (hsw s h1).2 (maxPid_fix_mono G scc hwf)⟩
  · have hse : s = ⟨freshB G, freshV G⟩ := by simpa using h1
    subst hse
    have hDblk : freshB G ∈ (fixSCC G scc).out.blocks := by
      rw [fix_blocks]
      exact List.mem_append_right _ (List.mem_cons_self _ _)
    refine ⟨hDblk, ?_⟩
    have hlm : labelPhi (fwdSpecs G (hdrsOf G scc) (freshB G + 2)) (freshV G) ∈
        (fixSCC G scc).out.phis (freshB G) := by
      rw [fix_phis_disp]
      exact List.mem_cons_self _ _
    exact pid_le_maxPid (fixSCC G scc).out hDblk hlm

/-- Bidirectional observable equivalence: every walk of the first graph from
an original block transports forward to an admissible walk of the second with
the same endpoint and the same observed phi-merge selections, and every
admissible walk of the second projects back. -/
def SimTo (Gobs G1 : CFG) (specs1 : List DSpec) (G2 : CFG) (specs2 : List DSpec) : Prop :=
  (∀ {x z : Nat} {p : List Nat}, Walk G1.succs (blocksKeep G1) x p z →
    x ∈ G1.blocks → admissible G1 specs1 x env0 p →
    ∃ q, Walk G2.succs (blocksKeep G2) x q z ∧ admissible G2 specs2 x env0 q ∧
      runObs G2 Gobs x env0 q = runObs G1 Gobs x env0 p) ∧
  (∀ {x z : Nat} {q : List Nat}, Walk G2.succs (blocksKeep G2) x q z →
    x ∈ G1.blocks → admissible G2 specs2 x env0 q →
    ∃ p z0, Walk G1.succs (blocksKeep G1) x p z0 ∧ admissible G1 specs1 x env0 p ∧
      runObs G1 Gobs x env0 p = runObs G2 Gobs x env0 q)

theorem simTo_refl (Gobs G : CFG) (specs : List DSpec) : SimTo Gobs G specs G specs := by
  constructor
  · intro x z p w _ hadm
    exact ⟨p, w, hadm, rfl⟩
  · intro x z q w _ hadm
    exact ⟨q, z, w, hadm, rfl⟩

theorem simTo_trans {Gobs G0 G1 G2 : CFG} {s0 s1 s2 : List DSpec}
    (hmono : ∀ b ∈ G0.blocks, b ∈ G1.blocks)
    (h01 : SimTo Gobs G0 s0 G1 s1) (h12 : SimTo Gobs G1 s1 G2 s2) :
    SimTo Gobs G0 s0 G2 s2 := by
  obtain ⟨f01, b01⟩ := h01
  obtain ⟨f12, b12⟩ := h12
  constructor
  · intro x z p w hx hadm
    obtain ⟨q, hq, hqa, hqo⟩ := f01 w hx hadm
    obtain ⟨r, hr, hra, hro⟩ := f12 hq (hmono x hx) hqa
    exact ⟨r, hr, hra, hro.trans hqo⟩
  · intro x z q w hx hadm
    obtain ⟨p1, z1, hp1, hp1a, hp1o⟩ := b12 w (hmono x hx) hadm
    obtain ⟨p0, z00, hp0, hp0a, hp0o⟩ := b01 hp1 hx hp1a
    exact ⟨p0, z00, hp0, hp0a, hp0o.trans hp1o⟩

theorem simTo_fix (G : CFG) (scc : List Nat) (Gobs : CFG) (specs : List DSpec)
    (hwf : FixWf G scc) (hrb : refsBounded G) (hsw : SpecsWf G specs)
    (hobs1 : ∀ b ∈ Gobs.blocks, b ∈ G.blocks)
    (hobs2 : ∀ b ∈ Gobs.blocks, ∀ φ ∈ Gobs.phis b, φ.pid ≤ maxPid G) :
    SimTo Gobs G specs (fixSCC G scc).out (specs ++ [⟨freshB G, freshV G⟩]) := by
  constructor
  · intro x z p w hx hadm
    exact fix_forward_sim G scc Gobs specs hwf hrb hsw hobs1 hobs2 w hx env0 env0
      (fun _ _ => rfl) hadm
  · intro x z q w hx hadm
    exact fix_backward_sim G scc Gobs specs hwf hrb hsw hobs1 hobs2 q.length
      (le_refl _) w hx env0 env0 (fun _ _ => rfl) hadm

/-- Processing a component list preserves the semantic invariants and is
observably equivalent to the input graph. -/
theorem processSCCs_sim (Gobs : CFG) :
    ∀ (comps : List (List Nat)) (G : CFG) (specs : List DSpec),
      WfG G → refsBounded G → SpecsWf G specs →
      (∀ c ∈ comps, c.Nodup ∧ ∀ b ∈ c, b ∈ G.blocks) →
      (∀ b ∈ Gobs.blocks, b ∈ G.blocks) →
      (∀ b ∈ Gobs.blocks, ∀ φ ∈ Gobs.phis b, φ.pid ≤ maxPid G) →
      ∃ specs2,
        WfG (processSCCs G comps).1 ∧
        refsBounded (processSCCs G comps).1 ∧
        SpecsWf (processSCCs G comps).1 specs2 ∧
        (∀ b ∈ G.blocks, b ∈ (processSCCs G comps).1.blocks) ∧
        maxPid G ≤ maxPid (processSCCs G comps).1 ∧
        (∀ P ∈ (processSCCs G comps).2, P.sgBlocks.Nodup ∧
          P.sgEntry ∈ P.sgBlocks ∧
          ∀ b ∈ P.sgBlocks, b ∈ (processSCCs G comps).1.blocks) ∧
        SimTo Gobs G specs (processSCCs G comps).1 specs2 := by
  intro comps
  induction comps with
  | nil =>
      intro G specs hw hrb hsw _ _ _
      exact ⟨specs, hw, hrb, hsw, fun b hb => hb, le_refl _,
        fun P hP => absurd hP (List.not_mem_nil P), simTo_refl Gobs G specs⟩
  | cons c rest ih =>
      intro G specs hw hrb hsw hcomps hobs1 hobs2
      obtain ⟨hndc, hsubc⟩ := hcomps c (List.mem_cons_self _ _)
      by_cases hgate : 2 ≤ (hdrsOf G c).length
      · have hwf : FixWf G c := fixWf_of_wfG hw hndc hsubc
        have heq : processSCCs G (c :: rest) =
            ((processSCCs (fixSCC G c).out rest).1,
             ⟨(fixSCC G c).disp, (fixSCC G c).disp :: c⟩ ::
               (processSCCs (fixSCC G c).out rest).2) := by
          simp only [processSCCs, if_pos hgate]
        have hw1 : WfG (fixSCC G c).out := fix_wfG G c hw hndc hsubc
        have hrb1 : refsBounded (fixSCC G c).out := refsBounded_fix G c hwf hrb
        have hsw1 : SpecsWf (fixSCC G c).out (specs ++ [⟨freshB G, freshV G⟩]) :=
          specsWf_fix G c hwf hsw
        have hrest : ∀ c' ∈ rest, c'.Nodup ∧ ∀ b ∈ c', b ∈ (fixSCC G c).out.blocks := by
          intro c' hc'
          obtain ⟨h1, h2⟩ := hcomps c' (List.mem_cons_of_mem _ hc')
          exact ⟨h1, fun b hb => fix_blocks_sub G c b (h2 b hb)⟩
        have hobs1' : ∀ b ∈ Gobs.blocks, b ∈ (fixSCC G c).out.blocks :=
          fun b hb => fix_blocks_sub G c b (hobs1 b hb)
        have hobs2' : ∀ b ∈ Gobs.blocks, ∀ φ ∈ Gobs.phis b,
            φ.pid ≤ maxPid (fixSCC G c).out :=
          fun b hb φ hφ => le_trans (hobs2 b hb φ hφ) (maxPid_fix_mono G c hwf)
        obtain ⟨specs2, ihw, ihrb, ihsw, ihmono, ihmax, ihpush, ihsim⟩ :=
          ih (fixSCC G c).out (specs ++ [⟨freshB G, freshV G⟩])
            hw1 hrb1 hsw1 hrest hobs1' hobs2'
        rw [heq]
        refine ⟨specs2, ihw, ihrb, ihsw,
          fun b hb => ihmono b (fix_blocks_sub G c b hb),
          le_trans (maxPid_fix_mono G c hwf) ihmax, ?_, ?_⟩
        · intro P hP
          rcases List.mem_cons.mp hP with h1 | h1
          · rw [h1]
            have hdisp : (fixSCC G c).disp = freshB G := rfl
            refine ⟨?_, List.mem_cons_self _ _, ?_⟩
            · rw [hdisp]
              refine List.nodup_cons.mpr ⟨?_, hndc⟩
              intro hmem
              have := lt_freshB G (hsubc _ hmem)
              omega
            · intro b hbm
              rcases List.mem_cons.mp hbm with h2 | h2
              · rw [h2, hdisp]
                refine ihmono _ ?_
                rw [fix_blocks]
                exact List.mem_append_right _ (List.mem_cons_self _ _)
              · exact ihmono b (fix_blocks_sub G c b (hsubc b h2))
          · exact ihpush P h1
        · exact simTo_trans (fun b hb => fix_blocks_sub G c b hb)
            (simTo_fix G c Gobs specs hwf hrb hsw hobs1 hobs2) ihsim
      · have heq : processSCCs G (c :: rest) = processSCCs G rest := by
          simp only [processSCCs, if_neg hgate]
        have hrest : ∀ c' ∈ rest, c'.Nodup ∧ ∀ b ∈ c', b ∈ G.blocks :=
          fun c' hc' => hcomps c' (List.mem_cons_of_mem _ hc')
        obtain ⟨specs2, ihw, ihrb, ihsw, ihmono, ihmax, ihpush, ihsim⟩ :=
          ih G specs hw hrb hsw hrest hobs1 hobs2
        rw [heq]
        exact ⟨specs2, ihw, ihrb, ihsw, ihmono, ihmax, ihpush, ihsim⟩

/-- The whole driver run is observably equivalent to its input graph. -/
theorem driver_sim (Gobs : CFG) :
    ∀ (fuel : Nat) (G : CFG) (q : List SubGr) (specs : List DSpec),
      WfG G → refsBounded G → SpecsWf G specs →
      (∀ sg ∈ q, sg.sgBlocks.Nodup ∧ sg.sgEntry ∈ sg.sgBlocks ∧
        ∀ b ∈ sg.sgBlocks, b ∈ G.blocks) →
      (∀ b ∈ Gobs.blocks, b ∈ G.blocks) →
      (∀ b ∈ Gobs.blocks, ∀ φ ∈ Gobs.phis b, φ.pid ≤ maxPid G) →
      ∃ specs2,
        WfG (driver fuel G q) ∧
        (∀ b ∈ G.blocks, b ∈ (driver fuel G q).blocks) ∧
        SimTo Gobs G specs (driver fuel G q) specs2 := by
  intro fuel
  induction fuel with
  | zero =>
      intro G q specs hw _ hsw _ _ _
      exact ⟨specs, hw, fun b hb => hb, simTo_refl Gobs G specs⟩
  | succ fuel ih =>
      intro G q specs hw hrb hsw hq hobs1 hobs2
      cases q with
      | nil => exact ⟨specs, hw, fun b hb => hb, simTo_refl Gobs G specs⟩
      | cons sg rest =>
          obtain ⟨hsgnd, hsgent, hsgsub⟩ := hq sg (List.mem_cons_self _ _)
          obtain ⟨hrepr, _⟩ := sccList_spec G sg hsgent
          have hcomps : ∀ c ∈ sccList G sg, c.Nodup ∧ ∀ b ∈ c, b ∈ G.blocks := by
            intro c hc
            obtain ⟨A, hA, hcA⟩ := hrepr c hc
            refine ⟨by rw [hcA]; exact sccOfIn_nodup G hsgnd A, ?_⟩
            intro b hb
            rw [hcA] at hb
            exact hsgsub b (sccOfIn_subset G sg.sgBlocks A b hb)
          obtain ⟨specs2, pw, prb, psw, pmono, pmax, ppush, psim⟩ :=
            processSCCs_sim Gobs (sccList G sg) G specs hw hrb hsw hcomps hobs1 hobs2
          have hq' : ∀ sg2 ∈ rest ++ (processSCCs G (sccList G sg)).2,
              sg2.sgBlocks.Nodup ∧ sg2.sgEntry ∈ sg2.sgBlocks ∧
              ∀ b ∈ sg2.sgBlocks, b ∈ (processSCCs G (sccList G sg)).1.blocks := by
            intro sg2 hsg2
            rcases List.mem_append.mp hsg2 with h1 | h1
            · obtain ⟨h2, h3, h4⟩ := hq sg2 (List.mem_cons_of_mem _ h1)
              exact ⟨h2, h3, fun b hb => pmono b (h4 b hb)⟩
            · obtain ⟨h2, h3, h4⟩ := ppush sg2 h1
              exact ⟨h2, h3, h4⟩
          have hobs1' : ∀ b ∈ Gobs.blocks, b ∈ (processSCCs G (sccList G sg)).1.blocks :=
            fun b hb => pmono b (hobs1 b hb)
          have hobs2' : ∀ b ∈ Gobs.blocks, ∀ φ ∈ Gobs.phis b,
              φ.pid ≤ maxPid (processSCCs G (sccList G sg)).1 :=
            fun b hb φ hφ => le_trans (hobs2 b hb φ hφ) pmax
          obtain ⟨specs3, ihw, ihmono, ihsim⟩ :=
            ih (processSCCs G (sccList G sg)).1
              (rest ++ (processSCCs G (sccList G sg)).2) specs2
              pw prb psw hq' hobs1' hobs2'
          have heq : driver (fuel + 1) G (sg :: rest) =
              driver fuel (processSCCs G (sccList G sg)).1
                (rest ++ (processSCCs G (sccList G sg)).2) := rfl
          rw [heq]
          exact ⟨specs3, ihw, fun b hb => ihmono b (pmono b hb),
            simTo_trans pmono psim ihsim⟩

/-- C1: for every well-formed input function, every execution path through the
original CFG maps to an admissible path through the CFG produced by the pass
yielding the same sequence of phi-merge selections (observed at the original
blocks, with dispatcher-computed values resolved), and every admissible path
through the transformed CFG maps back to an original path with the same
selections: the Dispatcher reroutes existing paths but introduces no new
observable behavior. -/
theorem c1_semantic_preservation (G : CFG) (fuel : Nat) (hw : WfG G)
    (hrb : refsBounded G) :
    ∃ dspecs : List DSpec,
      (∀ (z : Nat) (p : List Nat), Walk G.succs (blocksKeep G) G.entry p z →
        ∃ q, Walk (runPass fuel G).succs (blocksKeep (runPass fuel G)) G.entry q z ∧
          admissible (runPass fuel G) dspecs G.entry env0 q ∧
          runObs (runPass fuel G) G G.entry env0 q = runObs G G G.entry env0 p) ∧
      (∀ (z : Nat) (q : List Nat),
        Walk (runPass fuel G).succs (blocksKeep (runPass fuel G)) G.entry q z →
        admissible (runPass fuel G) dspecs G.entry env0 q →
        ∃ p z0, Walk G.succs (blocksKeep G) G.entry p z0 ∧
          runObs G G G.entry env0 p = runObs (runPass fuel G) G G.entry env0 q) := by
  obtain ⟨specs2, _, _, hsim⟩ := driver_sim G fuel G [⟨G.entry, G.blocks⟩] []
    hw hrb (fun s hs => absurd hs (List.not_mem_nil s))
    (by
      intro sg hsg
      have hse : sg = ⟨G.entry, G.blocks⟩ := by simpa using hsg
      rw [hse]
      exact ⟨hw.1, hw.2.1, fun b hb => hb⟩)
    (fun b hb => hb)
    (fun b hb φ hφ => pid_le_maxPid G hb hφ)
  refine ⟨specs2, ?_, ?_⟩
  · intro z p w
    obtain ⟨q, hq, hqa, hqo⟩ := hsim.1 w hw.2.1 (admissible_nil_specs G p G.entry env0)
    exact ⟨q, hq, hqa, hqo⟩
  · intro z q w hadm
    obtain ⟨p, z0, hp, _, hpo⟩ := hsim.2 w hw.2.1 hadm
    exact ⟨p, z0, hp, hpo⟩

theorem c1_semantic_preservation_witness :
    (WfG twoEntryG ∧ refsBounded twoEntryG) ∧
    (∃ dspecs : List DSpec,
      (∀ (z : Nat) (p : List Nat),
        Walk twoEntryG.succs (blocksKeep twoEntryG) twoEntryG.entry p z →
        ∃ q, Walk (runPass 5 twoEntryG).succs
            (blocksKeep (runPass 5 twoEntryG)) twoEntryG.entry q z ∧
          admissible (runPass 5 twoEntryG) dspecs twoEntryG.entry env0 q ∧
          runObs (runPass 5 twoEntryG) twoEntryG twoEntryG.entry env0 q =
            runObs twoEntryG twoEntryG twoEntryG.entry env0 p) ∧
      (∀ (z : Nat) (q : List Nat),
        Walk (runPass 5 twoEntryG).succs
          (blocksKeep (runPass 5 twoEntryG)) twoEntryG.entry q z →
        admissible (runPass 5 twoEntryG) dspecs twoEntryG.entry env0 q →
        ∃ p z0, Walk twoEntryG.succs (blocksKeep twoEntryG) twoEntryG.entry p z0 ∧
          runObs twoEntryG twoEntryG twoEntryG.entry env0 p =
            runObs (runPass 5 twoEntryG) twoEntryG twoEntryG.entry env0 q)) :=
  ⟨⟨by decide, by decide⟩, c1_semantic_preservation twoEntryG 5 (by decide) (by decide)⟩

/-!  Reachability and dominance toolkit for the global single-header
analysis. -/

/-- Raw reachability along the function's edges. -/
def ReachW (G : CFG) (x y : Nat) : Prop :=
  ∃ p, Walk G.succs (blocksKeep G) x p y

theorem reachW_refl (G : CFG) (x : Nat) : ReachW G x x := ⟨[], Walk.refl _⟩

theorem reachW_trans {G : CFG} {x y z : Nat} (h1 : ReachW G x y) (h2 : ReachW G y z) :
    ReachW G x z := by
  obtain ⟨p, hp⟩ := h1
  obtain ⟨q, hq⟩ := h2
  exact ⟨p ++ q, walk_append hp hq⟩

theorem reachW_of_edge {G : CFG} {x y : Nat} (hy : y ∈ G.blocks)
    (he : y ∈ G.succs x) : ReachW G x y :=
  ⟨[y], Walk.step he (by simp only [blocksKeep]; simpa using hy) (Walk.refl _)⟩

theorem viewSuccs_full (G : CFG)
    (hcl : ∀ b ∈ G.blocks, ∀ s ∈ G.succs b, s ∈ G.blocks)
    {x : Nat} (hx : x ∈ G.blocks) : viewSuccs G G.blocks x = G.succs x := by
  unfold viewSuccs
  rw [List.filter_eq_self]
  intro s hs
  simpa using hcl x hx s hs

theorem walk_full_of_view (G : CFG)
    (hcl : ∀ b ∈ G.blocks, ∀ s ∈ G.succs b, s ∈ G.blocks) :
    ∀ {x z : Nat} {p : List Nat},
      Walk (viewSuccs G G.blocks) (fun v => G.blocks.contains v) x p z →
      x ∈ G.blocks → Walk G.succs (blocksKeep G) x p z := by
  intro x z p w
  induction w with
  | refl => intro _; exact Walk.refl _
  | @step x0 y0 z0 p0 he hk w' ih =>
      intro hx0
      have hy0 : y0 ∈ G.blocks := by simpa using hk
      refine Walk.step ?_ hk (ih hy0)
      rw [viewSuccs_full G hcl hx0] at he
      exact he

theorem walk_view_of_full (G : CFG) :
    ∀ {x z : Nat} {p : List Nat}, Walk G.succs (blocksKeep G) x p z →
      x ∈ G.blocks →
      Walk (viewSuccs G G.blocks) (fun v => G.blocks.contains v) x p z := by
  intro x z p w
  induction w with
  | refl => intro _; exact Walk.refl _
  | @step x0 y0 z0 p0 he hk w' ih =>
      intro hx0
      have hy0 : y0 ∈ G.blocks := by simpa [blocksKeep] using hk
      refine Walk.step ?_ hk (ih hy0)
      unfold viewSuccs
      refine List.mem_filter.mpr ⟨he, by simpa using hy0⟩

/-- Membership in a full-graph component: mutual raw reachability. -/
theorem mem_sccFull_iff (G : CFG)
    (hcl : ∀ b ∈ G.blocks, ∀ s ∈ G.succs b, s ∈ G.blocks)
    {A B : Nat} (hA : A ∈ G.blocks) :
    B ∈ sccOfIn G G.blocks A ↔ B ∈ G.blocks ∧ ReachW G A B ∧ ReachW G B A := by
  rw [mem_sccOfIn_iff]
  constructor
  · intro ⟨hB, ⟨p, hp⟩, ⟨q, hq⟩⟩
    exact ⟨hB, ⟨p, walk_full_of_view G hcl hp hA⟩, ⟨q, walk_full_of_view G hcl hq hB⟩⟩
  · intro ⟨hB, ⟨p, hp⟩, ⟨q, hq⟩⟩
    exact ⟨hB, ⟨p, walk_view_of_full G hp hA⟩, ⟨q, walk_view_of_full G hq hB⟩⟩

theorem dom_not_reachAvoid (G : CFG) {c d : Nat} (h : dominatesB G c d = true)
    (hne : c ≠ d) : d ∉ reachAvoid G c := by
  unfold dominatesB at h
  rcases Bool.or_eq_true_iff.mp h with h1 | h1
  · exact absurd (by simpa using h1) hne
  · intro hmem
    rw [Bool.not_eq_true'] at h1
    have h2 : d ∉ reachAvoid G c := by simpa using h1
    exact h2 hmem

/-- A dominator of a reachable block reaches it. -/
theorem dom_reach_walk (G : CFG) {h P : Nat} (hdom : dominatesB G h P = true)
    (hP : P ∈ reachSet G) : ReachW G h P := by
  obtain ⟨p, hp⟩ := (mem_reachSet_iff G P).mp hP
  by_cases hhe : G.entry = h
  · exact ⟨p, hhe ▸ hp⟩
  by_cases hPh : P = h
  · rw [hPh]
    exact reachW_refl G h
  by_cases hmem : h ∈ p
  · obtain ⟨s, t, hst, _⟩ := first_occurrence_split hmem
    rw [hst] at hp
    exact ⟨t, walk_suffix_from s hp⟩
  · exfalso
    have hw2 : Walk G.succs (avoidKeep G h) G.entry p P := by
      refine walk_change_keep hp ?_
      intro v hv
      have hvb := walk_mem_keep hp v hv
      simp only [avoidKeep, Bool.and_eq_true, decide_eq_true_eq]
      exact ⟨fun hveq => hmem (hveq ▸ hv), by simpa [blocksKeep] using hvb⟩
    have hmem2 : P ∈ reachAvoid G h :=
      (mem_reachAvoid_iff G h P).mpr ⟨hhe, ⟨p, hw2⟩⟩
    exact dom_not_reachAvoid G hdom (fun hc => hPh hc.symm) hmem2

/-- Mutual dominance of reachable blocks forces equality. -/
theorem dom_antisymm (G : CFG) {a b : Nat} (hab : dominatesB G a b = true)
    (hba : dominatesB G b a = true) (hb : b ∈ reachSet G) : a = b := by
  by_contra hne
  obtain ⟨p0, hp0⟩ := (mem_reachSet_iff G b).mp hb
  suffices h : ∀ n (q : List Nat) (c d : Nat), q.length ≤ n →
      dominatesB G c d = true → dominatesB G d c = true → c ≠ d →
      Walk G.succs (blocksKeep G) G.entry q d → False by
    exact h p0.length p0 a b (le_refl _) hab hba hne hp0
  intro n
  induction n with
  | zero =>
      intro q c d hlen hcd hdc hne2 w
      have hq : q = [] := List.length_eq_zero.mp (Nat.le_zero.mp hlen)
      subst hq
      have hd : G.entry = d := (walk_last_eq w rfl).symm
      have hentc : G.entry ≠ c := by
        intro hc
        exact hne2 (by rw [← hc, hd])
      have hwd : Walk G.succs (avoidKeep G c) G.entry [] d := by
        rw [hd]
        exact Walk.refl _
      have : d ∈ reachAvoid G c :=
        (mem_reachAvoid_iff G c d).mpr ⟨hentc, ⟨[], hwd⟩⟩
      exact dom_not_reachAvoid G hcd hne2 this
  | succ n ih =>
      intro q c d hlen hcd hdc hne2 w
      by_cases hentc : G.entry = c
      · -- the entry dominates everything; d cannot also dominate it
        have hentd : G.entry ≠ d := by
          intro hc
          exact hne2 (hentc ▸ hc)
        have hwc : Walk G.succs (avoidKeep G d) G.entry [] c := by
          rw [hentc]
          exact Walk.refl _
        have : c ∈ reachAvoid G d :=
          (mem_reachAvoid_iff G d c).mpr ⟨hentd, ⟨[], hwc⟩⟩
        exact dom_not_reachAvoid G hdc (fun hc => hne2 hc.symm) this
      by_cases hmem : c ∈ q
      · obtain ⟨s, t, hst, hcs⟩ := first_occurrence_split hmem
        rw [hst] at w
        have hpre : Walk G.succs (blocksKeep G) G.entry (s ++ [c]) c :=
          walk_prefix_to s w
        have hslen : s.length ≤ n := by
          have : q.length = s.length + 1 + t.length := by rw [hst]; simp; omega
          omega
        by_cases hentd : G.entry = d
        · have hwd : Walk G.succs (avoidKeep G c) G.entry [] d := by
            rw [hentd]
            exact Walk.refl _
          have : d ∈ reachAvoid G c :=
            (mem_reachAvoid_iff G c d).mpr ⟨hentc, ⟨[], hwd⟩⟩
          exact dom_not_reachAvoid G hcd hne2 this
        by_cases hdmem : d ∈ s
        · obtain ⟨u, v, huv, _⟩ := first_occurrence_split hdmem
          have hulen : u.length + 1 ≤ n := by
            have : s.length = u.length + 1 + v.length := by rw [huv]; simp; omega
            omega
          rw [huv, List.append_assoc] at hpre
          have hpred : Walk G.succs (blocksKeep G) G.entry (u ++ [d]) d :=
            walk_prefix_to u hpre
          exact ih (u ++ [d]) c d (by simpa using hulen) hcd hdc hne2 hpred
        · -- the prefix to c avoids d entirely
          have hw2 : Walk G.succs (avoidKeep G d) G.entry (s ++ [c]) c := by
            refine walk_change_keep hpre ?_
            intro v hv
            have hvb := walk_mem_keep hpre v hv
            simp only [avoidKeep, Bool.and_eq_true, decide_eq_true_eq]
            refine ⟨?_, by simpa [blocksKeep] using hvb⟩
            intro hveq
            rw [hveq] at hv
            rcases List.mem_append.mp hv with h1 | h1
            · exact hdmem h1
            · have hdc2 : d = c := by simpa using h1
              exact hne2 hdc2.symm
          have : c ∈ reachAvoid G d :=
            (mem_reachAvoid_iff G d c).mpr ⟨hentd, ⟨s ++ [c], hw2⟩⟩
          exact dom_not_reachAvoid G hdc (fun hc => hne2 hc.symm) this
      · -- the walk to d avoids c entirely
        have hw2 : Walk G.succs (avoidKeep G c) G.entry q d := by
          refine walk_change_keep w ?_
          intro v hv
          have hvb := walk_mem_keep w v hv
          simp only [avoidKeep, Bool.and_eq_true, decide_eq_true_eq]
          exact ⟨fun hveq => hmem (hveq ▸ hv), by simpa [blocksKeep] using hvb⟩
        have : d ∈ reachAvoid G c :=
          (mem_reachAvoid_iff G c d).mpr ⟨hentc, ⟨q, hw2⟩⟩
        exact dom_not_reachAvoid G hcd hne2 this

theorem walk_split_last {succs : Nat → List Nat} {keep : Nat → Bool} {z : Nat} :
    ∀ (s : List Nat) {x : Nat}, Walk succs keep x (s ++ [z]) z →
      ∃ w, Walk succs keep x s w ∧ z ∈ succs w ∧ (w = x ∨ w ∈ s) := by
  intro s
  induction s with
  | nil =>
      intro x w
      rw [List.nil_append] at w
      cases w with
      | step he hk w' =>
          cases w' with
          | refl => exact ⟨x, Walk.refl _, he, Or.inl rfl⟩
  | cons a s' ih =>
      intro x w
      cases w with
      | step he hk w' =>
          obtain ⟨w0, hw0, hz, hm⟩ := ih w'
          refine ⟨w0, Walk.step he hk hw0, hz, Or.inr ?_⟩
          rcases hm with h | h
          · simp [h]
          · exact List.mem_cons_of_mem _ h

/-- If `E1` does not dominate `E2` and the two lie on a common cycle, the cycle
enters `E1` through a MetaBlock predecessor of `E1` that is itself on the
cycle. -/
theorem internal_metaPred_of_not_dom (G : CFG) {E1 E2 : Nat}
    (hE1 : E1 ∈ G.blocks) (hE2 : E2 ∈ G.blocks) (hne : E1 ≠ E2)
    (h12 : ReachW G E1 E2) (h21 : ReachW G E2 E1)
    (hnd : dominatesB G E1 E2 = false) :
    ∃ P ∈ metaPreds G E1, ReachW G E1 P ∧ ReachW G P E1 := by
  obtain ⟨_, hE2avoid⟩ := (dominatesB_eq_false_iff G).mp hnd
  obtain ⟨hentne, p02, hp02⟩ := (mem_reachAvoid_iff G E1 E2).mp hE2avoid
  obtain ⟨p21, hp21⟩ := h21
  have hp21ne : p21 ≠ [] := by
    intro h
    subst h
    exact hne (walk_last_eq hp21 rfl)
  have hmem : E1 ∈ p21 := walk_end_mem hp21 hp21ne
  obtain ⟨s, t, hst, hE1s⟩ := first_occurrence_split hmem
  rw [hst] at hp21
  have hpre : Walk G.succs (blocksKeep G) E2 (s ++ [E1]) E1 := walk_prefix_to s hp21
  obtain ⟨P, hPwalk, hPsucc, hPmem⟩ := walk_split_last s hpre
  have hPb : P ∈ G.blocks := by
    rcases hPmem with h | h
    · exact h ▸ hE2
    · have := walk_mem_keep hpre P (List.mem_append.mpr (Or.inl h))
      simpa [blocksKeep] using this
  have hPne : P ≠ E1 := by
    intro h
    rcases hPmem with h2 | h2
    · rw [h] at h2
      exact hne h2
    · rw [h] at h2
      exact hE1s h2
  have hPpred : P ∈ predsOf G E1 := by
    unfold predsOf
    exact List.mem_filter.mpr ⟨hPb, by simpa using hPsucc⟩
  have hsAvoid : Walk G.succs (avoidKeep G E1) E2 s P := by
    refine walk_change_keep hPwalk ?_
    intro v hv
    have hvb := walk_mem_keep hPwalk v hv
    simp only [avoidKeep, Bool.and_eq_true, decide_eq_true_eq]
    exact ⟨fun hveq => hE1s (hveq ▸ hv), by simpa [blocksKeep] using hvb⟩
  have hPavoid : P ∈ reachAvoid G E1 :=
    (mem_reachAvoid_iff G E1 P).mpr ⟨hentne, ⟨p02 ++ s, walk_append hp02 hsAvoid⟩⟩
  have hPmeta : P ∈ metaPreds G E1 := by
    unfold metaPreds
    refine List.mem_filter.mpr ⟨hPpred, ?_⟩
    have hdf : dominatesB G E1 P = false :=
      (dominatesB_eq_false_iff G).mpr ⟨fun h => hPne h.symm, hPavoid⟩
    simp [hdf]
  refine ⟨P, hPmeta, ?_, reachW_of_edge hE1 hPsucc⟩
  obtain ⟨p12, hp12⟩ := h12
  exact ⟨p12 ++ s, walk_append hp12 hPwalk⟩

/-- Two distinct blocks on a common cycle: one of them has a MetaBlock
predecessor on the cycle (an irreducible entry seen from inside). -/
theorem mutual_pair_internal_metaPred (G : CFG) {E1 E2 : Nat}
    (hE1 : E1 ∈ G.blocks) (hE2 : E2 ∈ G.blocks) (hne : E1 ≠ E2)
    (h12 : ReachW G E1 E2) (h21 : ReachW G E2 E1)
    (hr2 : E2 ∈ reachSet G) :
    (∃ P ∈ metaPreds G E1, ReachW G E1 P ∧ ReachW G P E1) ∨
    (∃ P ∈ metaPreds G E2, ReachW G E2 P ∧ ReachW G P E2) := by
  cases hd1 : dominatesB G E1 E2 with
  | false => exact Or.inl (internal_metaPred_of_not_dom G hE1 hE2 hne h12 h21 hd1)
  | true =>
      cases hd2 : dominatesB G E2 E1 with
      | false =>
          exact Or.inr (internal_metaPred_of_not_dom G hE2 hE1 hne.symm h21 h12 hd2)
      | true => exact absurd (dom_antisymm G hd1 hd2 hr2) hne

theorem length_le_one_of_unique {l : List Nat} (hnd : l.Nodup)
    (h : ∀ a ∈ l, ∀ b ∈ l, a = b) : l.length ≤ 1 := by
  cases l with
  | nil => simp
  | cons a t =>
      cases t with
      | nil => simp
      | cons b t' =>
          exfalso
          have hab : a = b := h a (by simp) b (by simp)
          rw [List.nodup_cons] at hnd
          exact hnd.1 (hab ▸ List.mem_cons_self _ _)

theorem mem_of_len_le_one {l : List Nat} (hl : l.length ≤ 1) {a b : Nat}
    (ha : a ∈ l) (hb : b ∈ l) : a = b := by
  cases l with
  | nil => cases ha
  | cons c t =>
      cases t with
      | nil =>
          have h1 : a = c := by simpa using ha
          have h2 : b = c := by simpa using hb
          rw [h1, h2]
      | cons d t' => simp at hl

/-- Any nonempty walk has a penultimate node carrying the last edge. -/
theorem walk_penult {succs : Nat → List Nat} {keep : Nat → Bool} {x z : Nat}
    {p : List Nat} (w : Walk succs keep x p z) (hne : p ≠ []) :
    ∃ v q, Walk succs keep x q v ∧ z ∈ succs v ∧ (v = x ∨ keep v = true) := by
  have hz : z ∈ p := walk_end_mem w hne
  obtain ⟨s, t, hst, _⟩ := first_occurrence_split hz
  rw [hst] at w
  have hpre : Walk succs keep x (s ++ [z]) z := walk_prefix_to s w
  obtain ⟨v, hv, hvz, hvm⟩ := walk_split_last s hpre
  refine ⟨v, s, hv, hvz, ?_⟩
  rcases hvm with h | h
  · exact Or.inl h
  · exact Or.inr (walk_mem_keep w v (List.mem_append.mpr (Or.inl h)))

/-- View walks over a member set inside the function are plain walks. -/
theorem walk_full_of_viewM (G : CFG) {M : List Nat}
    (hM : ∀ b ∈ M, b ∈ G.blocks) :
    ∀ {x z : Nat} {p : List Nat},
      Walk (viewSuccs G M) (fun v => M.contains v) x p z →
      Walk G.succs (blocksKeep G) x p z := by
  intro x z p w
  induction w with
  | refl => exact Walk.refl _
  | @step x0 y0 z0 p0 he hk w' ih =>
      have hy0 : y0 ∈ M := by simpa using hk
      refine Walk.step ?_ ?_ ih
      · exact (List.mem_filter.mp he).1
      · simp only [blocksKeep]
        simpa using hM y0 hy0

theorem numberList_snd_inj {q q' : Nat × Nat} :
    ∀ {base : Nat} {l : List Nat}, l.Nodup → q ∈ numberList base l →
      q' ∈ numberList base l → q.2 = q'.2 → q = q' := by
  intro base l
  induction l generalizing base with
  | nil => intro _ h; cases h
  | cons P rest ih =>
      intro hnd h h' he
      rw [List.nodup_cons] at hnd
      rcases List.mem_cons.mp h with h1 | h1 <;> rcases List.mem_cons.mp h' with h2 | h2
      · rw [h1, h2]
      · exfalso
        have := (mem_numberList_bounds h2).2.2
        rw [h1] at he
        simp at he
        rw [← he] at this
        exact hnd.1 this
      · exfalso
        have := (mem_numberList_bounds h1).2.2
        rw [h2] at he
        simp at he
        rw [he] at this
        exact hnd.1 this
      · exact ih hnd.2 h1 h2 he

theorem metaPreds_nodup (G : CFG) (hnd : G.blocks.Nodup) (E : Nat) :
    (metaPreds G E).Nodup := by
  unfold metaPreds predsOf
  exact (hnd.filter _).filter _

theorem hdrsOf_nodup (G : CFG) {scc : List Nat} (hnd : scc.Nodup) :
    (hdrsOf G scc).Nodup := hnd.filter _

/-- A forwarding spec is determined by its (source, MetaBlock index) pair. -/
theorem fwdSpecsAux_pair_inj {G : CFG} (hnd : G.blocks.Nodup) {t t' : Nat × Nat × Nat} :
    ∀ {base i0 : Nat} {l : List Nat}, t ∈ fwdSpecsAux G base i0 l →
      t' ∈ fwdSpecsAux G base i0 l → t.2.1 = t'.2.1 → t.2.2 = t'.2.2 → t = t' := by
  intro base i0 l
  induction l generalizing base i0 with
  | nil => intro h; cases h
  | cons E rest ih =>
      intro h h' he hi
      rcases List.mem_append.mp h with h1 | h1 <;> rcases List.mem_append.mp h' with h2 | h2
      · rcases List.mem_map.mp h1 with ⟨q, hq, hqe⟩
        rcases List.mem_map.mp h2 with ⟨q', hq', hqe'⟩
        subst hqe hqe'
        simp only at he
        have : q = q' := numberList_snd_inj (metaPreds_nodup G hnd E) hq hq' he
        rw [this]
      · exfalso
        rcases List.mem_map.mp h1 with ⟨q, hq, hqe⟩
        have hb2 := (mem_fwdSpecsAux h2).2.2
        obtain ⟨j, E2, _, hj2, _⟩ := hb2
        subst hqe
        simp only at hi
        omega
      · exfalso
        rcases List.mem_map.mp h2 with ⟨q, hq, hqe⟩
        have hb1 := (mem_fwdSpecsAux h1).2.2
        obtain ⟨j, E1, _, hj1, _⟩ := hb1
        subst hqe
        simp only at hi
        omega
      · exact ih h1 h2 he hi

theorem getElem?_idx_unique {l : List Nat} (hnd : l.Nodup) {i j a : Nat}
    (hi : l[i]? = some a) (hj : l[j]? = some a) : i = j := by
  have hilen : i < l.length := by
    rcases List.getElem?_eq_some.mp hi with ⟨h, _⟩
    exact h
  exact List.getElem?_inj hilen hnd (hi.trans hj.symm)

/-- The forwarding edge: a spec's source branches to its forwarding block in
the rewritten graph. -/
theorem fix_fwd_edge (G : CFG) (scc : List Nat) (hwf : FixWf G scc)
    {t : Nat × Nat × Nat} (ht : t ∈ fwdSpecs G (hdrsOf G scc) (freshB G + 2)) :
    t.2.1 ∈ G.blocks ∧ t.1 ∈ (fixSCC G scc).out.succs t.2.1 := by
  obtain ⟨hnd, hsnd, hsub, hcl, hphi⟩ := hwf
  have hbase := fwdSpecs_base G scc
  obtain ⟨_, _, j, E, hjE, hti, htm⟩ := mem_fwdSpecsAux ht
  have hPpred : t.2.1 ∈ predsOf G E := (List.mem_filter.mp htm).1
  rw [mem_predsOf] at hPpred
  obtain ⟨hPb, hEsucc⟩ := hPpred
  refine ⟨hPb, ?_⟩
  rw [fix_succs, newSuccs_old G _ _ _ _ hbase (lt_freshB G hPb)]
  obtain ⟨t', ht', hre, ht'1, ht'2⟩ :=
    redirectSlot_of_match _ _ t.2.1 E t ht rfl (by rw [hti]; simpa using hjE)
  have htt : t' = t := by
    refine fwdSpecsAux_pair_inj hnd ht' ht ht'1 ?_
    refine getElem?_idx_unique (hdrsOf_nodup G hsnd) ht'2 ?_
    rw [hti]
    simpa using hjE
  refine List.mem_map.mpr ⟨E, hEsucc, ?_⟩
  rw [hre, htt]

/-- In the rewritten graph a forwarding block's sole predecessor is its
source. -/
theorem mem_preds_fix_fwd (G : CFG) (scc : List Nat) (hwf : FixWf G scc)
    {t : Nat × Nat × Nat} (ht : t ∈ fwdSpecs G (hdrsOf G scc) (freshB G + 2)) (P : Nat) :
    P ∈ predsOf (fixSCC G scc).out t.1 ↔ P = t.2.1 := by
  have hwf' := hwf
  obtain ⟨hnd, hsnd, hsub, hcl, hphi⟩ := hwf'
  have hbase := fwdSpecs_base G scc
  have htb := fwdSpecs_base G scc t ht
  constructor
  · intro hP
    rw [mem_predsOf] at hP
    obtain ⟨hPb, hsucc⟩ := hP
    rw [fix_succs] at hsucc
    rcases mem_fix_blocks_cases G scc hPb with hold | hD | hU | ⟨t', ht', hte⟩
    · rw [newSuccs_old G _ _ _ _ hbase (lt_freshB G hold)] at hsucc
      rcases List.mem_map.mp hsucc with ⟨s, hs, hre⟩
      rcases redirectSlot_cases (fwdSpecs G (hdrsOf G scc) (freshB G + 2))
          (hdrsOf G scc) P s with hc | ⟨t'', ht'', hre2, h1, h2⟩
      · exfalso
        rw [hc] at hre
        have hsb : s ∈ G.blocks := hcl P hold s hs
        have := lt_freshB G hsb
        omega
      · rw [hre2] at hre
        have htt : t'' = t := fwdSpecsAux_id_inj ht'' ht hre
        rw [← h1, htt]
    · exfalso
      rw [hD, newSuccs_disp] at hsucc
      rcases List.mem_append.mp hsucc with h | h
      · have := lt_freshB G (hsub _ (List.mem_filter.mp h).1)
        omega
      · have : t.1 = freshB G + 1 := by simpa using h
        omega
    · exfalso
      rw [hU, newSuccs_dflt] at hsucc
      cases hsucc
    · exfalso
      rw [← hte, newSuccs_fwd G _ _ _ t'.1 hbase ⟨t', ht', rfl⟩] at hsucc
      have : t.1 = freshB G := by simpa using hsucc
      omega
  · intro h
    subst h
    rw [mem_predsOf]
    exact ⟨fix_blocks_sub G scc _ (fix_fwd_edge G scc hwf ht).1,
      (fix_fwd_edge G scc hwf ht).2⟩

/-- In the rewritten graph a header's predecessors are the Dispatcher and its
original dominated (natural-loop) predecessors. -/
theorem mem_preds_fix_hdr (G : CFG) (scc : List Nat) (hwf : FixWf G scc)
    {E : Nat} (hE : E ∈ hdrsOf G scc) (P : Nat) :
    P ∈ predsOf (fixSCC G scc).out E ↔
      P = freshB G ∨ (P ∈ predsOf G E ∧ P ∉ metaPreds G E) := by
  have hwf' := hwf
  obtain ⟨hnd, hsnd, hsub, hcl, hphi⟩ := hwf'
  have hbase := fwdSpecs_base G scc
  have hEb : E ∈ G.blocks := hsub E (List.mem_filter.mp hE).1
  have hElt := lt_freshB G hEb
  constructor
  · intro hP
    rw [mem_predsOf] at hP
    obtain ⟨hPb, hsucc⟩ := hP
    rw [fix_succs] at hsucc
    rcases mem_fix_blocks_cases G scc hPb with hold | hD | hU | ⟨t', ht', hte⟩
    · rw [newSuccs_old G _ _ _ _ hbase (lt_freshB G hold)] at hsucc
      rcases List.mem_map.mp hsucc with ⟨s, hs, hre⟩
      rcases redirectSlot_cases (fwdSpecs G (hdrsOf G scc) (freshB G + 2))
          (hdrsOf G scc) P s with hc | ⟨t'', ht'', hre2, h1, h2⟩
      · rw [hc] at hre
        rw [hre] at hs
        refine Or.inr ⟨(mem_predsOf G E P).mpr ⟨hold, hs⟩, ?_⟩
        intro hmeta
        obtain ⟨j, hj⟩ := List.mem_iff_getElem?.mp hE
        obtain ⟨f, hf⟩ := fwdSpecsAux_complete (freshB G + 2) 0 j (hdrsOf G scc) hj hmeta
        obtain ⟨t3, ht3, hre3, _, _⟩ :=
          redirectSlot_of_match (fwdSpecs G (hdrsOf G scc) (freshB G + 2))
            (hdrsOf G scc) P E (f, P, 0 + j) hf rfl (by simpa using hj)
        have hb3 := fwdSpecs_base G scc t3 ht3
        rw [hre] at hc
        rw [hc] at hre3
        omega
      · exfalso
        rw [hre2] at hre
        have := fwdSpecs_base G scc t'' ht''
        omega
    · exact Or.inl hD
    · exfalso
      rw [hU, newSuccs_dflt] at hsucc
      cases hsucc
    · exfalso
      rw [← hte, newSuccs_fwd G _ _ _ t'.1 hbase ⟨t', ht', rfl⟩] at hsucc
      have : E = freshB G := by simpa using hsucc
      omega
  · intro h
    rcases h with h | ⟨hpred, hmeta⟩
    · subst h
      rw [mem_predsOf]
      constructor
      · rw [fix_blocks]
        refine List.mem_append_right _ ?_
        simp
      · rw [fix_succs, newSuccs_disp]
        exact List.mem_append_left _ hE
    · rw [mem_predsOf] at hpred ⊢
      obtain ⟨hPb, hEs⟩ := hpred
      refine ⟨fix_blocks_sub G scc _ hPb, ?_⟩
      rw [fix_succs, newSuccs_old G _ _ _ _ hbase (lt_freshB G hPb)]
      refine List.mem_map.mpr ⟨E, hEs, ?_⟩
      unfold redirectSlot
      cases hfind : (fwdSpecs G (hdrsOf G scc) (freshB G + 2)).find?
          (fun t => t.2.1 == P && (((hdrsOf G scc)[t.2.2]?) == some E)) with
    | none => rfl
    | some t0 =>
        exfalso
        have hmem := List.mem_of_find?_eq_some hfind
        have hp := List.find?_some hfind
        simp only [Bool.and_eq_true, beq_iff_eq] at hp
        obtain ⟨j, E', hjE', hti, htm⟩ := (mem_fwdSpecsAux hmem).2.2
        have hEE : E' = E := by
          have h1 : (hdrsOf G scc)[t0.2.2]? = some E := hp.2
          rw [hti] at h1
          simp only [Nat.zero_add] at h1
          rw [hjE'] at h1
          simpa using h1
        rw [hp.1, hEE] at htm
        exact hmeta htm

/-- In the rewritten graph the defensive default's sole predecessor is the
Dispatcher. -/
theorem mem_preds_fix_dflt (G : CFG) (scc : List Nat) (hwf : FixWf G scc) (P : Nat) :
    P ∈ predsOf (fixSCC G scc).out (freshB G + 1) ↔ P = freshB G := by
  have hwf' := hwf
  obtain ⟨hnd, hsnd, hsub, hcl, hphi⟩ := hwf'
  have hbase := fwdSpecs_base G scc
  constructor
  · intro hP
    rw [mem_predsOf] at hP
    obtain ⟨hPb, hsucc⟩ := hP
    rw [fix_succs] at hsucc
    rcases mem_fix_blocks_cases G scc hPb with hold | hD | hU | ⟨t', ht', hte⟩
    · exfalso
      rw [newSuccs_old G _ _ _ _ hbase (lt_freshB G hold)] at hsucc
      rcases List.mem_map.mp hsucc with ⟨s, hs, hre⟩
      rcases redirectSlot_cases (fwdSpecs G (hdrsOf G scc) (freshB G + 2))
          (hdrsOf G scc) P s with hc | ⟨t'', ht'', hre2, h1, h2⟩
      · rw [hc] at hre
        have := lt_freshB G (hcl P hold s hs)
        omega
      · rw [hre2] at hre
        have := fwdSpecs_base G scc t'' ht''
        omega
    · exact hD
    · exfalso
      rw [hU, newSuccs_dflt] at hsucc
      cases hsucc
    · exfalso
      rw [← hte, newSuccs_fwd G _ _ _ t'.1 hbase ⟨t', ht', rfl⟩] at hsucc
      have : freshB G + 1 = freshB G := by simpa using hsucc
      omega
  · intro h
    subst h
    rw [mem_predsOf]
    constructor
    · rw [fix_blocks]
      refine List.mem_append_right _ ?_
      simp
    · rw [fix_succs, newSuccs_disp]
      exact List.mem_append_right _ (by simp)

/-- A successor, in the rewritten graph, of an original block is either an
original successor or the forwarding block of one of the block's rerouted
edges. -/
theorem succ_fix_old_cases (G : CFG) (scc : List Nat) (hwf : FixWf G scc)
    {X y : Nat} (hX : X ∈ G.blocks) (hy : y ∈ (fixSCC G scc).out.succs X) :
    (y ∈ G.succs X ∧ y ∈ G.blocks) ∨
      ∃ t ∈ fwdSpecs G (hdrsOf G scc) (freshB G + 2), y = t.1 ∧ t.2.1 = X := by
  have hwf' := hwf
  obtain ⟨hnd, hsnd, hsub, hcl, hphi⟩ := hwf'
  have hbase := fwdSpecs_base G scc
  rw [fix_succs, newSuccs_old G _ _ _ _ hbase (lt_freshB G hX)] at hy
  rcases List.mem_map.mp hy with ⟨s, hs, hre⟩
  rcases redirectSlot_cases (fwdSpecs G (hdrsOf G scc) (freshB G + 2))
      (hdrsOf G scc) X s with hc | ⟨t, ht, hre2, h1, h2⟩
  · rw [hc] at hre
    subst hre
    exact Or.inl ⟨hs, hcl X hX s hs⟩
  · rw [hre2] at hre
    exact Or.inr ⟨t, ht, hre.symm, h1⟩

theorem disp_succ_hdr (G : CFG) (scc : List Nat) {E : Nat} (hE : E ∈ hdrsOf G scc) :
    E ∈ (fixSCC G scc).out.succs (freshB G) := by
  rw [fix_succs, newSuccs_disp]
  exact List.mem_append_left _ hE

theorem fwd_succ_disp (G : CFG) (scc : List Nat)
    {t : Nat × Nat × Nat} (ht : t ∈ fwdSpecs G (hdrsOf G scc) (freshB G + 2)) :
    (fixSCC G scc).out.succs t.1 = [freshB G] := by
  rw [fix_succs]
  exact newSuccs_fwd G _ _ _ t.1 (fwdSpecs_base G scc) ⟨t, ht, rfl⟩

theorem disp_mem_fix_blocks (G : CFG) (scc : List Nat) :
    freshB G ∈ (fixSCC G scc).out.blocks := by
  rw [fix_blocks]
  refine List.mem_append_right _ ?_
  simp

theorem dflt_mem_fix_blocks (G : CFG) (scc : List Nat) :
    freshB G + 1 ∈ (fixSCC G scc).out.blocks := by
  rw [fix_blocks]
  refine List.mem_append_right _ ?_
  simp

theorem fwd_mem_fix_blocks (G : CFG) (scc : List Nat)
    {t : Nat × Nat × Nat} (ht : t ∈ fwdSpecs G (hdrsOf G scc) (freshB G + 2)) :
    t.1 ∈ (fixSCC G scc).out.blocks := by
  rw [fix_blocks]
  refine List.mem_append_right _ ?_
  refine List.mem_cons_of_mem _ (List.mem_cons_of_mem _ ?_)
  exact List.mem_map.mpr ⟨t, ht, rfl⟩

/-- Back-projection of reachability: a walk of the rewritten graph between
original blocks either projects to original reachability or detours through
the Dispatcher — reaching a rerouted source first and re-entering the
component from one of its headers. -/
theorem back_reach (G : CFG) (scc : List Nat) (hwf : FixWf G scc) :
    ∀ (n : Nat) {p : List Nat} {x z : Nat}, p.length ≤ n →
      Walk (fixSCC G scc).out.succs (blocksKeep (fixSCC G scc).out) x p z →
      x ∈ G.blocks → z ∈ G.blocks →
      ReachW G x z ∨
        ((∃ t ∈ fwdSpecs G (hdrsOf G scc) (freshB G + 2), ReachW G x t.2.1) ∧
         (∃ h ∈ hdrsOf G scc, ReachW G h z)) := by
  intro n
  induction n with
  | zero =>
      intro p x z hlen w hx hz
      have hp : p = [] := List.length_eq_zero.mp (Nat.le_zero.mp hlen)
      subst hp
      have hzx := walk_last_eq w rfl
      left
      rw [hzx]
      exact reachW_refl G x
  | succ n ih =>
      intro p x z hlen w hx hz
      cases w with
      | refl => left; exact reachW_refl G x
      | @step _ y _ p' he hk w' =>
          rcases succ_fix_old_cases G scc hwf hx he with ⟨hys, hyb⟩ | ⟨t, ht, hyt, htx⟩
          · have hrec := ih (by
                simp only [List.length_cons] at hlen
                omega) w' hyb hz
            rcases hrec with h | ⟨⟨t, ht, hr⟩, hh⟩
            · left
              exact reachW_trans (reachW_of_edge hyb hys) h
            · right
              exact ⟨⟨t, ht, reachW_trans (reachW_of_edge hyb hys) hr⟩, hh⟩
          · subst hyt
            cases w' with
            | refl =>
                exfalso
                have h1 := fwdSpecs_base G scc t ht
                have h2 := lt_freshB G hz
                omega
            | @step _ y2 _ p'' he2 hk2 w'' =>
                rw [fwd_succ_disp G scc ht] at he2
                have hy2 : y2 = freshB G := by simpa using he2
                subst hy2
                cases w'' with
                | refl =>
                    exfalso
                    have h2 := lt_freshB G hz
                    omega
                | @step _ y3 _ p''' he3 hk3 w''' =>
                    rw [fix_succs, newSuccs_disp] at he3
                    rcases List.mem_append.mp he3 with hy3h | hy3u
                    · have hy3b : y3 ∈ G.blocks :=
                        hwf.2.2.1 y3 (List.mem_filter.mp hy3h).1
                      have hrec := ih (by
                          simp only [List.length_cons] at hlen
                          omega) w''' hy3b hz
                      right
                      refine ⟨⟨t, ht, ?_⟩, ?_⟩
                      · rw [htx]
                        exact reachW_refl G x
                      · rcases hrec with h | ⟨_, hh⟩
                        · exact ⟨y3, hy3h, h⟩
                        · exact hh
                    · exfalso
                      have hy3u' : y3 = freshB G + 1 := by simpa using hy3u
                      subst hy3u'
                      cases w''' with
                      | refl =>
                          have h2 := lt_freshB G hz
                          omega
                      | step he4 hk4 w4 =>
                          rw [fix_succs, newSuccs_dflt] at he4
                          cases he4

/-- Original reachability transports into the rewritten graph. -/
theorem fix_reach_old_mpr (G : CFG) (scc : List Nat) (hwf : FixWf G scc)
    {x z : Nat} (hx : x ∈ G.blocks) (h : ReachW G x z) :
    ReachW (fixSCC G scc).out x z := by
  obtain ⟨p, hp⟩ := h
  obtain ⟨q, hq⟩ := walk_transport_fix G scc hwf hp hx
  exact ⟨q, hq⟩

/-- Reachability of the rewritten graph, between original blocks, projects
back, gluing any Dispatcher detour through the (mutually reachable)
component. -/
theorem fix_reach_old_mp (G : CFG) (scc : List Nat) (hwf : FixWf G scc)
    (hmut : ∀ a ∈ scc, ∀ b ∈ scc, ReachW G a b)
    {x z : Nat} (hx : x ∈ G.blocks) (hz : z ∈ G.blocks)
    (h : ReachW (fixSCC G scc).out x z) : ReachW G x z := by
  obtain ⟨p, hp⟩ := h
  rcases back_reach G scc hwf p.length (le_refl _) hp hx hz with
    h | ⟨⟨t, ht, hr⟩, ⟨h0, hh0, hrz⟩⟩
  · exact h
  · obtain ⟨_, _, j, E, hjE, _, htm⟩ := mem_fwdSpecsAux ht
    have hE : E ∈ hdrsOf G scc := List.getElem?_mem hjE
    have hEs : E ∈ scc := (List.mem_filter.mp hE).1
    have h0s : h0 ∈ scc := (List.mem_filter.mp hh0).1
    have hTE : t.2.1 ∈ predsOf G E := (List.mem_filter.mp htm).1
    rw [mem_predsOf] at hTE
    have hEb : E ∈ G.blocks := hwf.2.2.1 E hEs
    exact reachW_trans hr (reachW_trans (reachW_of_edge hEb hTE.2)
      (reachW_trans (hmut E hEs h0 h0s) hrz))

theorem walk_from_dflt (G : CFG) (scc : List Nat) :
    ∀ {p : List Nat} {z : Nat},
      Walk (fixSCC G scc).out.succs (blocksKeep (fixSCC G scc).out)
        (freshB G + 1) p z →
      z = freshB G + 1 := by
  intro p z w
  cases w with
  | refl => rfl
  | step he hk w' =>
      rw [fix_succs, newSuccs_dflt] at he
      cases he

theorem reach_from_disp (G : CFG) (scc : List Nat) (hwf : FixWf G scc)
    {z : Nat} (hz : z ∈ G.blocks)
    (h : ReachW (fixSCC G scc).out (freshB G) z) :
    ∃ E ∈ hdrsOf G scc, ReachW (fixSCC G scc).out E z := by
  obtain ⟨p, hp⟩ := h
  cases hp with
  | refl =>
      exfalso
      have := lt_freshB G hz
      omega
  | @step _ y _ p' he hk w' =>
      rw [fix_succs, newSuccs_disp] at he
      rcases List.mem_append.mp he with hh | hu
      · exact ⟨y, hh, ⟨p', w'⟩⟩
      · exfalso
        have hy : y = freshB G + 1 := by simpa using hu
        subst hy
        have hzu := walk_from_dflt G scc w'
        have h2 := lt_freshB G hz
        omega

theorem reach_from_fwd (G : CFG) (scc : List Nat) (hwf : FixWf G scc)
    {t : Nat × Nat × Nat} (ht : t ∈ fwdSpecs G (hdrsOf G scc) (freshB G + 2))
    {z : Nat} (hz : z ∈ G.blocks)
    (h : ReachW (fixSCC G scc).out t.1 z) :
    ∃ E ∈ hdrsOf G scc, ReachW (fixSCC G scc).out E z := by
  obtain ⟨p, hp⟩ := h
  cases hp with
  | refl =>
      exfalso
      have h1 := fwdSpecs_base G scc t ht
      have h2 := lt_freshB G hz
      omega
  | @step _ y _ p' he hk w' =>
      rw [fwd_succ_disp G scc ht] at he
      have hy : y = freshB G := by simpa using he
      subst hy
      exact reach_from_disp G scc hwf hz ⟨p', w'⟩

theorem reach_to_fwd (G : CFG) (scc : List Nat) (hwf : FixWf G scc)
    {t : Nat × Nat × Nat} (ht : t ∈ fwdSpecs G (hdrsOf G scc) (freshB G + 2))
    {x : Nat} (hx : x ∈ G.blocks)
    (h : ReachW (fixSCC G scc).out x t.1) : ReachW (fixSCC G scc).out x t.2.1 := by
  obtain ⟨p, hp⟩ := h
  have hpne : p ≠ [] := by
    intro hq
    subst hq
    have h1 := walk_last_eq hp rfl
    have h2 := fwdSpecs_base G scc t ht
    have h3 := lt_freshB G hx
    omega
  obtain ⟨v, q, hv, hvs, hvm⟩ := walk_penult hp hpne
  have hvb : v ∈ (fixSCC G scc).out.blocks := by
    rcases hvm with h | h
    · rw [h]
      exact fix_blocks_sub G scc x hx
    · simpa [blocksKeep] using h
  have hveq : v = t.2.1 :=
    (mem_preds_fix_fwd G scc hwf ht v).mp ((mem_predsOf _ _ _).mpr ⟨hvb, hvs⟩)
  rw [hveq] at hv
  exact ⟨q, hv⟩

theorem reach_to_disp (G : CFG) (scc : List Nat) (hwf : FixWf G scc)
    {x : Nat} (hx : x ∈ G.blocks)
    (h : ReachW (fixSCC G scc).out x (freshB G)) :
    ∃ t ∈ fwdSpecs G (hdrsOf G scc) (freshB G + 2),
      ReachW (fixSCC G scc).out x t.2.1 := by
  obtain ⟨p, hp⟩ := h
  have hpne : p ≠ [] := by
    intro hq
    subst hq
    have h1 := walk_last_eq hp rfl
    have h3 := lt_freshB G hx
    omega
  obtain ⟨v, q, hv, hvs, hvm⟩ := walk_penult hp hpne
  have hvb : v ∈ (fixSCC G scc).out.blocks := by
    rcases hvm with h | h
    · rw [h]
      exact fix_blocks_sub G scc x hx
    · simpa [blocksKeep] using h
  have hvp : v ∈ predsOf (fixSCC G scc).out (freshB G) :=
    (mem_predsOf _ _ _).mpr ⟨hvb, hvs⟩
  rw [preds_fix_disp G scc hwf] at hvp
  obtain ⟨t, ht, hte⟩ := List.mem_map.mp hvp
  refine ⟨t, ht, reach_to_fwd G scc hwf ht hx ?_⟩
  refine ⟨q, ?_⟩
  rw [hte]
  exact hv

/-- An irreducible component always has a rerouted source reachable from
inside it: the internal MetaBlock predecessor produced by two mutually
reachable headers. -/
theorem exists_internal_source (G : CFG) (scc : List Nat)
    (hnd : scc.Nodup) (hsub : ∀ b ∈ scc, b ∈ G.blocks)
    (hmut : ∀ a ∈ scc, ∀ b ∈ scc, ReachW G a b)
    (hreach : ∀ b ∈ G.blocks, b ∈ reachSet G)
    (hgate : 2 ≤ (hdrsOf G scc).length) {A : Nat} (hA : A ∈ scc) :
    ∃ t ∈ fwdSpecs G (hdrsOf G scc) (freshB G + 2), ReachW G A t.2.1 := by
  obtain ⟨E1, hE1, E2, hE2, hne⟩ := two_distinct_of_nodup (hdrsOf_nodup G hnd) hgate
  have hE1s : E1 ∈ scc := (List.mem_filter.mp hE1).1
  have hE2s : E2 ∈ scc := (List.mem_filter.mp hE2).1
  have hE1b := hsub E1 hE1s
  have hE2b := hsub E2 hE2s
  rcases mutual_pair_internal_metaPred G hE1b hE2b hne (hmut E1 hE1s E2 hE2s)
      (hmut E2 hE2s E1 hE1s) (hreach E2 hE2b) with ⟨P, hP, hEP, _⟩ | ⟨P, hP, hEP, _⟩
  · obtain ⟨j, hj⟩ := List.mem_iff_getElem?.mp hE1
    obtain ⟨f, hf⟩ := fwdSpecsAux_complete (freshB G + 2) 0 j (hdrsOf G scc) hj hP
    exact ⟨(f, P, 0 + j), hf, reachW_trans (hmut A hA E1 hE1s) hEP⟩
  · obtain ⟨j, hj⟩ := List.mem_iff_getElem?.mp hE2
    obtain ⟨f, hf⟩ := fwdSpecsAux_complete (freshB G + 2) 0 j (hdrsOf G scc) hj hP
    exact ⟨(f, P, 0 + j), hf, reachW_trans (hmut A hA E2 hE2s) hEP⟩

theorem reach_fix_to_disp (G : CFG) (scc : List Nat)
    (hw : WfG G) (hnd : scc.Nodup) (hsub : ∀ b ∈ scc, b ∈ G.blocks)
    (hmut : ∀ a ∈ scc, ∀ b ∈ scc, ReachW G a b)
    (hreach : ∀ b ∈ G.blocks, b ∈ reachSet G)
    (hgate : 2 ≤ (hdrsOf G scc).length) {b : Nat} (hb : b ∈ scc) :
    ReachW (fixSCC G scc).out b (freshB G) := by
  have hwf := fixWf_of_wfG hw hnd hsub
  obtain ⟨t, ht, hr⟩ := exists_internal_source G scc hnd hsub hmut hreach hgate hb
  have h1 : ReachW (fixSCC G scc).out b t.2.1 :=
    fix_reach_old_mpr G scc hwf (hsub b hb) hr
  have h2 : ReachW (fixSCC G scc).out t.2.1 t.1 :=
    reachW_of_edge (fwd_mem_fix_blocks G scc ht) (fix_fwd_edge G scc hwf ht).2
  have h3 : ReachW (fixSCC G scc).out t.1 (freshB G) :=
    reachW_of_edge (disp_mem_fix_blocks G scc)
      (by rw [fwd_succ_disp G scc ht]; simp)
  exact reachW_trans h1 (reachW_trans h2 h3)

theorem reach_fix_disp_to (G : CFG) (scc : List Nat)
    (hw : WfG G) (hnd : scc.Nodup) (hsub : ∀ b ∈ scc, b ∈ G.blocks)
    (hmut : ∀ a ∈ scc, ∀ b ∈ scc, ReachW G a b)
    (hgate : 2 ≤ (hdrsOf G scc).length) {b : Nat} (hb : b ∈ scc) :
    ReachW (fixSCC G scc).out (freshB G) b := by
  have hwf := fixWf_of_wfG hw hnd hsub
  have hne : hdrsOf G scc ≠ [] := by
    intro h
    rw [h] at hgate
    simp at hgate
  obtain ⟨E, hE⟩ := List.exists_mem_of_ne_nil _ hne
  have hEs : E ∈ scc := (List.mem_filter.mp hE).1
  have h1 : ReachW (fixSCC G scc).out (freshB G) E :=
    reachW_of_edge (fix_blocks_sub G scc E (hsub E hEs)) (disp_succ_hdr G scc hE)
  exact reachW_trans h1 (fix_reach_old_mpr G scc hwf (hsub E hEs) (hmut E hEs b hb))

/-- Between original blocks, component membership is untouched by a fix. -/
theorem mem_scc_fix_old_iff (G : CFG) (scc : List Nat)
    (hw : WfG G) (hnd : scc.Nodup) (hsub : ∀ b ∈ scc, b ∈ G.blocks)
    (hmut : ∀ a ∈ scc, ∀ b ∈ scc, ReachW G a b)
    {B B' : Nat} (hB : B ∈ G.blocks) (hB' : B' ∈ G.blocks) :
    B' ∈ sccOfIn (fixSCC G scc).out (fixSCC G scc).out.blocks B ↔
      B' ∈ sccOfIn G G.blocks B := by
  have hwf := fixWf_of_wfG hw hnd hsub
  rw [mem_sccFull_iff _ (fix_succs_closed G scc hwf) (fix_blocks_sub G scc B hB),
      mem_sccFull_iff G hw.2.2.1 hB]
  constructor
  · intro ⟨_, h1, h2⟩
    exact ⟨hB', fix_reach_old_mp G scc hwf hmut hB hB' h1,
      fix_reach_old_mp G scc hwf hmut hB' hB h2⟩
  · intro ⟨_, h1, h2⟩
    exact ⟨fix_blocks_sub G scc B' hB', fix_reach_old_mpr G scc hwf hB h1,
      fix_reach_old_mpr G scc hwf hB' h2⟩

/-- The Dispatcher joins the component it was created for. -/
theorem disp_mem_scc_fix (G : CFG) (scc : List Nat)
    (hw : WfG G) (hnd : scc.Nodup) (hsub : ∀ b ∈ scc, b ∈ G.blocks)
    (hmut : ∀ a ∈ scc, ∀ b ∈ scc, ReachW G a b)
    (hreach : ∀ b ∈ G.blocks, b ∈ reachSet G)
    (hgate : 2 ≤ (hdrsOf G scc).length) {A : Nat} (hA : A ∈ scc) :
    freshB G ∈ sccOfIn (fixSCC G scc).out (fixSCC G scc).out.blocks A := by
  have hwf := fixWf_of_wfG hw hnd hsub
  rw [mem_sccFull_iff _ (fix_succs_closed G scc hwf)
      (fix_blocks_sub G scc A (hsub A hA))]
  exact ⟨disp_mem_fix_blocks G scc,
    reach_fix_to_disp G scc hw hnd hsub hmut hreach hgate hA,
    reach_fix_disp_to G scc hw hnd hsub hmut hgate hA⟩

/-- A forwarding block joins the component exactly when its source is
reachable from the component. -/
theorem fwd_mem_scc_fix_iff (G : CFG) (scc : List Nat)
    (hw : WfG G) (hnd : scc.Nodup) (hsub : ∀ b ∈ scc, b ∈ G.blocks)
    (hmut : ∀ a ∈ scc, ∀ b ∈ scc, ReachW G a b)
    (hgate : 2 ≤ (hdrsOf G scc).length)
    {t : Nat × Nat × Nat} (ht : t ∈ fwdSpecs G (hdrsOf G scc) (freshB G + 2))
    {A : Nat} (hA : A ∈ scc) :
    t.1 ∈ sccOfIn (fixSCC G scc).out (fixSCC G scc).out.blocks A ↔
      ReachW G A t.2.1 := by
  have hwf := fixWf_of_wfG hw hnd hsub
  have hAb := hsub A hA
  rw [mem_sccFull_iff _ (fix_succs_closed G scc hwf) (fix_blocks_sub G scc A hAb)]
  constructor
  · intro ⟨_, h1, _⟩
    have h2 := reach_to_fwd G scc hwf ht hAb h1
    exact fix_reach_old_mp G scc hwf hmut hAb (fix_fwd_edge G scc hwf ht).1 h2
  · intro hr
    refine ⟨fwd_mem_fix_blocks G scc ht, ?_, ?_⟩
    · exact reachW_trans (fix_reach_old_mpr G scc hwf hAb hr)
        (reachW_of_edge (fwd_mem_fix_blocks G scc ht) (fix_fwd_edge G scc hwf ht).2)
    · refine reachW_trans (reachW_of_edge (disp_mem_fix_blocks G scc)
        (by rw [fwd_succ_disp G scc ht]; simp)) ?_
      exact reach_fix_disp_to G scc hw hnd hsub hmut hgate hA

/-- Reaching a rerouted source and being reached from a header glue, through
the component, into mutual reachability with it. -/
theorem glue_outside (G : CFG) (scc : List Nat)
    (hw : WfG G) (hnd : scc.Nodup) (hsub : ∀ b ∈ scc, b ∈ G.blocks)
    (hmut : ∀ a ∈ scc, ∀ b ∈ scc, ReachW G a b)
    {A B : Nat} (hA : A ∈ scc) (hB : B ∈ G.blocks)
    {t : Nat × Nat × Nat} (ht : t ∈ fwdSpecs G (hdrsOf G scc) (freshB G + 2))
    (hr1 : ReachW (fixSCC G scc).out B t.2.1)
    {E : Nat} (hE : E ∈ hdrsOf G scc) (hr2 : ReachW (fixSCC G scc).out E B) :
    ReachW G A B ∧ ReachW G B A := by
  have hwf := fixWf_of_wfG hw hnd hsub
  have hEs : E ∈ scc := (List.mem_filter.mp hE).1
  have hT := fix_reach_old_mp G scc hwf hmut hB (fix_fwd_edge G scc hwf ht).1 hr1
  have hEB := fix_reach_old_mp G scc hwf hmut (hsub E hEs) hB hr2
  obtain ⟨_, _, j, E', hjE', _, htm⟩ := mem_fwdSpecsAux ht
  have hE' : E' ∈ hdrsOf G scc := List.getElem?_mem hjE'
  have hE's : E' ∈ scc := (List.mem_filter.mp hE').1
  have hTE : t.2.1 ∈ predsOf G E' := (List.mem_filter.mp htm).1
  rw [mem_predsOf] at hTE
  exact ⟨reachW_trans (hmut A hA E hEs) hEB,
    reachW_trans hT (reachW_trans (reachW_of_edge (hsub E' hE's) hTE.2)
      (hmut E' hE's A hA))⟩

/-- A component of the rewritten graph based at a block outside the fixed
component's class contains no new block. -/
theorem new_not_mem_scc_fix_outside (G : CFG) (scc : List Nat)
    (hw : WfG G) (hnd : scc.Nodup) (hsub : ∀ b ∈ scc, b ∈ G.blocks)
    (hmut : ∀ a ∈ scc, ∀ b ∈ scc, ReachW G a b)
    {A B : Nat} (hA : A ∈ scc) (hB : B ∈ G.blocks)
    (hout : ¬(ReachW G A B ∧ ReachW G B A)) :
    ∀ b ∈ sccOfIn (fixSCC G scc).out (fixSCC G scc).out.blocks B, b ∈ G.blocks := by
  have hwf := fixWf_of_wfG hw hnd hsub
  intro b hb
  rw [mem_sccFull_iff _ (fix_succs_closed G scc hwf) (fix_blocks_sub G scc B hB)] at hb
  obtain ⟨hbb, h1, h2⟩ := hb
  rcases mem_fix_blocks_cases G scc hbb with hold | hD | hU | ⟨t, ht, hte⟩
  · exact hold
  · exfalso
    rw [hD] at h1 h2
    obtain ⟨t, ht, hr1⟩ := reach_to_disp G scc hwf hB h1
    obtain ⟨E, hE, hr2⟩ := reach_from_disp G scc hwf hB h2
    exact hout (glue_outside G scc hw hnd hsub hmut hA hB ht hr1 hE hr2)
  · exfalso
    rw [hU] at h2
    obtain ⟨p, hp⟩ := h2
    have hzu := walk_from_dflt G scc hp
    have h3 := lt_freshB G hB
    omega
  · exfalso
    rw [← hte] at h1 h2
    have hr1 := reach_to_fwd G scc hwf ht hB h1
    obtain ⟨E, hE, hr2⟩ := reach_from_fwd G scc hwf ht hB h2
    exact hout (glue_outside G scc hw hnd hsub hmut hA hB ht hr1 hE hr2)

theorem filter_append_eq {l1 l2 : List Nat} {p q : Nat → Bool}
    (hdisj : ∀ b ∈ l2, b ∉ l1)
    (hiff : ∀ b, b ∈ (l1 ++ l2).filter p ↔ b ∈ l1.filter q) :
    (l1 ++ l2).filter p = l1.filter q := by
  rw [List.filter_append]
  have h2 : l2.filter p = [] := by
    rw [List.filter_eq_nil_iff]
    intro b hb hpb
    have hmem : b ∈ (l1 ++ l2).filter p := by
      rw [List.filter_append]
      exact List.mem_append_right _ (List.mem_filter.mpr ⟨hb, hpb⟩)
    exact (hdisj b hb) (List.mem_filter.mp ((hiff b).mp hmem)).1
  rw [h2, List.append_nil]
  refine List.filter_congr ?_
  intro b hb
  rw [Bool.eq_iff_iff]
  constructor
  · intro hp
    refine (List.mem_filter.mp ((hiff b).mp ?_)).2
    rw [List.filter_append]
    exact List.mem_append_left _ (List.mem_filter.mpr ⟨hb, hp⟩)
  · intro hq
    exact (List.mem_filter.mp ((hiff b).mpr (List.mem_filter.mpr ⟨hb, hq⟩))).2

theorem new_blocks_not_old (G : CFG) (scc : List Nat) :
    ∀ b ∈ freshB G :: (freshB G + 1) ::
        (fwdSpecs G (hdrsOf G scc) (freshB G + 2)).map (fun t => t.1),
      b ∉ G.blocks := by
  intro b hb hbold
  have hlt := lt_freshB G hbold
  rcases List.mem_cons.mp hb with h | h
  · omega
  rcases List.mem_cons.mp h with h | h
  · omega
  · obtain ⟨t, ht, hte⟩ := List.mem_map.mp h
    have := fwdSpecs_base G scc t ht
    omega

/-- An untouched component of the rewritten graph is, as a list, the original
component. -/
theorem scc_fix_stable (G : CFG) (scc : List Nat)
    (hw : WfG G) (hnd : scc.Nodup) (hsub : ∀ b ∈ scc, b ∈ G.blocks)
    (hmut : ∀ a ∈ scc, ∀ b ∈ scc, ReachW G a b)
    {A B : Nat} (hA : A ∈ scc) (hB : B ∈ G.blocks)
    (hout : ¬(ReachW G A B ∧ ReachW G B A)) :
    sccOfIn (fixSCC G scc).out (fixSCC G scc).out.blocks B =
      sccOfIn G G.blocks B := by
  have hiff : ∀ b, b ∈ sccOfIn (fixSCC G scc).out (fixSCC G scc).out.blocks B ↔
      b ∈ sccOfIn G G.blocks B := by
    intro b
    constructor
    · intro hmem
      have hbold : b ∈ G.blocks :=
        new_not_mem_scc_fix_outside G scc hw hnd hsub hmut hA hB hout b hmem
      exact (mem_scc_fix_old_iff G scc hw hnd hsub hmut hB hbold).mp hmem
    · intro hmem
      have hbold : b ∈ G.blocks := sccOfIn_subset G G.blocks B b hmem
      exact (mem_scc_fix_old_iff G scc hw hnd hsub hmut hB hbold).mpr hmem
  exact filter_append_eq (new_blocks_not_old G scc) hiff

/-- Members of an untouched component avoid the fixed component. -/
theorem scc_old_outside_avoids (G : CFG) (scc : List Nat)
    (hw : WfG G) (hsub : ∀ b ∈ scc, b ∈ G.blocks)
    (hmut : ∀ a ∈ scc, ∀ b ∈ scc, ReachW G a b)
    {A B : Nat} (hA : A ∈ scc) (hB : B ∈ G.blocks)
    (hout : ¬(ReachW G A B ∧ ReachW G B A)) :
    ∀ b ∈ sccOfIn G G.blocks B, b ∉ scc := by
  intro b hb hbs
  rw [mem_sccFull_iff G hw.2.2.1 hB] at hb
  obtain ⟨hbb, h1, h2⟩ := hb
  exact hout ⟨reachW_trans (hmut A hA b hbs) h2, reachW_trans h1 (hmut b hbs A hA)⟩

/-- The header list of an untouched component is also untouched. -/
theorem hdrs_fix_stable (G : CFG) (scc : List Nat)
    (hw : WfG G) (hnd : scc.Nodup) (hsub : ∀ b ∈ scc, b ∈ G.blocks)
    (hmut : ∀ a ∈ scc, ∀ b ∈ scc, ReachW G a b)
    {A B : Nat} (hA : A ∈ scc) (hB : B ∈ G.blocks)
    (hout : ¬(ReachW G A B ∧ ReachW G B A)) :
    hdrsOf (fixSCC G scc).out (sccOfIn G G.blocks B) =
      hdrsOf G (sccOfIn G G.blocks B) := by
  have hwf := fixWf_of_wfG hw hnd hsub
  refine hdrsOf_stable G scc hwf (fun b hb => sccOfIn_subset G G.blocks B b hb) ?_
  intro b hb hbh
  exact scc_old_outside_avoids G scc hw hsub hmut hA hB hout b hb
    ((List.mem_filter.mp hbh).1)

theorem scc_sub_SF (G : CFG) (scc : List Nat)
    (hw : WfG G) (hsub : ∀ b ∈ scc, b ∈ G.blocks)
    (hmut : ∀ a ∈ scc, ∀ b ∈ scc, ReachW G a b)
    {A : Nat} (hA : A ∈ scc) :
    ∀ b ∈ scc, b ∈ sccOfIn G G.blocks A := by
  intro b hb
  rw [mem_sccFull_iff G hw.2.2.1 (hsub A hA)]
  exact ⟨hsub b hb, hmut A hA b hb, hmut b hb A hA⟩

theorem spec_src_reaches (G : CFG) (scc : List Nat)
    (hsub : ∀ b ∈ scc, b ∈ G.blocks)
    (hmut : ∀ a ∈ scc, ∀ b ∈ scc, ReachW G a b)
    {A : Nat} (hA : A ∈ scc)
    {t : Nat × Nat × Nat} (ht : t ∈ fwdSpecs G (hdrsOf G scc) (freshB G + 2)) :
    ReachW G t.2.1 A := by
  obtain ⟨_, _, j, E', hjE', _, htm⟩ := mem_fwdSpecsAux ht
  have hE' : E' ∈ hdrsOf G scc := List.getElem?_mem hjE'
  have hE's : E' ∈ scc := (List.mem_filter.mp hE').1
  have hTE : t.2.1 ∈ predsOf G E' := (List.mem_filter.mp htm).1
  rw [mem_predsOf] at hTE
  exact reachW_trans (reachW_of_edge (hsub E' hE's) hTE.2) (hmut E' hE's A hA)

theorem spec_src_in_SF (G : CFG) (scc : List Nat)
    (hw : WfG G) (hsub : ∀ b ∈ scc, b ∈ G.blocks)
    (hmut : ∀ a ∈ scc, ∀ b ∈ scc, ReachW G a b)
    {A : Nat} (hA : A ∈ scc)
    {t : Nat × Nat × Nat} (ht : t ∈ fwdSpecs G (hdrsOf G scc) (freshB G + 2))
    (hr : ReachW G A t.2.1) : t.2.1 ∈ sccOfIn G G.blocks A := by
  rw [mem_sccFull_iff G hw.2.2.1 (hsub A hA)]
  obtain ⟨_, _, j, E', hjE', _, htm⟩ := mem_fwdSpecsAux ht
  have hTE : t.2.1 ∈ predsOf G E' := (List.mem_filter.mp htm).1
  rw [mem_predsOf] at hTE
  exact ⟨hTE.1, hr, spec_src_reaches G scc hsub hmut hA ht⟩

/-- Any header, in the rewritten graph, of the component's class is either
the Dispatcher or a surviving header of the original class that was not a
header of the fixed component. -/
theorem X_header_cases (G : CFG) (scc : List Nat)
    (hw : WfG G) (hnd : scc.Nodup) (hsub : ∀ b ∈ scc, b ∈ G.blocks)
    (hmut : ∀ a ∈ scc, ∀ b ∈ scc, ReachW G a b)
    (hreach : ∀ b ∈ G.blocks, b ∈ reachSet G)
    (hgate : 2 ≤ (hdrsOf G scc).length) {A : Nat} (hA : A ∈ scc)
    {b : Nat}
    (hb : b ∈ hdrsOf (fixSCC G scc).out
        (sccOfIn (fixSCC G scc).out (fixSCC G scc).out.blocks A)) :
    b = freshB G ∨
      (b ∈ hdrsOf G (sccOfIn G G.blocks A) ∧ b ∉ hdrsOf G scc) := by
  have hwf := fixWf_of_wfG hw hnd hsub
  have hAb := hsub A hA
  obtain ⟨hbX, hany⟩ := List.mem_filter.mp hb
  rw [List.any_eq_true] at hany
  obtain ⟨P, hP, hPo⟩ := hany
  have hPnX : P ∉ sccOfIn (fixSCC G scc).out (fixSCC G scc).out.blocks A := by
    simpa using hPo
  have hbB' : b ∈ (fixSCC G scc).out.blocks := sccOfIn_subset _ _ _ b hbX
  rcases mem_fix_blocks_cases G scc hbB' with hold | hD | hU | ⟨t, ht, hte⟩
  · have hbSF : b ∈ sccOfIn G G.blocks A :=
      (mem_scc_fix_old_iff G scc hw hnd hsub hmut hAb hold).mp hbX
    by_cases hbh : b ∈ hdrsOf G scc
    · exfalso
      rcases (mem_preds_fix_hdr G scc hwf hbh P).mp hP with hPD | ⟨hP1, hP2⟩
      · rw [hPD] at hPnX
        exact hPnX (disp_mem_scc_fix G scc hw hnd hsub hmut hreach hgate hA)
      · have hdom := not_mem_metaPreds_dom G hP1 hP2
        have hPb : P ∈ G.blocks := ((mem_predsOf G b P).mp hP1).1
        have hbP : ReachW G b P := dom_reach_walk G hdom (hreach P hPb)
        have hPbk : ReachW G P b :=
          reachW_of_edge (hsub b (List.mem_filter.mp hbh).1)
            ((mem_predsOf G b P).mp hP1).2
        have hbSF' := (mem_sccFull_iff G hw.2.2.1 hAb).mp hbSF
        have hPSF : P ∈ sccOfIn G G.blocks A := by
          rw [mem_sccFull_iff G hw.2.2.1 hAb]
          exact ⟨hPb, reachW_trans hbSF'.2.1 hbP, reachW_trans hPbk hbSF'.2.2⟩
        exact hPnX ((mem_scc_fix_old_iff G scc hw hnd hsub hmut hAb hPb).mpr hPSF)
    · refine Or.inr ⟨?_, hbh⟩
      rw [predsOf_stable G scc hwf hold hbh] at hP
      have hPb : P ∈ G.blocks := ((mem_predsOf G b P).mp hP).1
      have hPnSF : P ∉ sccOfIn G G.blocks A := by
        intro hmem
        exact hPnX ((mem_scc_fix_old_iff G scc hw hnd hsub hmut hAb hPb).mpr hmem)
      refine List.mem_filter.mpr ⟨hbSF, ?_⟩
      rw [List.any_eq_true]
      exact ⟨P, hP, by simpa using hPnSF⟩
  · exact Or.inl hD
  · exfalso
    rw [hU] at hbX
    rw [mem_sccFull_iff _ (fix_succs_closed G scc hwf)
        (fix_blocks_sub G scc A hAb)] at hbX
    obtain ⟨_, _, h2⟩ := hbX
    obtain ⟨p, hp⟩ := h2
    have hzu := walk_from_dflt G scc hp
    have := lt_freshB G hAb
    omega
  · exfalso
    have hPT : P = t.2.1 := by
      rw [← hte] at hP
      exact (mem_preds_fix_fwd G scc hwf ht P).mp hP
    rw [← hte] at hbX
    have hr : ReachW G A t.2.1 :=
      (fwd_mem_scc_fix_iff G scc hw hnd hsub hmut hgate ht hA).mp hbX
    have hTSF := spec_src_in_SF G scc hw hsub hmut hA ht hr
    have hTb : t.2.1 ∈ G.blocks := sccOfIn_subset G G.blocks A _ hTSF
    rw [hPT] at hPnX
    exact hPnX ((mem_scc_fix_old_iff G scc hw hnd hsub hmut hAb hTb).mpr hTSF)

/-- If the Dispatcher is a header of the component's class, some rerouted
source is not reachable from the class. -/
theorem disp_header_witness (G : CFG) (scc : List Nat)
    (hw : WfG G) (hnd : scc.Nodup) (hsub : ∀ b ∈ scc, b ∈ G.blocks)
    (hmut : ∀ a ∈ scc, ∀ b ∈ scc, ReachW G a b)
    (hgate : 2 ≤ (hdrsOf G scc).length) {A : Nat} (hA : A ∈ scc)
    (hb : freshB G ∈ hdrsOf (fixSCC G scc).out
        (sccOfIn (fixSCC G scc).out (fixSCC G scc).out.blocks A)) :
    ∃ t ∈ fwdSpecs G (hdrsOf G scc) (freshB G + 2), ¬ReachW G A t.2.1 := by
  have hwf := fixWf_of_wfG hw hnd hsub
  obtain ⟨_, hany⟩ := List.mem_filter.mp hb
  rw [List.any_eq_true] at hany
  obtain ⟨P, hP, hPo⟩ := hany
  have hPnX : P ∉ sccOfIn (fixSCC G scc).out (fixSCC G scc).out.blocks A := by
    simpa using hPo
  rw [preds_fix_disp G scc hwf] at hP
  obtain ⟨t, ht, hte⟩ := List.mem_map.mp hP
  refine ⟨t, ht, ?_⟩
  intro hr
  have := (fwd_mem_scc_fix_iff G scc hw hnd hsub hmut hgate ht hA).mpr hr
  rw [hte] at this
  exact hPnX this

/-- The defensive default is a component of its own. -/
theorem scc_fix_dflt_members (G : CFG) (scc : List Nat) (hwf : FixWf G scc) :
    ∀ b ∈ sccOfIn (fixSCC G scc).out (fixSCC G scc).out.blocks (freshB G + 1),
      b = freshB G + 1 := by
  intro b hb
  rw [mem_sccFull_iff _ (fix_succs_closed G scc hwf)
      (dflt_mem_fix_blocks G scc)] at hb
  obtain ⟨_, h1, _⟩ := hb
  obtain ⟨p, hp⟩ := h1
  exact walk_from_dflt G scc hp

/-- A detour back into a forwarding block passes through its source. -/
theorem reach_fwd_back (G : CFG) (scc : List Nat) (hwf : FixWf G scc)
    {t : Nat × Nat × Nat} (ht : t ∈ fwdSpecs G (hdrsOf G scc) (freshB G + 2))
    {x : Nat} {p : List Nat} (hx : x ∈ (fixSCC G scc).out.blocks)
    (hp : Walk (fixSCC G scc).out.succs (blocksKeep (fixSCC G scc).out) x p t.1)
    (hpne : p ≠ []) : ReachW (fixSCC G scc).out x t.2.1 := by
  obtain ⟨v, q, hv, hvs, hvm⟩ := walk_penult hp hpne
  have hvb : v ∈ (fixSCC G scc).out.blocks := by
    rcases hvm with h | h
    · rw [h]
      exact hx
    · simpa [blocksKeep] using h
  have hveq : v = t.2.1 :=
    (mem_preds_fix_fwd G scc hwf ht v).mp ((mem_predsOf _ _ _).mpr ⟨hvb, hvs⟩)
  rw [hveq] at hv
  exact ⟨q, hv⟩

theorem fwd_back_contra (G : CFG) (scc : List Nat)
    (hw : WfG G) (hnd : scc.Nodup) (hsub : ∀ b ∈ scc, b ∈ G.blocks)
    (hmut : ∀ a ∈ scc, ∀ b ∈ scc, ReachW G a b)
    {A : Nat} (hA : A ∈ scc)
    {t : Nat × Nat × Nat} (ht : t ∈ fwdSpecs G (hdrsOf G scc) (freshB G + 2))
    (hnr : ¬ReachW G A t.2.1)
    {E : Nat} (hE : E ∈ hdrsOf G scc)
    (hr2 : ReachW (fixSCC G scc).out E t.2.1) : False := by
  have hwf := fixWf_of_wfG hw hnd hsub
  have hTb : t.2.1 ∈ G.blocks := (fix_fwd_edge G scc hwf ht).1
  have hEs : E ∈ scc := (List.mem_filter.mp hE).1
  have hET := fix_reach_old_mp G scc hwf hmut (hsub E hEs) hTb hr2
  exact hnr (reachW_trans (hmut A hA E hEs) hET)

/-- A forwarding block whose source the component does not reach is a
component of its own. -/
theorem scc_fix_fwd_members (G : CFG) (scc : List Nat)
    (hw : WfG G) (hnd : scc.Nodup) (hsub : ∀ b ∈ scc, b ∈ G.blocks)
    (hmut : ∀ a ∈ scc, ∀ b ∈ scc, ReachW G a b)
    {A : Nat} (hA : A ∈ scc)
    {t : Nat × Nat × Nat} (ht : t ∈ fwdSpecs G (hdrsOf G scc) (freshB G + 2))
    (hnr : ¬ReachW G A t.2.1) :
    ∀ b ∈ sccOfIn (fixSCC G scc).out (fixSCC G scc).out.blocks t.1, b = t.1 := by
  have hwf := fixWf_of_wfG hw hnd hsub
  have hbase := fwdSpecs_base G scc t ht
  have hTb : t.2.1 ∈ G.blocks := (fix_fwd_edge G scc hwf ht).1
  intro b hb
  rw [mem_sccFull_iff _ (fix_succs_closed G scc hwf)
      (fwd_mem_fix_blocks G scc ht)] at hb
  obtain ⟨hbb, h1, h2⟩ := hb
  rcases mem_fix_blocks_cases G scc hbb with hold | hD | hU | ⟨t', ht', hte⟩
  · exfalso
    obtain ⟨E, hE, hr2⟩ := reach_from_fwd G scc hwf ht hold h1
    have hr1 := reach_to_fwd G scc hwf ht hold h2
    have hAb := glue_outside G scc hw hnd hsub hmut hA hold ht hr1 hE hr2
    have hbT := fix_reach_old_mp G scc hwf hmut hold
      (fix_fwd_edge G scc hwf ht).1 hr1
    exact hnr (reachW_trans hAb.1 hbT)
  · exfalso
    rw [hD] at h2
    obtain ⟨p, hp⟩ := h2
    have hpne : p ≠ [] := by
      intro hq
      subst hq
      have h3 := walk_last_eq hp rfl
      omega
    have hDT := reach_fwd_back G scc hwf ht (disp_mem_fix_blocks G scc) hp hpne
    obtain ⟨q2, hq2⟩ := hDT
    obtain ⟨E, hE, hr2⟩ := reach_from_disp G scc hwf hTb ⟨q2, hq2⟩
    exact fwd_back_contra G scc hw hnd hsub hmut hA ht hnr hE hr2
  · exfalso
    rw [hU] at h2
    obtain ⟨p, hp⟩ := h2
    have hzu := walk_from_dflt G scc hp
    omega
  · rw [← hte] at h2
    obtain ⟨p, hp⟩ := h2
    by_cases hp0 : p = []
    · rw [← hte]
      exact (walk_last_eq hp hp0).symm
    · exfalso
      have hTT := reach_fwd_back G scc hwf ht (fwd_mem_fix_blocks G scc ht') hp hp0
      obtain ⟨q2, hq2⟩ := hTT
      obtain ⟨E, hE, hr2⟩ := reach_from_fwd G scc hwf ht' hTb ⟨q2, hq2⟩
      exact fwd_back_contra G scc hw hnd hsub hmut hA ht hnr hE hr2

/-- The surviving-header alternative is impossible when the original class
was contained in the fixed component. -/
theorem no_surviving_header_full (G : CFG) (scc : List Nat)
    (hw : WfG G) (hsub : ∀ b ∈ scc, b ∈ G.blocks)
    (hmut : ∀ a ∈ scc, ∀ b ∈ scc, ReachW G a b)
    {A : Nat} (hA : A ∈ scc)
    (hfull : ∀ b ∈ sccOfIn G G.blocks A, b ∈ scc)
    {b : Nat} (hb : b ∈ hdrsOf G (sccOfIn G G.blocks A))
    (hbh : b ∉ hdrsOf G scc) : False := by
  obtain ⟨hbSF, hany⟩ := List.mem_filter.mp hb
  rw [List.any_eq_true] at hany
  obtain ⟨Q, hQ, hQo⟩ := hany
  have hQn : Q ∉ sccOfIn G G.blocks A := by simpa using hQo
  have hbs : b ∈ scc := hfull b hbSF
  have hQns : Q ∉ scc := fun hQs =>
    hQn (scc_sub_SF G scc hw hsub hmut hA Q hQs)
  refine hbh (List.mem_filter.mpr ⟨hbs, ?_⟩)
  rw [List.any_eq_true]
  exact ⟨Q, hQ, by simpa using hQns⟩

/-- If some rerouted source is unreachable from the class, its MetaBlock's
entry is a header of the original class. -/
theorem unreachable_source_header (G : CFG) (scc : List Nat)
    (hw : WfG G) (hsub : ∀ b ∈ scc, b ∈ G.blocks)
    (hmut : ∀ a ∈ scc, ∀ b ∈ scc, ReachW G a b)
    {A : Nat} (hA : A ∈ scc)
    {t : Nat × Nat × Nat} (ht : t ∈ fwdSpecs G (hdrsOf G scc) (freshB G + 2))
    (hnr : ¬ReachW G A t.2.1) :
    ∃ E ∈ hdrsOf G scc, E ∈ hdrsOf G (sccOfIn G G.blocks A) := by
  obtain ⟨_, _, j, E, hjE, _, htm⟩ := mem_fwdSpecsAux ht
  have hE : E ∈ hdrsOf G scc := List.getElem?_mem hjE
  have hEs : E ∈ scc := (List.mem_filter.mp hE).1
  have hTE : t.2.1 ∈ predsOf G E := (List.mem_filter.mp htm).1
  refine ⟨E, hE, List.mem_filter.mpr ⟨scc_sub_SF G scc hw hsub hmut hA E hEs, ?_⟩⟩
  rw [List.any_eq_true]
  refine ⟨t.2.1, hTE, ?_⟩
  have hTn : t.2.1 ∉ sccOfIn G G.blocks A := by
    intro hmem
    rw [mem_sccFull_iff G hw.2.2.1 (hsub A hA)] at hmem
    exact hnr hmem.2.1
  simpa using hTn

/-- After a fix, the component's class has at most one header. -/
theorem fix_X_clean (G : CFG) (scc : List Nat)
    (hw : WfG G) (hnd : scc.Nodup) (hsub : ∀ b ∈ scc, b ∈ G.blocks)
    (hmut : ∀ a ∈ scc, ∀ b ∈ scc, ReachW G a b)
    (hreach : ∀ b ∈ G.blocks, b ∈ reachSet G)
    (hgate : 2 ≤ (hdrsOf G scc).length) {A : Nat} (hA : A ∈ scc)
    (hy : (hdrsOf G (sccOfIn G G.blocks A)).length ≤ 1 ∨
      ∀ b ∈ sccOfIn G G.blocks A, b ∈ scc) :
    (hdrsOf (fixSCC G scc).out
        (sccOfIn (fixSCC G scc).out (fixSCC G scc).out.blocks A)).length ≤ 1 := by
  have hwf := fixWf_of_wfG hw hnd hsub
  refine length_le_one_of_unique (((fix_blocks_nodup G scc hwf).filter _).filter _) ?_
  intro a ha b hb
  have hca := X_header_cases G scc hw hnd hsub hmut hreach hgate hA ha
  have hcb := X_header_cases G scc hw hnd hsub hmut hreach hgate hA hb
  rcases hy with hclean | hfull
  · rcases hca with ha1 | ⟨ha2, ha3⟩ <;> rcases hcb with hb1 | ⟨hb2, hb3⟩
    · rw [ha1, hb1]
    · exfalso
      rw [ha1] at ha
      obtain ⟨t, ht, hnr⟩ :=
        disp_header_witness G scc hw hnd hsub hmut hgate hA ha
      obtain ⟨E, hEh, hESF⟩ :=
        unreachable_source_header G scc hw hsub hmut hA ht hnr
      have := mem_of_len_le_one hclean hb2 hESF
      rw [this] at hb3
      exact hb3 hEh
    · exfalso
      rw [hb1] at hb
      obtain ⟨t, ht, hnr⟩ :=
        disp_header_witness G scc hw hnd hsub hmut hgate hA hb
      obtain ⟨E, hEh, hESF⟩ :=
        unreachable_source_header G scc hw hsub hmut hA ht hnr
      have := mem_of_len_le_one hclean ha2 hESF
      rw [this] at ha3
      exact ha3 hEh
    · exact mem_of_len_le_one hclean ha2 hb2
  · rcases hca with ha1 | ⟨ha2, ha3⟩
    · rcases hcb with hb1 | ⟨hb2, hb3⟩
      · rw [ha1, hb1]
      · exact absurd (no_surviving_header_full G scc hw hsub hmut hA hfull hb2 hb3)
          (fun h => h)
    · exact absurd (no_surviving_header_full G scc hw hsub hmut hA hfull ha2 ha3)
        (fun h => h)

/-- Every block of the rewritten graph stays reachable from the entry. -/
theorem fix_all_reach (G : CFG) (scc : List Nat)
    (hw : WfG G) (hnd : scc.Nodup) (hsub : ∀ b ∈ scc, b ∈ G.blocks)
    (hmut : ∀ a ∈ scc, ∀ b ∈ scc, ReachW G a b)
    (hreach : ∀ b ∈ G.blocks, b ∈ reachSet G)
    (hgate : 2 ≤ (hdrsOf G scc).length) {A : Nat} (hA : A ∈ scc) :
    ∀ b ∈ (fixSCC G scc).out.blocks, b ∈ reachSet (fixSCC G scc).out := by
  have hwf := fixWf_of_wfG hw hnd hsub
  have hent : G.entry ∈ G.blocks := hw.2.1
  have hold : ∀ b ∈ G.blocks, ReachW (fixSCC G scc).out G.entry b := by
    intro b hb
    obtain ⟨p, hp⟩ := (mem_reachSet_iff G b).mp (hreach b hb)
    exact fix_reach_old_mpr G scc hwf hent ⟨p, hp⟩
  have hfwd : ∀ t ∈ fwdSpecs G (hdrsOf G scc) (freshB G + 2),
      ReachW (fixSCC G scc).out G.entry t.1 := by
    intro t ht
    exact reachW_trans (hold _ (fix_fwd_edge G scc hwf ht).1)
      (reachW_of_edge (fwd_mem_fix_blocks G scc ht) (fix_fwd_edge G scc hwf ht).2)
  have hD : ReachW (fixSCC G scc).out G.entry (freshB G) := by
    obtain ⟨t, ht, _⟩ := exists_internal_source G scc hnd hsub hmut hreach hgate hA
    exact reachW_trans (hfwd t ht)
      (reachW_of_edge (disp_mem_fix_blocks G scc)
        (by rw [fwd_succ_disp G scc ht]; simp))
  intro b hb
  rw [mem_reachSet_iff]
  have hentEq : (fixSCC G scc).out.entry = G.entry := fix_entry_eq G scc
  rcases mem_fix_blocks_cases G scc hb with h | h | h | ⟨t, ht, hte⟩
  · obtain ⟨p, hp⟩ := hold b h
    exact ⟨p, by rw [hentEq]; exact hp⟩
  · obtain ⟨p, hp⟩ := hD
    rw [h]
    exact ⟨p, by rw [hentEq]; exact hp⟩
  · obtain ⟨p, hp⟩ := reachW_trans hD
      (reachW_of_edge (dflt_mem_fix_blocks G scc)
        (by rw [fix_succs, newSuccs_disp]; exact List.mem_append_right _ (by simp)))
    rw [h]
    exact ⟨p, by rw [hentEq]; exact hp⟩
  · obtain ⟨p, hp⟩ := hfwd t ht
    rw [← hte]
    exact ⟨p, by rw [hentEq]; exact hp⟩

/-- One fix of an irreducible component: untouched classes stay untouched
(with identical header lists), every touched or new class drops to at most
one header, and all blocks remain reachable. -/
theorem fix_clean (G : CFG) (scc : List Nat)
    (hw : WfG G) (hnd : scc.Nodup) (hsub : ∀ b ∈ scc, b ∈ G.blocks)
    (hmut : ∀ a ∈ scc, ∀ b ∈ scc, ReachW G a b)
    (hreach : ∀ b ∈ G.blocks, b ∈ reachSet G)
    (hgate : 2 ≤ (hdrsOf G scc).length) {A : Nat} (hA : A ∈ scc)
    (hy : (hdrsOf G (sccOfIn G G.blocks A)).length ≤ 1 ∨
      ∀ b ∈ sccOfIn G G.blocks A, b ∈ scc) :
    (∀ B ∈ G.blocks, ¬(ReachW G A B ∧ ReachW G B A) →
        sccOfIn (fixSCC G scc).out (fixSCC G scc).out.blocks B =
          sccOfIn G G.blocks B ∧
        hdrsOf (fixSCC G scc).out (sccOfIn G G.blocks B) =
          hdrsOf G (sccOfIn G G.blocks B)) ∧
    (∀ B ∈ (fixSCC G scc).out.blocks,
        (B ∈ G.blocks ∧ ¬(ReachW G A B ∧ ReachW G B A)) ∨
        (hdrsOf (fixSCC G scc).out
          (sccOfIn (fixSCC G scc).out (fixSCC G scc).out.blocks B)).length ≤ 1) ∧
    (∀ b ∈ (fixSCC G scc).out.blocks, b ∈ reachSet (fixSCC G scc).out) := by
  have hwf := fixWf_of_wfG hw hnd hsub
  have hAb := hsub A hA
  refine ⟨?_, ?_, fix_all_reach G scc hw hnd hsub hmut hreach hgate hA⟩
  · intro B hB hout
    exact ⟨scc_fix_stable G scc hw hnd hsub hmut hA hB hout,
      hdrs_fix_stable G scc hw hnd hsub hmut hA hB hout⟩
  · intro B hB
    rcases mem_fix_blocks_cases G scc hB with hold | hD | hU | ⟨t, ht, hte⟩
    · by_cases hmutB : ReachW G A B ∧ ReachW G B A
      · right
        have hBSF : B ∈ sccOfIn G G.blocks A :=
          (mem_sccFull_iff G hw.2.2.1 hAb).mpr ⟨hold, hmutB.1, hmutB.2⟩
        have hBX : B ∈ sccOfIn (fixSCC G scc).out (fixSCC G scc).out.blocks A :=
          (mem_scc_fix_old_iff G scc hw hnd hsub hmut hAb hold).mpr hBSF
        rw [sccOfIn_eq_of_mem _ _ hBX]
        exact fix_X_clean G scc hw hnd hsub hmut hreach hgate hA hy
      · exact Or.inl ⟨hold, hmutB⟩
    · right
      have hBX : freshB G ∈ sccOfIn (fixSCC G scc).out (fixSCC G scc).out.blocks A :=
        disp_mem_scc_fix G scc hw hnd hsub hmut hreach hgate hA
      rw [hD, sccOfIn_eq_of_mem _ _ hBX]
      exact fix_X_clean G scc hw hnd hsub hmut hreach hgate hA hy
    · right
      rw [hU]
      refine le_trans (List.length_filter_le _ _) ?_
      refine length_le_one_of_unique
        ((fix_blocks_nodup G scc hwf).filter _) ?_
      intro a ha b hb
      rw [scc_fix_dflt_members G scc hwf a ha, scc_fix_dflt_members G scc hwf b hb]
    · by_cases hr : ReachW G A t.2.1
      · right
        have hBX : t.1 ∈ sccOfIn (fixSCC G scc).out (fixSCC G scc).out.blocks A :=
          (fwd_mem_scc_fix_iff G scc hw hnd hsub hmut hgate ht hA).mpr hr
        rw [← hte, sccOfIn_eq_of_mem _ _ hBX]
        exact fix_X_clean G scc hw hnd hsub hmut hreach hgate hA hy
      · right
        rw [← hte]
        refine le_trans (List.length_filter_le _ _) ?_
        refine length_le_one_of_unique
          ((fix_blocks_nodup G scc hwf).filter _) ?_
        intro a ha b hb
        rw [scc_fix_fwd_members G scc hw hnd hsub hmut hA ht hr a ha,
          scc_fix_fwd_members G scc hw hnd hsub hmut hA ht hr b hb]

/-- Global single-header cleanness: every component of the function's full
view has at most one header. -/
def Clean (G : CFG) : Prop :=
  ∀ A ∈ G.blocks, (hdrsOf G (sccOfIn G G.blocks A)).length ≤ 1

/-- Invariant of a driver step's result: the graph stays well-formed, fully
reachable and clean, old blocks persist, and every queued region is a
well-formed sub-view of the graph. -/
def PostOK (G0 : CFG) (res : CFG × List SubGr) : Prop :=
  WfG res.1 ∧ (∀ b ∈ res.1.blocks, b ∈ reachSet res.1) ∧ Clean res.1 ∧
  (∀ b ∈ G0.blocks, b ∈ res.1.blocks) ∧
  (∀ S ∈ res.2, S.sgEntry ∈ S.sgBlocks ∧ S.sgBlocks.Nodup ∧
    ∀ b ∈ S.sgBlocks, b ∈ res.1.blocks)

theorem processSCCs_cons_pos (G : CFG) (c : List Nat) (rest : List (List Nat))
    (h : 2 ≤ (hdrsOf G c).length) :
    processSCCs G (c :: rest) =
      ((processSCCs (fixSCC G c).out rest).1,
        ⟨(fixSCC G c).disp, (fixSCC G c).disp :: c⟩ ::
          (processSCCs (fixSCC G c).out rest).2) := by
  simp only [processSCCs, if_pos h]

theorem processSCCs_cons_neg (G : CFG) (c : List Nat) (rest : List (List Nat))
    (h : ¬ 2 ≤ (hdrsOf G c).length) :
    processSCCs G (c :: rest) = processSCCs G rest := by
  simp only [processSCCs, if_neg h]

/-- Steady state: processing any list of mutually-reachable components of a
clean graph keeps it clean. -/
theorem processSCCs_clean : ∀ (comps : List (List Nat)) (G : CFG),
    WfG G → (∀ b ∈ G.blocks, b ∈ reachSet G) → Clean G →
    (∀ c ∈ comps, c.Nodup ∧ (∀ b ∈ c, b ∈ G.blocks) ∧
      (∀ a ∈ c, ∀ b ∈ c, ReachW G a b)) →
    PostOK G (processSCCs G comps) := by
  intro comps
  induction comps with
  | nil =>
      intro G hw hreach hclean hcomps
      exact ⟨hw, hreach, hclean, fun b hb => hb, fun S hS => by cases hS⟩
  | cons c rest ih =>
      intro G hw hreach hclean hcomps
      obtain ⟨hcnd, hcsub, hcmut⟩ := hcomps c (List.mem_cons_self _ _)
      by_cases hgate : 2 ≤ (hdrsOf G c).length
      · have hcne : c ≠ [] := by
          intro h
          rw [h] at hgate
          simp [hdrsOf] at hgate
        obtain ⟨A, hA⟩ := List.exists_mem_of_ne_nil c hcne
        have hfix := fix_clean G c hw hcnd hcsub hcmut hreach hgate hA
          (Or.inl (hclean A (hcsub A hA)))
        have hw' : WfG (fixSCC G c).out := fix_wfG G c hw hcnd hcsub
        have hclean' : Clean (fixSCC G c).out := by
          intro B hB
          rcases hfix.2.1 B hB with ⟨hBold, hout⟩ | h
          · rw [(hfix.1 B hBold hout).1, (hfix.1 B hBold hout).2]
            exact hclean B hBold
          · exact h
        have hrest : ∀ c' ∈ rest, c'.Nodup ∧
            (∀ b ∈ c', b ∈ (fixSCC G c).out.blocks) ∧
            (∀ a ∈ c', ∀ b ∈ c', ReachW (fixSCC G c).out a b) := by
          intro c' hc'
          obtain ⟨hnd', hsub', hmut'⟩ := hcomps c' (List.mem_cons_of_mem _ hc')
          refine ⟨hnd', fun b hb => fix_blocks_sub G c b (hsub' b hb), ?_⟩
          intro a ha b hb
          exact fix_reach_old_mpr G c (fixWf_of_wfG hw hcnd hcsub) (hsub' a ha)
            (hmut' a ha b hb)
        have hres := ih (fixSCC G c).out hw' hfix.2.2 hclean' hrest
        rw [processSCCs_cons_pos G c rest hgate]
        refine ⟨hres.1, hres.2.1, hres.2.2.1, ?_, ?_⟩
        · intro b hb
          exact hres.2.2.2.1 b (fix_blocks_sub G c b hb)
        · intro S hS
          rcases List.mem_cons.mp hS with hS1 | hS1
          · subst hS1
            refine ⟨List.mem_cons_self _ _, ?_, ?_⟩
            · refine List.nodup_cons.mpr ⟨?_, hcnd⟩
              intro hmem
              have := lt_freshB G (hcsub _ hmem)
              have hdisp : (fixSCC G c).disp = freshB G := rfl
              omega
            · intro b hb
              rcases List.mem_cons.mp hb with hb1 | hb1
              · rw [hb1]
                exact hres.2.2.2.1 _ (disp_mem_fix_blocks G c)
              · exact hres.2.2.2.1 b (fix_blocks_sub G c b (hcsub b hb1))
          · exact hres.2.2.2.2 S hS1
      · have hres := ih G hw hreach hclean
          (fun c' hc' => hcomps c' (List.mem_cons_of_mem _ hc'))
        rw [processSCCs_cons_neg G c rest hgate]
        exact hres

/-- First pop: processing the full-view component list of a (possibly dirty)
graph leaves it clean — every irreducible full component is fixed, and fixing
a full component leaves at most the Dispatcher as its class's header. -/
theorem processSCCs_clean_init : ∀ (comps : List (List Nat)) (G : CFG),
    WfG G → (∀ b ∈ G.blocks, b ∈ reachSet G) →
    (∀ c ∈ comps, ∃ A ∈ G.blocks, A ∈ c ∧ c = sccOfIn G G.blocks A) →
    comps.Pairwise (fun c d => ∀ x ∈ c, x ∉ d) →
    (∀ B ∈ G.blocks, (hdrsOf G (sccOfIn G G.blocks B)).length ≤ 1 ∨
      ∃ c ∈ comps, B ∈ c) →
    PostOK G (processSCCs G comps) := by
  intro comps
  induction comps with
  | nil =>
      intro G hw hreach _ _ hcover
      refine ⟨hw, hreach, ?_, fun b hb => hb, fun S hS => by cases hS⟩
      intro B hB
      rcases hcover B hB with h | ⟨c, hc, _⟩
      · exact h
      · cases hc
  | cons c rest ih =>
      intro G hw hreach hcanon hpair hcover
      obtain ⟨A, hAb, hAc, hceq⟩ := hcanon c (List.mem_cons_self _ _)
      have hcnd : c.Nodup := by
        rw [hceq]
        exact sccOfIn_nodup G hw.1 A
      have hcsub : ∀ b ∈ c, b ∈ G.blocks := by
        rw [hceq]
        exact sccOfIn_subset G G.blocks A
      have hcmut : ∀ a ∈ c, ∀ b ∈ c, ReachW G a b := by
        intro a ha b hb
        rw [hceq] at ha hb
        have ha' := (mem_sccFull_iff G hw.2.2.1 hAb).mp ha
        have hb' := (mem_sccFull_iff G hw.2.2.1 hAb).mp hb
        exact reachW_trans ha'.2.2 hb'.2.1
      by_cases hgate : 2 ≤ (hdrsOf G c).length
      · have hfix := fix_clean G c hw hcnd hcsub hcmut hreach hgate hAc
          (Or.inr (by rw [← hceq]; intro b hb; exact hb))
        have hw' : WfG (fixSCC G c).out := fix_wfG G c hw hcnd hcsub
        have hwf := fixWf_of_wfG hw hcnd hcsub
        -- a block outside this component's class is not mutually reachable
        -- with its base
        have houtside : ∀ {B : Nat}, B ∈ G.blocks → B ∉ c →
            ¬(ReachW G A B ∧ ReachW G B A) := by
          intro B hB hBc hmutB
          refine hBc ?_
          rw [hceq]
          exact (mem_sccFull_iff G hw.2.2.1 hAb).mpr ⟨hB, hmutB.1, hmutB.2⟩
        have hcanon' : ∀ c' ∈ rest, ∃ A' ∈ (fixSCC G c).out.blocks, A' ∈ c' ∧
            c' = sccOfIn (fixSCC G c).out (fixSCC G c).out.blocks A' := by
          intro c' hc'
          obtain ⟨A', hA'b, hA'c, hc'eq⟩ := hcanon c' (List.mem_cons_of_mem _ hc')
          have hdis := (List.pairwise_cons.mp hpair).1 c' hc'
          have hout : ¬(ReachW G A A' ∧ ReachW G A' A) :=
            houtside hA'b (fun hA'in => hdis A' hA'in hA'c)
          refine ⟨A', fix_blocks_sub G c A' hA'b, hA'c, ?_⟩
          rw [(hfix.1 A' hA'b hout).1, ← hc'eq]
        have hcover' : ∀ B ∈ (fixSCC G c).out.blocks,
            (hdrsOf (fixSCC G c).out
              (sccOfIn (fixSCC G c).out (fixSCC G c).out.blocks B)).length ≤ 1 ∨
            ∃ c' ∈ rest, B ∈ c' := by
          intro B hB
          rcases hfix.2.1 B hB with ⟨hBold, hout⟩ | h
          · rcases hcover B hBold with hcl | ⟨c0, hc0, hBc0⟩
            · left
              rw [(hfix.1 B hBold hout).1, (hfix.1 B hBold hout).2]
              exact hcl
            · rcases List.mem_cons.mp hc0 with hc01 | hc01
              · exfalso
                subst hc01
                exact hout (⟨hcmut A hAc B hBc0, hcmut B hBc0 A hAc⟩)
              · exact Or.inr ⟨c0, hc01, hBc0⟩
          · exact Or.inl h
        have hres := ih (fixSCC G c).out hw' hfix.2.2 hcanon'
          (List.pairwise_cons.mp hpair).2 hcover'
        rw [processSCCs_cons_pos G c rest hgate]
        refine ⟨hres.1, hres.2.1, hres.2.2.1, ?_, ?_⟩
        · intro b hb
          exact hres.2.2.2.1 b (fix_blocks_sub G c b hb)
        · intro S hS
          rcases List.mem_cons.mp hS with hS1 | hS1
          · subst hS1
            refine ⟨List.mem_cons_self _ _, ?_, ?_⟩
            · refine List.nodup_cons.mpr ⟨?_, hcnd⟩
              intro hmem
              have := lt_freshB G (hcsub _ hmem)
              have hdisp : (fixSCC G c).disp = freshB G := rfl
              omega
            · intro b hb
              rcases List.mem_cons.mp hb with hb1 | hb1
              · rw [hb1]
                exact hres.2.2.2.1 _ (disp_mem_fix_blocks G c)
              · exact hres.2.2.2.1 b (fix_blocks_sub G c b (hcsub b hb1))
          · exact hres.2.2.2.2 S hS1
      · have hcover' : ∀ B ∈ G.blocks,
            (hdrsOf G (sccOfIn G G.blocks B)).length ≤ 1 ∨
            ∃ c' ∈ rest, B ∈ c' := by
          intro B hB
          rcases hcover B hB with hcl | ⟨c0, hc0, hBc0⟩
          · exact Or.inl hcl
          · rcases List.mem_cons.mp hc0 with hc01 | hc01
            · left
              subst hc01
              have hBA : B ∈ sccOfIn G G.blocks A := by
                rw [← hceq]
                exact hBc0
              rw [sccOfIn_eq_of_mem G G.blocks hBA, ← hceq]
              omega
            · exact Or.inr ⟨c0, hc01, hBc0⟩
        have hres := ih G hw hreach
          (fun c' hc' => hcanon c' (List.mem_cons_of_mem _ hc'))
          (List.pairwise_cons.mp hpair).2 hcover'
        rw [processSCCs_cons_neg G c rest hgate]
        exact hres

theorem sccListAux_acc_sub (G : CFG) (members : List Nat) :
    ∀ (roots : List Nat) (acc : List (List Nat)) (c : List Nat), c ∈ acc →
      c ∈ sccListAux G members roots acc := by
  intro roots
  induction roots with
  | nil =>
      intro acc c hc
      simpa [sccListAux] using hc
  | cons A rest ih =>
      intro acc c hc
      simp only [sccListAux]
      by_cases h : acc.any (fun c0 => c0.contains A)
      · rw [if_pos h]
        exact ih acc c hc
      · rw [if_neg h]
        exact ih _ c (List.mem_cons_of_mem _ hc)

theorem sccListAux_covers (G : CFG) (members : List Nat) :
    ∀ (roots : List Nat) (acc : List (List Nat)) (B : Nat), B ∈ roots →
      B ∈ members → ∃ c ∈ sccListAux G members roots acc, B ∈ c := by
  intro roots
  induction roots with
  | nil => intro acc B hB; cases hB
  | cons A rest ih =>
      intro acc B hB hBm
      simp only [sccListAux]
      rcases List.mem_cons.mp hB with hBA | hBr
      · subst hBA
        by_cases h : acc.any (fun c0 => c0.contains B)
        · rw [if_pos h]
          rw [List.any_eq_true] at h
          obtain ⟨c0, hc0, hBc0⟩ := h
          exact ⟨c0, sccListAux_acc_sub G members rest acc c0 hc0,
            by simpa using hBc0⟩
        · rw [if_neg h]
          exact ⟨sccOfIn G members B,
            sccListAux_acc_sub G members rest _ _ (List.mem_cons_self _ _),
            self_mem_sccOfIn G members hBm⟩
      · by_cases h : acc.any (fun c0 => c0.contains A)
        · rw [if_pos h]
          exact ih acc B hBr hBm
        · rw [if_neg h]
          exact ih _ B hBr hBm

/-- Popping a region of a clean graph keeps it clean. -/
theorem processOnce_clean (G : CFG) (R : SubGr) (hw : WfG G)
    (hreach : ∀ b ∈ G.blocks, b ∈ reachSet G) (hclean : Clean G)
    (hRe : R.sgEntry ∈ R.sgBlocks) (hRnd : R.sgBlocks.Nodup)
    (hRsub : ∀ b ∈ R.sgBlocks, b ∈ G.blocks) :
    PostOK G (processOnce G R) := by
  have hcomps := sccList_spec G R hRe
  refine processSCCs_clean (sccList G R) G hw hreach hclean ?_
  intro c hc
  obtain ⟨A, hAm, hceq⟩ := hcomps.1 c hc
  subst hceq
  refine ⟨hRnd.filter _, ?_, ?_⟩
  · intro b hb
    exact hRsub b (sccOfIn_subset G R.sgBlocks A b hb)
  · intro a ha b hb
    obtain ⟨_, _, ⟨qa, hqa⟩⟩ := (mem_sccOfIn_iff G R.sgBlocks A a).mp ha
    obtain ⟨_, ⟨pb, hpb⟩, _⟩ := (mem_sccOfIn_iff G R.sgBlocks A b).mp hb
    exact reachW_trans ⟨qa, walk_full_of_viewM G hRsub hqa⟩
      ⟨pb, walk_full_of_viewM G hRsub hpb⟩

/-- The first pop — the whole function — leaves the graph clean. -/
theorem processOnce_first (G : CFG) (hw : WfG G)
    (hreach : ∀ b ∈ G.blocks, b ∈ reachSet G) :
    PostOK G (processOnce G ⟨G.entry, G.blocks⟩) := by
  have hcomps := sccList_spec G ⟨G.entry, G.blocks⟩ hw.2.1
  refine processSCCs_clean_init (sccList G ⟨G.entry, G.blocks⟩) G hw hreach
    ?_ hcomps.2 ?_
  · intro c hc
    obtain ⟨A, hAm, hceq⟩ := hcomps.1 c hc
    refine ⟨A, hAm, ?_, hceq⟩
    rw [hceq]
    exact self_mem_sccOfIn G _ hAm
  · intro B hB
    have hroot : B ∈ reachIn G G.blocks G.entry := by
      rw [mem_reachIn_iff]
      obtain ⟨p, hp⟩ := (mem_reachSet_iff G B).mp (hreach B hB)
      exact ⟨p, walk_view_of_full G hp hw.2.1⟩
    obtain ⟨c, hc, hBc⟩ :=
      sccListAux_covers G G.blocks (reachIn G G.blocks G.entry) [] B hroot hB
    exact Or.inr ⟨c, hc, hBc⟩

/-- Along any run of the driver that empties its queue, the final graph is
well-formed and clean. -/
theorem driverSteps_clean : ∀ (n : Nat) (G : CFG) (q : List SubGr),
    WfG G → (∀ b ∈ G.blocks, b ∈ reachSet G) →
    (∀ R ∈ q, R.sgEntry ∈ R.sgBlocks ∧ R.sgBlocks.Nodup ∧
      ∀ b ∈ R.sgBlocks, b ∈ G.blocks) →
    (Clean G ∨ q = [⟨G.entry, G.blocks⟩]) →
    (driverSteps n G q).2 = [] →
    WfG (driverSteps n G q).1 ∧ Clean (driverSteps n G q).1 ∧
      (∀ b ∈ (driverSteps n G q).1.blocks, b ∈ reachSet (driverSteps n G q).1) := by
  intro n
  induction n with
  | zero =>
      intro G q hw hreach hq hdisj hdone
      rcases hdisj with h | h
      · exact ⟨hw, h, hreach⟩
      · exfalso
        rw [h] at hdone
        simp [driverSteps] at hdone
  | succ n ih =>
      intro G q hw hreach hq hdisj hdone
      cases q with
      | nil =>
          rcases hdisj with h | h
          · exact ⟨hw, h, hreach⟩
          · simp at h
      | cons R rest =>
          have hstep : PostOK G (processOnce G R) := by
            rcases hdisj with hclean | hinit
            · obtain ⟨hRe, hRnd, hRsub⟩ := hq R (List.mem_cons_self _ _)
              exact processOnce_clean G R hw hreach hclean hRe hRnd hRsub
            · injection hinit with h1 h2
              rw [h1]
              exact processOnce_first G hw hreach
          have hqueue : ∀ S ∈ rest ++ (processOnce G R).2,
              S.sgEntry ∈ S.sgBlocks ∧ S.sgBlocks.Nodup ∧
              ∀ b ∈ S.sgBlocks, b ∈ (processOnce G R).1.blocks := by
            intro S hS
            rcases List.mem_append.mp hS with h | h
            · rcases hdisj with hclean | hinit
              · obtain ⟨h1, h2, h3⟩ := hq S (List.mem_cons_of_mem _ h)
                exact ⟨h1, h2, fun b hb => hstep.2.2.2.1 b (h3 b hb)⟩
              · injection hinit with h1 h2
                rw [h2] at h
                cases h
            · exact hstep.2.2.2.2 S h
          exact ih (processOnce G R).1 (rest ++ (processOnce G R).2)
            hstep.1 hstep.2.1 hqueue (Or.inl hstep.2.2.1) hdone

theorem driver_eq_driverSteps : ∀ (fuel : Nat) (G : CFG) (q : List SubGr),
    driver fuel G q = (driverSteps fuel G q).1 := by
  intro fuel
  induction fuel with
  | zero => intro G q; rfl
  | succ n ih =>
      intro G q
      cases q with
      | nil => rfl
      | cons R rest => exact ih (processOnce G R).1 (rest ++ (processOnce G R).2)

/-- A clean well-formed graph is a fixed point of the pass: the first pop
finds no irreducible component and the queue dies immediately. -/
theorem clean_runPass_eq (G : CFG) (hw : WfG G) (hclean : Clean G) :
    ∀ m, runPass m G = G := by
  intro m
  rw [runPass]
  cases m with
  | zero => rfl
  | succ n =>
      have hcomps := sccList_spec G ⟨G.entry, G.blocks⟩ hw.2.1
      have hp : processOnce G ⟨G.entry, G.blocks⟩ = (G, []) := by
        refine processSCCs_no_fix G _ ?_
        intro scc hscc
        obtain ⟨A, hAm, hceq⟩ := hcomps.1 scc hscc
        rw [hceq]
        exact hclean A hAm
      show driver n (processOnce G ⟨G.entry, G.blocks⟩).1
        ([] ++ (processOnce G ⟨G.entry, G.blocks⟩).2) = G
      rw [hp]
      exact driver_nil n G

/-- The function entry dominates every block. -/
theorem entry_dominates (G : CFG) (x : Nat) : dominatesB G G.entry x = true := by
  unfold dominatesB reachAvoid
  rw [if_pos rfl]
  simp

theorem first_pred_split {X : List Nat} :
    ∀ {l : List Nat} {a : Nat}, a ∈ l → a ∈ X →
      ∃ s b t, l = s ++ b :: t ∧ b ∈ X ∧ ∀ y ∈ s, y ∉ X := by
  intro l
  induction l with
  | nil => intro a h; cases h
  | cons c rest ih =>
      intro a hal haX
      by_cases hc : c ∈ X
      · exact ⟨[], c, rest, rfl, hc, fun y hy => absurd hy (List.not_mem_nil y)⟩
      · have har : a ∈ rest := by
          rcases List.mem_cons.mp hal with h | h
          · exact absurd (h ▸ haX) hc
          · exact h
        obtain ⟨s, b, t, hst, hbX, hsX⟩ := ih har haX
        refine ⟨c :: s, b, t, by rw [hst]; rfl, hbX, ?_⟩
        intro y hy
        rcases List.mem_cons.mp hy with h | h
        · rw [h]
          exact hc
        · exact hsX y h

/-- A walk from the entry into a component the entry does not belong to
crosses a header of the component. -/
theorem walk_first_scc_header (G : CFG) {keep : Nat → Bool}
    (hkeep : ∀ v, keep v = true → v ∈ G.blocks)
    (hentb : G.entry ∈ G.blocks)
    {A : Nat} {x : Nat} {p : List Nat}
    (hp : Walk G.succs keep G.entry p x)
    (hent : G.entry ∉ sccOfIn G G.blocks A)
    (hx : x ∈ sccOfIn G G.blocks A) :
    ∃ b ∈ hdrsOf G (sccOfIn G G.blocks A), b ∈ p := by
  have hxe : x ≠ G.entry := by
    intro h
    exact hent (h ▸ hx)
  have hpne : p ≠ [] := by
    intro h
    subst h
    exact hxe (walk_last_eq hp rfl)
  have hxp : x ∈ p := walk_end_mem hp hpne
  obtain ⟨s, b, t, hst, hbX, hsX⟩ := first_pred_split hxp hx
  rw [hst] at hp
  have hpre : Walk G.succs keep G.entry (s ++ [b]) b := walk_prefix_to s hp
  obtain ⟨w, hw, hws, hwm⟩ := walk_split_last s hpre
  have hwb : w ∈ G.blocks := by
    rcases hwm with h | h
    · exact h ▸ hentb
    · exact hkeep w (walk_mem_keep hpre w (List.mem_append.mpr (Or.inl h)))
  have hwnX : w ∉ sccOfIn G G.blocks A := by
    rcases hwm with h | h
    · exact h ▸ hent
    · exact hsX w h
  refine ⟨b, ?_, ?_⟩
  · refine List.mem_filter.mpr ⟨hbX, ?_⟩
    rw [List.any_eq_true]
    exact ⟨w, (mem_predsOf G b w).mpr ⟨hwb, hws⟩, by simpa using hwnX⟩
  · rw [hst]
    exact List.mem_append.mpr (Or.inr (List.mem_cons_self _ _))

/-- C6: the pass is idempotent. For a fully reachable well-formed function
whose driver run completes (the work queue empties within the given fuel),
running `FixIrreducibleControlFlow::runOnFunction` again on the transformed
function, with any fuel, is a no-op: the CFG is returned unchanged, so in
particular no further Dispatcher blocks are inserted and no terminator or
phi-merge record is modified. -/
theorem c6_idempotent (G : CFG) (n : Nat) (hw : WfG G)
    (hreach : ∀ b ∈ G.blocks, b ∈ reachSet G)
    (hdone : (driverSteps n G [⟨G.entry, G.blocks⟩]).2 = []) :
    ∀ m, runPass m (runPass n G) = runPass n G := by
  have hq : ∀ R ∈ [(⟨G.entry, G.blocks⟩ : SubGr)], R.sgEntry ∈ R.sgBlocks ∧
      R.sgBlocks.Nodup ∧ ∀ b ∈ R.sgBlocks, b ∈ G.blocks := by
    intro R hR
    have hR' : R = ⟨G.entry, G.blocks⟩ := by simpa using hR
    subst hR'
    exact ⟨hw.2.1, hw.1, fun b hb => hb⟩
  have hres := driverSteps_clean n G [⟨G.entry, G.blocks⟩] hw hreach hq
    (Or.inr rfl) hdone
  have heq : runPass n G = (driverSteps n G [⟨G.entry, G.blocks⟩]).1 := by
    rw [runPass]
    exact driver_eq_driverSteps n G _
  rw [heq]
  exact clean_runPass_eq _ hres.1 hres.2.1

theorem c6_idempotent_witness :
    WfG twoEntryG ∧ (∀ b ∈ twoEntryG.blocks, b ∈ reachSet twoEntryG) ∧
    (driverSteps 3 twoEntryG [⟨twoEntryG.entry, twoEntryG.blocks⟩]).2 = [] ∧
    runPass 1 (runPass 3 twoEntryG) = runPass 3 twoEntryG :=
  ⟨by decide, by decide, by decide,
    c6_idempotent twoEntryG 3 (by decide) (by decide) (by decide) 1⟩

/-- C2: after `FixIrreducibleControlFlow::runOnFunction` completes, the CFG
is reducible. For a fully reachable well-formed function whose driver run
completes within the given fuel: every component of the transformed
function's full view has at most one header (a single entry from outside),
and some member of the component dominates every one of its blocks — the
function entry if the component contains it, its unique header otherwise. -/
theorem c2_reducible (G : CFG) (n : Nat) (hw : WfG G)
    (hreach : ∀ b ∈ G.blocks, b ∈ reachSet G)
    (hdone : (driverSteps n G [⟨G.entry, G.blocks⟩]).2 = []) :
    ∀ A ∈ (runPass n G).blocks,
      (hdrsOf (runPass n G)
        (sccOfIn (runPass n G) (runPass n G).blocks A)).length ≤ 1 ∧
      ∃ H ∈ sccOfIn (runPass n G) (runPass n G).blocks A,
        ∀ x ∈ sccOfIn (runPass n G) (runPass n G).blocks A,
          dominatesB (runPass n G) H x = true := by
  have hq : ∀ R ∈ [(⟨G.entry, G.blocks⟩ : SubGr)], R.sgEntry ∈ R.sgBlocks ∧
      R.sgBlocks.Nodup ∧ ∀ b ∈ R.sgBlocks, b ∈ G.blocks := by
    intro R hR
    have hR' : R = ⟨G.entry, G.blocks⟩ := by simpa using hR
    subst hR'
    exact ⟨hw.2.1, hw.1, fun b hb => hb⟩
  obtain ⟨hwf, hclean, hareach⟩ :=
    driverSteps_clean n G [⟨G.entry, G.blocks⟩] hw hreach hq (Or.inr rfl) hdone
  have heq : runPass n G = (driverSteps n G [⟨G.entry, G.blocks⟩]).1 := by
    rw [runPass]
    exact driver_eq_driverSteps n G _
  rw [heq] at *
  set Gf := (driverSteps n G [⟨G.entry, G.blocks⟩]).1 with hGf
  intro A hA
  refine ⟨hclean A hA, ?_⟩
  by_cases hent : Gf.entry ∈ sccOfIn Gf Gf.blocks A
  · exact ⟨Gf.entry, hent, fun x _ => entry_dominates Gf x⟩
  · obtain ⟨p, hp⟩ := (mem_reachSet_iff Gf A).mp (hareach A hA)
    obtain ⟨H, hH, _⟩ := walk_first_scc_header Gf
      (fun v hv => by simpa [blocksKeep] using hv) hwf.2.1 hp hent
      (self_mem_sccOfIn Gf Gf.blocks hA)
    refine ⟨H, (List.mem_filter.mp hH).1, ?_⟩
    intro x hx
    by_contra hc
    rw [Bool.not_eq_true] at hc
    obtain ⟨hne, hxav⟩ := (dominatesB_eq_false_iff Gf).mp hc
    obtain ⟨hentne, q, hq2⟩ := (mem_reachAvoid_iff Gf H x).mp hxav
    obtain ⟨H', hH', hH'q⟩ := walk_first_scc_header Gf
      (fun v hv => by
        simp only [avoidKeep, Bool.and_eq_true] at hv
        simpa using hv.2) hwf.2.1 hq2 hent hx
    have hHH : H' = H := mem_of_len_le_one (hclean A hA) hH' hH
    have hk := walk_mem_keep hq2 H' hH'q
    simp only [avoidKeep, Bool.and_eq_true, decide_eq_true_eq] at hk
    exact hk.1 hHH

theorem c2_reducible_witness :
    WfG twoEntryG ∧ (∀ b ∈ twoEntryG.blocks, b ∈ reachSet twoEntryG) ∧
    (driverSteps 3 twoEntryG [⟨twoEntryG.entry, twoEntryG.blocks⟩]).2 = [] ∧
    (∀ A ∈ (runPass 3 twoEntryG).blocks,
      (hdrsOf (runPass 3 twoEntryG)
        (sccOfIn (runPass 3 twoEntryG) (runPass 3 twoEntryG).blocks A)).length ≤ 1 ∧
      ∃ H ∈ sccOfIn (runPass 3 twoEntryG) (runPass 3 twoEntryG).blocks A,
        ∀ x ∈ sccOfIn (runPass 3 twoEntryG) (runPass 3 twoEntryG).blocks A,
          dominatesB (runPass 3 twoEntryG) H x = true) :=
  ⟨by decide, by decide, by decide,
    c2_reducible twoEntryG 3 (by decide) (by decide) (by decide)⟩

end CheerpFix
